import Mathlib

/-!
# HPACK codec of `minihpack` (Go), embedded in Lean

Shallow embedding of `hpack.go` and `hpack_table.go`:

* Go `byte`/`uint8` is `Fin 256`; `string` and `[]byte` are `List Byte`.
* Wider machine integers are `Nat` with the wrap-around written out
  (`% 2 ^ 64` for `uint64`, `% 65536` for `uint16`, ...).
* A Go call ends in one of three ways: it returns a value, it returns a
  non-nil `error`, or it panics at run time (index or slice bound out of range).
  `Res` keeps the three apart.  A fourth outcome, `stuck`, is reserved for loops
  of the model whose fuel is exhausted; the fuel the entry points pass is always
  enough (`decodeHuffmanLoop_enough`, `DecodeHeader_ne_stuck`,
  `encodeIntLoop_fuel`).
* Slices are values: the aliasing of Go slices (writes through a shared backing
  array, capacity beyond the length) is not part of the model.  A slice is taken
  with capacity equal to its length, so every bound beyond the length panics.
  With spare capacity Go lets `rb[:l]` in `decodeStrings` reach behind the
  length; such a call then ends in a Huffman error or in the panic of `rb[l:]`,
  never in a result, and no theorem below depends on which of the two it is.
* `strings.ToLower` belongs to the Go standard library, not to the repository,
  and it also lowers letters outside ASCII.  The encoder therefore takes the
  function as an argument `lower`, and the theorems about the encoder hold for
  every `lower`.  Where the encoder is evaluated on names made of octets below
  `0x80`, `asciiToLower` is passed: on such names it is what the library returns.
-/

namespace Hpack

/-! ## Data model -/

/-- Go `byte`. -/
abbrev Byte := Fin 256

/-- Conversion `byte(x)` / `uint8(x)` of a wider unsigned integer. -/
def byte (x : Nat) : Byte := Fin.ofNat x

/-- Outcome of a Go call. -/
inductive Res (α : Type) where
  | ok (a : α)
  | error (msg : String)
  | crash
  | stuck
  deriving DecidableEq, Repr

/-- Sequencing of calls, as in `x, err := f(); if err != nil return err`. -/
def Res.bind {α β : Type} (r : Res α) (f : α → Res β) : Res β :=
  match r with
  | .ok a => f a
  | .error m => .error m
  | .crash => .crash
  | .stuck => .stuck

/-- True when the call returned a non-nil `error`. -/
def Res.isError {α : Type} : Res α → Bool
  | .error _ => true
  | _ => false

/-- Header type `KeyValue`. -/
structure KeyValue where
  Key : List Byte
  Value : List Byte
  deriving DecidableEq, Repr

/-- Connection state `HpackConn` (`TableSizeLimit` is a `uint32`). -/
structure HpackConn where
  DynamicTable : List KeyValue
  TableSizeLimit : Nat
  deriving DecidableEq, Repr

/-- Bytes of an ASCII string literal (used to write test vectors). -/
def str (s : String) : List Byte := s.toList.map (fun c => byte c.toNat)

/-! ## Prefix integers (`decodeIntValue`, `encodeIntValue`) -/

/-- The expression `1<<n - 1` evaluated in `uint8`. -/
def mask8 (n : Nat) : Nat := ((1 <<< n) % 256 + 255) % 256

/-- The expression `1<<n - 1` evaluated in `uint64`. -/
def mask64 (n : Nat) : Nat := ((1 <<< n) % 2 ^ 64 + (2 ^ 64 - 1)) % 2 ^ 64

/-- The continuation loop of `decodeIntValue`, `for bi := 1; ; bi++`, run on
`original[bi:]`: `tmp` and `m` are `uint64`. Reading past the end panics. -/
def decodeIntLoop : List Byte → Nat → Nat → Res (Nat × List Byte)
  | [], _, _ => .crash
  | b :: rest, tmp, m =>
    let bv := b.val &&& 127
    let tmp := (tmp + (bv <<< m) % 2 ^ 64) % 2 ^ 64
    if b.val &&& 128 = 0 then .ok (tmp, rest)
    else decodeIntLoop rest tmp ((m + 7) % 2 ^ 64)

/-- `decodeIntValue(original, n)`: value and remaining octets. -/
def decodeIntValue (original : List Byte) (n : Nat) : Res (Nat × List Byte) :=
  if n > 8 then .error "bad n"
  else
    match original with
    | [] => .crash
    | b0 :: rest =>
      let i := b0.val &&& mask8 n
      if i < mask64 n then .ok (i, rest)
      else decodeIntLoop rest (mask64 n) 0

/-- The loop of `encodeIntValue` building `after`. The first argument is fuel;
`v >> 7 < v` whenever `v ≥ 127`, so fuel `v` is enough, and with fuel `0` the
value is `0 < 127`, the loop's exit. -/
def encodeIntLoop : Nat → Nat → List Byte → List Byte
  | 0, v, after => after ++ [byte (v &&& 127)]
  | fuel + 1, v, after =>
    if v < 127 then after ++ [byte (v &&& 127)]
    else encodeIntLoop fuel (v >>> 7) (after ++ [byte ((v &&& 127) ||| 128)])

/-- `encodeIntValue(original, n, value)`; `value` is a `uint64`, and
`value - (1<<n - 1)` is taken only when `value` is not below the subtrahend. -/
def encodeIntValue (original : List Byte) (n : Nat) (value : Nat) : Res (List Byte) :=
  if n > 8 then .error "bad n"
  else
    match original.getLast? with
    | none => .crash
    | some last =>
      if value < mask64 n then
        .ok (original.dropLast ++ [byte (last.val ||| (value % 256))])
      else
        let original := original.dropLast ++ [byte (last.val ||| mask8 n)]
        let v := value - mask64 n
        .ok (original ++ encodeIntLoop v v [])

/-- The octets `encodeIntValue` leaves in place of a final opcode octet `p`: the
prefix octet followed by the continuation octets. -/
def intBytes (p : Byte) (n v : Nat) : List Byte :=
  if v < 2 ^ n - 1 then [byte (p.val ||| v % 256)]
  else byte (p.val ||| (2 ^ n - 1)) :: encodeIntLoop (v - (2 ^ n - 1)) (v - (2 ^ n - 1)) []


/-! ## Dynamic-table eviction (`cutHeader`) -/

/-- Size of one entry as `cutHeader` counts it: `len(Key) + len(Value) + 32`. -/
def entrySize (kv : KeyValue) : Int := kv.Key.length + kv.Value.length + 32

/-- Total size of a table. -/
def tableSize (t : List KeyValue) : Int := (t.map entrySize).sum

/-- The loop of `cutHeader` from running size `i` (an `int`): the entries kept. -/
def cutHeaderLoop (limit : Int) : Int → List KeyValue → List KeyValue
  | _, [] => []
  | i, kv :: rest =>
    let i := i + kv.Key.length
    let i := i + kv.Value.length
    let i := i + 32
    if i > limit then [] else kv :: cutHeaderLoop limit i rest

/-- `cutHeader(kvSlice, limit)`: `kvSlice[0:c]` for the first `c` at which the
running size exceeds `limit`, the whole slice when there is none. -/
def cutHeader (kvSlice : List KeyValue) (limit : Int) : List KeyValue :=
  cutHeaderLoop limit 0 kvSlice

/-! ## Bits (`Bin`, `BinToByte`, `ByteToBin`, `BinToUint32`) -/

/-- Go `type Bin bool`. -/
abbrev Bin := Bool

/-- Constant `One Bin = true`. -/
abbrev One : Bin := true

/-- Constant `Zero Bin = false`. -/
abbrev Zero : Bin := false

/-- Loop state of `BinToByte`: `dst`, `buffer`, `c`, `cur`. -/
structure BinToByteState where
  dst : List Byte
  buffer : Byte
  c : Nat
  cur : Nat
  deriving DecidableEq, Repr

/-- One iteration of `for _, b := range bi` in `BinToByte`. -/
def BinToByteStep (st : BinToByteState) (b : Bin) : BinToByteState :=
  let cur := (st.c % 8) % 256
  let flush := st.c ≠ 0 ∧ cur = 0
  let dst := if flush then st.dst ++ [st.buffer] else st.dst
  let buffer := if flush then byte 0 else st.buffer
  let buffer :=
    if b = One then byte (buffer.val ||| ((1 <<< (7 - cur)) % 256))
    else byte (buffer.val ||| ((0 <<< (7 - cur)) % 256))
  ⟨dst, buffer, st.c + 1, cur⟩

/-- The padding loop `for i := cur; i < 7; i++ { buffer |= 1 << (6 - i) }`;
the first argument counts the iterations left, `7 - i`. -/
def BinToBytePad : Nat → Nat → Byte → Byte
  | 0, _, buffer => buffer
  | k + 1, i, buffer => BinToBytePad k (i + 1) (byte (buffer.val ||| ((1 <<< (6 - i)) % 256)))

/-- `BinToByte(bi)`. -/
def BinToByte (bi : List Bin) : List Byte :=
  let st := bi.foldl BinToByteStep ⟨[], byte 0, 0, 0⟩
  if st.cur = 7 then st.dst ++ [st.buffer]
  else st.dst ++ [BinToBytePad (7 - st.cur) st.cur st.buffer]

/-- The eight bits of one octet, `(b<<i)&128 == 128` for `i = 0..7`. -/
def byteBits (b : Byte) : List Bin :=
  (List.range 8).map (fun i => decide (((b.val <<< i) % 256) &&& 128 = 128))

/-- `ByteToBin(encoded)`. -/
def ByteToBin (encoded : List Byte) : List Bin :=
  encoded.foldl (fun binlist b => binlist ++ byteBits b) []

/-- `BinToUint32(binlist)`, in `uint32` arithmetic. -/
def BinToUint32 (binlist : List Bin) : Nat :=
  (binlist.foldl
    (fun value b => ((if b = One then (value + 1) % 2 ^ 32 else value) <<< 1) % 2 ^ 32) 0) >>> 1

/-! ## Tables -/

/-- Lower-casing of a string of octets below `0x80`: the letters `A`..`Z` are
replaced by `a`..`z` and every other octet is kept. On such strings this is what
`strings.ToLower` of the Go standard library returns. It is passed to the
encoder where the encoder is evaluated on names made of such octets. -/
def asciiToLower (s : List Byte) : List Byte :=
  s.map (fun b => if 65 ≤ b.val ∧ b.val ≤ 90 then byte (b.val + 32) else b)

/-- A `KeyValue{Key: k, Value: v}` literal. -/
def kv (k v : String) : KeyValue := ⟨str k, str v⟩

/-- The array `staticHeaderTable`. -/
def staticHeaderTable : List KeyValue := [
  kv ":authority" "",
  kv ":method" "GET",
  kv ":method" "POST",
  kv ":path" "/",
  kv ":path" "/index.html",
  kv ":scheme" "http",
  kv ":scheme" "https",
  kv ":status" "200",
  kv ":status" "204",
  kv ":status" "206",
  kv ":status" "304",
  kv ":status" "400",
  kv ":status" "404",
  kv ":status" "500",
  kv "accept-charset" "",
  kv "accept-encoding" "gzip, deflate",
  kv "accept-language" "",
  kv "accept-ranges" "",
  kv "accept" "",
  kv "access-control-allow-origin" "",
  kv "age" "",
  kv "allow" "",
  kv "authorization" "",
  kv "cache-control" "",
  kv "content-disposition" "",
  kv "content-encoding" "",
  kv "content-language" "",
  kv "content-length" "",
  kv "content-location" "",
  kv "content-range" "",
  kv "content-type" "",
  kv "cookie" "",
  kv "date" "",
  kv "etag" "",
  kv "expect" "",
  kv "expires" "",
  kv "from" "",
  kv "host" "",
  kv "if-match" "",
  kv "if-modified-since" "",
  kv "if-none-match" "",
  kv "if-range" "",
  kv "if-unmodified-since" "",
  kv "last-modified" "",
  kv "link" "",
  kv "location" "",
  kv "max-forwards" "",
  kv "proxy-authenticate" "",
  kv "proxy-authorization" "",
  kv "range" "",
  kv "referer" "",
  kv "refresh" "",
  kv "retry-after" "",
  kv "server" "",
  kv "set-cookie" "",
  kv "strict-transport-security" "",
  kv "transfer-encoding" "",
  kv "user-agent" "",
  kv "vary" "",
  kv "via" "",
  kv "www-authenticate" ""]

/-- Entry type `huffman` of the decode table (`codeLen` is an `int`, never
negative). -/
structure huffman where
  b : Byte
  codeLen : Nat
  deriving DecidableEq, Repr

/-- One entry `byte(b): []Bin{...}` of the encode table. -/
def enc (b : Nat) (bits : List Bin) : Byte × List Bin := (byte b, bits)

/-- One entry `k: huffman{byte(b), l}` of the decode table. -/
def dec (k b l : Nat) : Nat × huffman := (k, ⟨byte b, l⟩)

/-- The map `huffmanEncodeTable`, entry by entry. -/
def huffmanEncodeTable : List (Byte × List Bin) := [
  enc 0 [One, One, One, One, One, One, One, One, One, One, Zero, Zero, Zero],
  enc 1 [One, One, One, One, One, One, One, One, One, One, One, One, One, One, One, One, One, Zero, One, One, Zero, Zero, Zero],
  enc 2 [One, One, One, One, One, One, One, One, One, One, One, One, One, One, One, One, One, One, One, One, One, One, One, Zero, Zero, Zero, One, Zero],
  enc 3 [One, One, One, One, One, One, One, One, One, One, One, One, One, One, One, One, One, One, One, One, One, One, One, Zero, Zero, Zero, One, One],
  enc 4 [One, One, One, One, One, One, One, One, One, One, One, One, One, One, One, One, One, One, One, One, One, One, One, Zero, Zero, One, Zero, Zero],
  enc 5 [One, One, One, One, One, One, One, One, One, One, One, One, One, One, One, One, One, One, One, One, One, One, One, Zero, Zero, One, Zero, One],
  enc 6 [One, One, One, One, One, One, One, One, One, One, One, One, One, One, One, One, One, One, One, One, One, One, One, Zero, Zero, One, One, Zero],
  enc 7 [One, One, One, One, One, One, One, One, One, One, One, One, One, One, One, One, One, One, One, One, One, One, One, Zero, Zero, One, One, One],
  enc 8 [One, One, One, One, One, One, One, One, One, One, One, One, One, One, One, One, One, One, One, One, One, One, One, Zero, One, Zero, Zero, Zero],
  enc 9 [One, One, One, One, One, One, One, One, One, One, One, One, One, One, One, One, One, One, One, Zero, One, Zero, One, Zero],
  enc 10 [One, One, One, One, One, One, One, One, One, One, One, One, One, One, One, One, One, One, One, One, One, One, One, One, One, One, One, One, Zero, Zero],
  enc 11 [One, One, One, One, One, One, One, One, One, One, One, One, One, One, One, One, One, One, One, One, One, One, One, Zero, One, Zero, Zero, One],
  enc 12 [One, One, One, One, One, One, One, One, One, One, One, One, One, One, One, One, One, One, One, One, One, One, One, Zero, One, Zero, One, Zero],
  enc 13 [One, One, One, One, One, One, One, One, One, One, One, One, One, One, One, One, One, One, One, One, One, One, One, One, One, One, One, One, Zero, One],
  enc 14 [One, One, One, One, One, One, One, One, One, One, One, One, One, One, One, One, One, One, One, One, One, One, One, Zero, One, Zero, One, One],
  enc 15 [One, One, One, One, One, One, One, One, One, One, One, One, One, One, One, One, One, One, One, One, One, One, One, Zero, One, One, Zero, Zero],
  enc 16 [One, One, One, One, One, One, One, One, One, One, One, One, One, One, One, One, One, One, One, One, One, One, One, Zero, One, One, Zero, One],
  enc 17 [One, One, One, One, One, One, One, One, One, One, One, One, One, One, One, One, One, One, One, One, One, One, One, Zero, One, One, One, Zero],
  enc 18 [One, One, One, One, One, One, One, One, One, One, One, One, One, One, One, One, One, One, One, One, One, One, One, Zero, One, One, One, One],
  enc 19 [One, One, One, One, One, One, One, One, One, One, One, One, One, One, One, One, One, One, One, One, One, One, One, One, Zero, Zero, Zero, Zero],
  enc 20 [One, One, One, One, One, One, One, One, One, One, One, One, One, One, One, One, One, One, One, One, One, One, One, One, Zero, Zero, Zero, One],
  enc 21 [One, One, One, One, One, One, One, One, One, One, One, One, One, One, One, One, One, One, One, One, One, One, One, One, Zero, Zero, One, Zero],
  enc 22 [One, One, One, One, One, One, One, One, One, One, One, One, One, One, One, One, One, One, One, One, One, One, One, One, One, One, One, One, One, Zero],
  enc 23 [One, One, One, One, One, One, One, One, One, One, One, One, One, One, One, One, One, One, One, One, One, One, One, One, Zero, Zero, One, One],
  enc 24 [One, One, One, One, One, One, One, One, One, One, One, One, One, One, One, One, One, One, One, One, One, One, One, One, Zero, One, Zero, Zero],
  enc 25 [One, One, One, One, One, One, One, One, One, One, One, One, One, One, One, One, One, One, One, One, One, One, One, One, Zero, One, Zero, One],
  enc 26 [One, One, One, One, One, One, One, One, One, One, One, One, One, One, One, One, One, One, One, One, One, One, One, One, Zero, One, One, Zero],
  enc 27 [One, One, One, One, One, One, One, One, One, One, One, One, One, One, One, One, One, One, One, One, One, One, One, One, Zero, One, One, One],
  enc 28 [One, One, One, One, One, One, One, One, One, One, One, One, One, One, One, One, One, One, One, One, One, One, One, One, One, Zero, Zero, Zero],
  enc 29 [One, One, One, One, One, One, One, One, One, One, One, One, One, One, One, One, One, One, One, One, One, One, One, One, One, Zero, Zero, One],
  enc 30 [One, One, One, One, One, One, One, One, One, One, One, One, One, One, One, One, One, One, One, One, One, One, One, One, One, Zero, One, Zero],
  enc 31 [One, One, One, One, One, One, One, One, One, One, One, One, One, One, One, One, One, One, One, One, One, One, One, One, One, Zero, One, One],
  enc 32 [Zero, One, Zero, One, Zero, Zero],
  enc 33 [One, One, One, One, One, One, One, Zero, Zero, Zero],
  enc 34 [One, One, One, One, One, One, One, Zero, Zero, One],
  enc 35 [One, One, One, One, One, One, One, One, One, Zero, One, Zero],
  enc 36 [One, One, One, One, One, One, One, One, One, One, Zero, Zero, One],
  enc 37 [Zero, One, Zero, One, Zero, One],
  enc 38 [One, One, One, One, One, Zero, Zero, Zero],
  enc 39 [One, One, One, One, One, One, One, One, Zero, One, Zero],
  enc 40 [One, One, One, One, One, One, One, Zero, One, Zero],
  enc 41 [One, One, One, One, One, One, One, Zero, One, One],
  enc 42 [One, One, One, One, One, Zero, Zero, One],
  enc 43 [One, One, One, One, One, One, One, One, Zero, One, One],
  enc 44 [One, One, One, One, One, Zero, One, Zero],
  enc 45 [Zero, One, Zero, One, One, Zero],
  enc 46 [Zero, One, Zero, One, One, One],
  enc 47 [Zero, One, One, Zero, Zero, Zero],
  enc 48 [Zero, Zero, Zero, Zero, Zero],
  enc 49 [Zero, Zero, Zero, Zero, One],
  enc 50 [Zero, Zero, Zero, One, Zero],
  enc 51 [Zero, One, One, Zero, Zero, One],
  enc 52 [Zero, One, One, Zero, One, Zero],
  enc 53 [Zero, One, One, Zero, One, One],
  enc 54 [Zero, One, One, One, Zero, Zero],
  enc 55 [Zero, One, One, One, Zero, One],
  enc 56 [Zero, One, One, One, One, Zero],
  enc 57 [Zero, One, One, One, One, One],
  enc 58 [One, Zero, One, One, One, Zero, Zero],
  enc 59 [One, One, One, One, One, Zero, One, One],
  enc 60 [One, One, One, One, One, One, One, One, One, One, One, One, One, Zero, Zero],
  enc 61 [One, Zero, Zero, Zero, Zero, Zero],
  enc 62 [One, One, One, One, One, One, One, One, One, Zero, One, One],
  enc 63 [One, One, One, One, One, One, One, One, Zero, Zero],
  enc 64 [One, One, One, One, One, One, One, One, One, One, Zero, One, Zero],
  enc 65 [One, Zero, Zero, Zero, Zero, One],
  enc 66 [One, Zero, One, One, One, Zero, One],
  enc 67 [One, Zero, One, One, One, One, Zero],
  enc 68 [One, Zero, One, One, One, One, One],
  enc 69 [One, One, Zero, Zero, Zero, Zero, Zero],
  enc 70 [One, One, Zero, Zero, Zero, Zero, One],
  enc 71 [One, One, Zero, Zero, Zero, One, Zero],
  enc 72 [One, One, Zero, Zero, Zero, One, One],
  enc 73 [One, One, Zero, Zero, One, Zero, Zero],
  enc 74 [One, One, Zero, Zero, One, Zero, One],
  enc 75 [One, One, Zero, Zero, One, One, Zero],
  enc 76 [One, One, Zero, Zero, One, One, One],
  enc 77 [One, One, Zero, One, Zero, Zero, Zero],
  enc 78 [One, One, Zero, One, Zero, Zero, One],
  enc 79 [One, One, Zero, One, Zero, One, Zero],
  enc 80 [One, One, Zero, One, Zero, One, One],
  enc 81 [One, One, Zero, One, One, Zero, Zero],
  enc 82 [One, One, Zero, One, One, Zero, One],
  enc 83 [One, One, Zero, One, One, One, Zero],
  enc 84 [One, One, Zero, One, One, One, One],
  enc 85 [One, One, One, Zero, Zero, Zero, Zero],
  enc 86 [One, One, One, Zero, Zero, Zero, One],
  enc 87 [One, One, One, Zero, Zero, One, Zero],
  enc 88 [One, One, One, One, One, One, Zero, Zero],
  enc 89 [One, One, One, Zero, Zero, One, One],
  enc 90 [One, One, One, One, One, One, Zero, One],
  enc 91 [One, One, One, One, One, One, One, One, One, One, Zero, One, One],
  enc 92 [One, One, One, One, One, One, One, One, One, One, One, One, One, One, One, Zero, Zero, Zero, Zero],
  enc 93 [One, One, One, One, One, One, One, One, One, One, One, Zero, Zero],
  enc 94 [One, One, One, One, One, One, One, One, One, One, One, One, Zero, Zero],
  enc 95 [One, Zero, Zero, Zero, One, Zero],
  enc 96 [One, One, One, One, One, One, One, One, One, One, One, One, One, Zero, One],
  enc 97 [Zero, Zero, Zero, One, One],
  enc 98 [One, Zero, Zero, Zero, One, One],
  enc 99 [Zero, Zero, One, Zero, Zero],
  enc 100 [One, Zero, Zero, One, Zero, Zero],
  enc 101 [Zero, Zero, One, Zero, One],
  enc 102 [One, Zero, Zero, One, Zero, One],
  enc 103 [One, Zero, Zero, One, One, Zero],
  enc 104 [One, Zero, Zero, One, One, One],
  enc 105 [Zero, Zero, One, One, Zero],
  enc 106 [One, One, One, Zero, One, Zero, Zero],
  enc 107 [One, One, One, Zero, One, Zero, One],
  enc 108 [One, Zero, One, Zero, Zero, Zero],
  enc 109 [One, Zero, One, Zero, Zero, One],
  enc 110 [One, Zero, One, Zero, One, Zero],
  enc 111 [Zero, Zero, One, One, One],
  enc 112 [One, Zero, One, Zero, One, One],
  enc 113 [One, One, One, Zero, One, One, Zero],
  enc 114 [One, Zero, One, One, Zero, Zero],
  enc 115 [Zero, One, Zero, Zero, Zero],
  enc 116 [Zero, One, Zero, Zero, One],
  enc 117 [One, Zero, One, One, Zero, One],
  enc 118 [One, One, One, Zero, One, One, One],
  enc 119 [One, One, One, One, Zero, Zero, Zero],
  enc 120 [One, One, One, One, Zero, Zero, One],
  enc 121 [One, One, One, One, Zero, One, Zero],
  enc 122 [One, One, One, One, Zero, One, One],
  enc 123 [One, One, One, One, One, One, One, One, One, One, One, One, One, One, Zero],
  enc 124 [One, One, One, One, One, One, One, One, One, Zero, Zero],
  enc 125 [One, One, One, One, One, One, One, One, One, One, One, One, Zero, One],
  enc 126 [One, One, One, One, One, One, One, One, One, One, One, Zero, One],
  enc 127 [One, One, One, One, One, One, One, One, One, One, One, One, One, One, One, One, One, One, One, One, One, One, One, One, One, One, Zero, Zero],
  enc 128 [One, One, One, One, One, One, One, One, One, One, One, One, One, One, One, Zero, Zero, One, One, Zero],
  enc 129 [One, One, One, One, One, One, One, One, One, One, One, One, One, One, One, One, Zero, One, Zero, Zero, One, Zero],
  enc 130 [One, One, One, One, One, One, One, One, One, One, One, One, One, One, One, Zero, Zero, One, One, One],
  enc 131 [One, One, One, One, One, One, One, One, One, One, One, One, One, One, One, Zero, One, Zero, Zero, Zero],
  enc 132 [One, One, One, One, One, One, One, One, One, One, One, One, One, One, One, One, Zero, One, Zero, Zero, One, One],
  enc 133 [One, One, One, One, One, One, One, One, One, One, One, One, One, One, One, One, Zero, One, Zero, One, Zero, Zero],
  enc 134 [One, One, One, One, One, One, One, One, One, One, One, One, One, One, One, One, Zero, One, Zero, One, Zero, One],
  enc 135 [One, One, One, One, One, One, One, One, One, One, One, One, One, One, One, One, One, Zero, One, One, Zero, Zero, One],
  enc 136 [One, One, One, One, One, One, One, One, One, One, One, One, One, One, One, One, Zero, One, Zero, One, One, Zero],
  enc 137 [One, One, One, One, One, One, One, One, One, One, One, One, One, One, One, One, One, Zero, One, One, Zero, One, Zero],
  enc 138 [One, One, One, One, One, One, One, One, One, One, One, One, One, One, One, One, One, Zero, One, One, Zero, One, One],
  enc 139 [One, One, One, One, One, One, One, One, One, One, One, One, One, One, One, One, One, Zero, One, One, One, Zero, Zero],
  enc 140 [One, One, One, One, One, One, One, One, One, One, One, One, One, One, One, One, One, Zero, One, One, One, Zero, One],
  enc 141 [One, One, One, One, One, One, One, One, One, One, One, One, One, One, One, One, One, Zero, One, One, One, One, Zero],
  enc 142 [One, One, One, One, One, One, One, One, One, One, One, One, One, One, One, One, One, One, One, Zero, One, Zero, One, One],
  enc 143 [One, One, One, One, One, One, One, One, One, One, One, One, One, One, One, One, One, Zero, One, One, One, One, One],
  enc 144 [One, One, One, One, One, One, One, One, One, One, One, One, One, One, One, One, One, One, One, Zero, One, One, Zero, Zero],
  enc 145 [One, One, One, One, One, One, One, One, One, One, One, One, One, One, One, One, One, One, One, Zero, One, One, Zero, One],
  enc 146 [One, One, One, One, One, One, One, One, One, One, One, One, One, One, One, One, Zero, One, Zero, One, One, One],
  enc 147 [One, One, One, One, One, One, One, One, One, One, One, One, One, One, One, One, One, One, Zero, Zero, Zero, Zero, Zero],
  enc 148 [One, One, One, One, One, One, One, One, One, One, One, One, One, One, One, One, One, One, One, Zero, One, One, One, Zero],
  enc 149 [One, One, One, One, One, One, One, One, One, One, One, One, One, One, One, One, One, One, Zero, Zero, Zero, Zero, One],
  enc 150 [One, One, One, One, One, One, One, One, One, One, One, One, One, One, One, One, One, One, Zero, Zero, Zero, One, Zero],
  enc 151 [One, One, One, One, One, One, One, One, One, One, One, One, One, One, One, One, One, One, Zero, Zero, Zero, One, One],
  enc 152 [One, One, One, One, One, One, One, One, One, One, One, One, One, One, One, One, One, One, Zero, Zero, One, Zero, Zero],
  enc 153 [One, One, One, One, One, One, One, One, One, One, One, One, One, One, One, Zero, One, One, One, Zero, Zero],
  enc 154 [One, One, One, One, One, One, One, One, One, One, One, One, One, One, One, One, Zero, One, One, Zero, Zero, Zero],
  enc 155 [One, One, One, One, One, One, One, One, One, One, One, One, One, One, One, One, One, One, Zero, Zero, One, Zero, One],
  enc 156 [One, One, One, One, One, One, One, One, One, One, One, One, One, One, One, One, Zero, One, One, Zero, Zero, One],
  enc 157 [One, One, One, One, One, One, One, One, One, One, One, One, One, One, One, One, One, One, Zero, Zero, One, One, Zero],
  enc 158 [One, One, One, One, One, One, One, One, One, One, One, One, One, One, One, One, One, One, Zero, Zero, One, One, One],
  enc 159 [One, One, One, One, One, One, One, One, One, One, One, One, One, One, One, One, One, One, One, Zero, One, One, One, One],
  enc 160 [One, One, One, One, One, One, One, One, One, One, One, One, One, One, One, One, Zero, One, One, Zero, One, Zero],
  enc 161 [One, One, One, One, One, One, One, One, One, One, One, One, One, One, One, Zero, One, One, One, Zero, One],
  enc 162 [One, One, One, One, One, One, One, One, One, One, One, One, One, One, One, Zero, One, Zero, Zero, One],
  enc 163 [One, One, One, One, One, One, One, One, One, One, One, One, One, One, One, One, Zero, One, One, Zero, One, One],
  enc 164 [One, One, One, One, One, One, One, One, One, One, One, One, One, One, One, One, Zero, One, One, One, Zero, Zero],
  enc 165 [One, One, One, One, One, One, One, One, One, One, One, One, One, One, One, One, One, One, Zero, One, Zero, Zero, Zero],
  enc 166 [One, One, One, One, One, One, One, One, One, One, One, One, One, One, One, One, One, One, Zero, One, Zero, Zero, One],
  enc 167 [One, One, One, One, One, One, One, One, One, One, One, One, One, One, One, Zero, One, One, One, One, Zero],
  enc 168 [One, One, One, One, One, One, One, One, One, One, One, One, One, One, One, One, One, One, Zero, One, Zero, One, Zero],
  enc 169 [One, One, One, One, One, One, One, One, One, One, One, One, One, One, One, One, Zero, One, One, One, Zero, One],
  enc 170 [One, One, One, One, One, One, One, One, One, One, One, One, One, One, One, One, Zero, One, One, One, One, Zero],
  enc 171 [One, One, One, One, One, One, One, One, One, One, One, One, One, One, One, One, One, One, One, One, Zero, Zero, Zero, Zero],
  enc 172 [One, One, One, One, One, One, One, One, One, One, One, One, One, One, One, Zero, One, One, One, One, One],
  enc 173 [One, One, One, One, One, One, One, One, One, One, One, One, One, One, One, One, Zero, One, One, One, One, One],
  enc 174 [One, One, One, One, One, One, One, One, One, One, One, One, One, One, One, One, One, One, Zero, One, Zero, One, One],
  enc 175 [One, One, One, One, One, One, One, One, One, One, One, One, One, One, One, One, One, One, Zero, One, One, Zero, Zero],
  enc 176 [One, One, One, One, One, One, One, One, One, One, One, One, One, One, One, One, Zero, Zero, Zero, Zero, Zero],
  enc 177 [One, One, One, One, One, One, One, One, One, One, One, One, One, One, One, One, Zero, Zero, Zero, Zero, One],
  enc 178 [One, One, One, One, One, One, One, One, One, One, One, One, One, One, One, One, One, Zero, Zero, Zero, Zero, Zero],
  enc 179 [One, One, One, One, One, One, One, One, One, One, One, One, One, One, One, One, Zero, Zero, Zero, One, Zero],
  enc 180 [One, One, One, One, One, One, One, One, One, One, One, One, One, One, One, One, One, One, Zero, One, One, Zero, One],
  enc 181 [One, One, One, One, One, One, One, One, One, One, One, One, One, One, One, One, One, Zero, Zero, Zero, Zero, One],
  enc 182 [One, One, One, One, One, One, One, One, One, One, One, One, One, One, One, One, One, One, Zero, One, One, One, Zero],
  enc 183 [One, One, One, One, One, One, One, One, One, One, One, One, One, One, One, One, One, One, Zero, One, One, One, One],
  enc 184 [One, One, One, One, One, One, One, One, One, One, One, One, One, One, One, Zero, One, Zero, One, Zero],
  enc 185 [One, One, One, One, One, One, One, One, One, One, One, One, One, One, One, One, One, Zero, Zero, Zero, One, Zero],
  enc 186 [One, One, One, One, One, One, One, One, One, One, One, One, One, One, One, One, One, Zero, Zero, Zero, One, One],
  enc 187 [One, One, One, One, One, One, One, One, One, One, One, One, One, One, One, One, One, Zero, Zero, One, Zero, Zero],
  enc 188 [One, One, One, One, One, One, One, One, One, One, One, One, One, One, One, One, One, One, One, Zero, Zero, Zero, Zero],
  enc 189 [One, One, One, One, One, One, One, One, One, One, One, One, One, One, One, One, One, Zero, Zero, One, Zero, One],
  enc 190 [One, One, One, One, One, One, One, One, One, One, One, One, One, One, One, One, One, Zero, Zero, One, One, Zero],
  enc 191 [One, One, One, One, One, One, One, One, One, One, One, One, One, One, One, One, One, One, One, Zero, Zero, Zero, One],
  enc 192 [One, One, One, One, One, One, One, One, One, One, One, One, One, One, One, One, One, One, One, One, One, Zero, Zero, Zero, Zero, Zero],
  enc 193 [One, One, One, One, One, One, One, One, One, One, One, One, One, One, One, One, One, One, One, One, One, Zero, Zero, Zero, Zero, One],
  enc 194 [One, One, One, One, One, One, One, One, One, One, One, One, One, One, One, Zero, One, Zero, One, One],
  enc 195 [One, One, One, One, One, One, One, One, One, One, One, One, One, One, One, Zero, Zero, Zero, One],
  enc 196 [One, One, One, One, One, One, One, One, One, One, One, One, One, One, One, One, One, Zero, Zero, One, One, One],
  enc 197 [One, One, One, One, One, One, One, One, One, One, One, One, One, One, One, One, One, One, One, Zero, Zero, One, Zero],
  enc 198 [One, One, One, One, One, One, One, One, One, One, One, One, One, One, One, One, One, Zero, One, Zero, Zero, Zero],
  enc 199 [One, One, One, One, One, One, One, One, One, One, One, One, One, One, One, One, One, One, One, One, Zero, One, One, Zero, Zero],
  enc 200 [One, One, One, One, One, One, One, One, One, One, One, One, One, One, One, One, One, One, One, One, One, Zero, Zero, Zero, One, Zero],
  enc 201 [One, One, One, One, One, One, One, One, One, One, One, One, One, One, One, One, One, One, One, One, One, Zero, Zero, Zero, One, One],
  enc 202 [One, One, One, One, One, One, One, One, One, One, One, One, One, One, One, One, One, One, One, One, One, Zero, Zero, One, Zero, Zero],
  enc 203 [One, One, One, One, One, One, One, One, One, One, One, One, One, One, One, One, One, One, One, One, One, Zero, One, One, One, One, Zero],
  enc 204 [One, One, One, One, One, One, One, One, One, One, One, One, One, One, One, One, One, One, One, One, One, Zero, One, One, One, One, One],
  enc 205 [One, One, One, One, One, One, One, One, One, One, One, One, One, One, One, One, One, One, One, One, One, Zero, Zero, One, Zero, One],
  enc 206 [One, One, One, One, One, One, One, One, One, One, One, One, One, One, One, One, One, One, One, One, Zero, Zero, Zero, One],
  enc 207 [One, One, One, One, One, One, One, One, One, One, One, One, One, One, One, One, One, One, One, One, Zero, One, One, Zero, One],
  enc 208 [One, One, One, One, One, One, One, One, One, One, One, One, One, One, One, Zero, Zero, One, Zero],
  enc 209 [One, One, One, One, One, One, One, One, One, One, One, One, One, One, One, One, Zero, Zero, Zero, One, One],
  enc 210 [One, One, One, One, One, One, One, One, One, One, One, One, One, One, One, One, One, One, One, One, One, Zero, Zero, One, One, Zero],
  enc 211 [One, One, One, One, One, One, One, One, One, One, One, One, One, One, One, One, One, One, One, One, One, One, Zero, Zero, Zero, Zero, Zero],
  enc 212 [One, One, One, One, One, One, One, One, One, One, One, One, One, One, One, One, One, One, One, One, One, One, Zero, Zero, Zero, Zero, One],
  enc 213 [One, One, One, One, One, One, One, One, One, One, One, One, One, One, One, One, One, One, One, One, One, Zero, Zero, One, One, One],
  enc 214 [One, One, One, One, One, One, One, One, One, One, One, One, One, One, One, One, One, One, One, One, One, One, Zero, Zero, Zero, One, Zero],
  enc 215 [One, One, One, One, One, One, One, One, One, One, One, One, One, One, One, One, One, One, One, One, Zero, Zero, One, Zero],
  enc 216 [One, One, One, One, One, One, One, One, One, One, One, One, One, One, One, One, Zero, Zero, One, Zero, Zero],
  enc 217 [One, One, One, One, One, One, One, One, One, One, One, One, One, One, One, One, Zero, Zero, One, Zero, One],
  enc 218 [One, One, One, One, One, One, One, One, One, One, One, One, One, One, One, One, One, One, One, One, One, Zero, One, Zero, Zero, Zero],
  enc 219 [One, One, One, One, One, One, One, One, One, One, One, One, One, One, One, One, One, One, One, One, One, Zero, One, Zero, Zero, One],
  enc 220 [One, One, One, One, One, One, One, One, One, One, One, One, One, One, One, One, One, One, One, One, One, One, One, One, One, One, Zero, One],
  enc 221 [One, One, One, One, One, One, One, One, One, One, One, One, One, One, One, One, One, One, One, One, One, One, Zero, Zero, Zero, One, One],
  enc 222 [One, One, One, One, One, One, One, One, One, One, One, One, One, One, One, One, One, One, One, One, One, One, Zero, Zero, One, Zero, Zero],
  enc 223 [One, One, One, One, One, One, One, One, One, One, One, One, One, One, One, One, One, One, One, One, One, One, Zero, Zero, One, Zero, One],
  enc 224 [One, One, One, One, One, One, One, One, One, One, One, One, One, One, One, Zero, One, One, Zero, Zero],
  enc 225 [One, One, One, One, One, One, One, One, One, One, One, One, One, One, One, One, One, One, One, One, Zero, Zero, One, One],
  enc 226 [One, One, One, One, One, One, One, One, One, One, One, One, One, One, One, Zero, One, One, Zero, One],
  enc 227 [One, One, One, One, One, One, One, One, One, One, One, One, One, One, One, One, Zero, Zero, One, One, Zero],
  enc 228 [One, One, One, One, One, One, One, One, One, One, One, One, One, One, One, One, One, Zero, One, Zero, Zero, One],
  enc 229 [One, One, One, One, One, One, One, One, One, One, One, One, One, One, One, One, Zero, Zero, One, One, One],
  enc 230 [One, One, One, One, One, One, One, One, One, One, One, One, One, One, One, One, Zero, One, Zero, Zero, Zero],
  enc 231 [One, One, One, One, One, One, One, One, One, One, One, One, One, One, One, One, One, One, One, Zero, Zero, One, One],
  enc 232 [One, One, One, One, One, One, One, One, One, One, One, One, One, One, One, One, One, Zero, One, Zero, One, Zero],
  enc 233 [One, One, One, One, One, One, One, One, One, One, One, One, One, One, One, One, One, Zero, One, Zero, One, One],
  enc 234 [One, One, One, One, One, One, One, One, One, One, One, One, One, One, One, One, One, One, One, One, Zero, One, One, One, Zero],
  enc 235 [One, One, One, One, One, One, One, One, One, One, One, One, One, One, One, One, One, One, One, One, Zero, One, One, One, One],
  enc 236 [One, One, One, One, One, One, One, One, One, One, One, One, One, One, One, One, One, One, One, One, Zero, One, Zero, Zero],
  enc 237 [One, One, One, One, One, One, One, One, One, One, One, One, One, One, One, One, One, One, One, One, Zero, One, Zero, One],
  enc 238 [One, One, One, One, One, One, One, One, One, One, One, One, One, One, One, One, One, One, One, One, One, Zero, One, Zero, One, Zero],
  enc 239 [One, One, One, One, One, One, One, One, One, One, One, One, One, One, One, One, One, One, One, Zero, One, Zero, Zero],
  enc 240 [One, One, One, One, One, One, One, One, One, One, One, One, One, One, One, One, One, One, One, One, One, Zero, One, Zero, One, One],
  enc 241 [One, One, One, One, One, One, One, One, One, One, One, One, One, One, One, One, One, One, One, One, One, One, Zero, Zero, One, One, Zero],
  enc 242 [One, One, One, One, One, One, One, One, One, One, One, One, One, One, One, One, One, One, One, One, One, Zero, One, One, Zero, Zero],
  enc 243 [One, One, One, One, One, One, One, One, One, One, One, One, One, One, One, One, One, One, One, One, One, Zero, One, One, Zero, One],
  enc 244 [One, One, One, One, One, One, One, One, One, One, One, One, One, One, One, One, One, One, One, One, One, One, Zero, Zero, One, One, One],
  enc 245 [One, One, One, One, One, One, One, One, One, One, One, One, One, One, One, One, One, One, One, One, One, One, Zero, One, Zero, Zero, Zero],
  enc 246 [One, One, One, One, One, One, One, One, One, One, One, One, One, One, One, One, One, One, One, One, One, One, Zero, One, Zero, Zero, One],
  enc 247 [One, One, One, One, One, One, One, One, One, One, One, One, One, One, One, One, One, One, One, One, One, One, Zero, One, Zero, One, Zero],
  enc 248 [One, One, One, One, One, One, One, One, One, One, One, One, One, One, One, One, One, One, One, One, One, One, Zero, One, Zero, One, One],
  enc 249 [One, One, One, One, One, One, One, One, One, One, One, One, One, One, One, One, One, One, One, One, One, One, One, One, One, One, One, Zero],
  enc 250 [One, One, One, One, One, One, One, One, One, One, One, One, One, One, One, One, One, One, One, One, One, One, Zero, One, One, Zero, Zero],
  enc 251 [One, One, One, One, One, One, One, One, One, One, One, One, One, One, One, One, One, One, One, One, One, One, Zero, One, One, Zero, One],
  enc 252 [One, One, One, One, One, One, One, One, One, One, One, One, One, One, One, One, One, One, One, One, One, One, Zero, One, One, One, Zero],
  enc 253 [One, One, One, One, One, One, One, One, One, One, One, One, One, One, One, One, One, One, One, One, One, One, Zero, One, One, One, One],
  enc 254 [One, One, One, One, One, One, One, One, One, One, One, One, One, One, One, One, One, One, One, One, One, One, One, Zero, Zero, Zero, Zero],
  enc 255 [One, One, One, One, One, One, One, One, One, One, One, One, One, One, One, One, One, One, One, One, One, Zero, One, One, One, Zero]]

/-- The map `huffmanDecodeTable`, entry by entry. -/
def huffmanDecodeTable : List (Nat × huffman) := [
  dec 0x1ff8 0 13,
  dec 0x7fffd8 1 23,
  dec 0xfffffe2 2 28,
  dec 0xfffffe3 3 28,
  dec 0xfffffe4 4 28,
  dec 0xfffffe5 5 28,
  dec 0xfffffe6 6 28,
  dec 0xfffffe7 7 28,
  dec 0xfffffe8 8 28,
  dec 0xffffea 9 24,
  dec 0x3ffffffc 10 30,
  dec 0xfffffe9 11 28,
  dec 0xfffffea 12 28,
  dec 0x3ffffffd 13 30,
  dec 0xfffffeb 14 28,
  dec 0xfffffec 15 28,
  dec 0xfffffed 16 28,
  dec 0xfffffee 17 28,
  dec 0xfffffef 18 28,
  dec 0xffffff0 19 28,
  dec 0xffffff1 20 28,
  dec 0xffffff2 21 28,
  dec 0x3ffffffe 22 30,
  dec 0xffffff3 23 28,
  dec 0xffffff4 24 28,
  dec 0xffffff5 25 28,
  dec 0xffffff6 26 28,
  dec 0xffffff7 27 28,
  dec 0xffffff8 28 28,
  dec 0xffffff9 29 28,
  dec 0xffffffa 30 28,
  dec 0xffffffb 31 28,
  dec 0x14 32 6,
  dec 0x3f8 33 10,
  dec 0x3f9 34 10,
  dec 0xffa 35 12,
  dec 0x1ff9 36 13,
  dec 0x15 37 6,
  dec 0xf8 38 8,
  dec 0x7fa 39 11,
  dec 0x3fa 40 10,
  dec 0x3fb 41 10,
  dec 0xf9 42 8,
  dec 0x7fb 43 11,
  dec 0xfa 44 8,
  dec 0x16 45 6,
  dec 0x17 46 6,
  dec 0x18 47 6,
  dec 0x0 48 5,
  dec 0x1 49 5,
  dec 0x2 50 5,
  dec 0x19 51 6,
  dec 0x1a 52 6,
  dec 0x1b 53 6,
  dec 0x1c 54 6,
  dec 0x1d 55 6,
  dec 0x1e 56 6,
  dec 0x1f 57 6,
  dec 0x5c 58 7,
  dec 0xfb 59 8,
  dec 0x7ffc 60 15,
  dec 0x20 61 6,
  dec 0xffb 62 12,
  dec 0x3fc 63 10,
  dec 0x1ffa 64 13,
  dec 0x21 65 6,
  dec 0x5d 66 7,
  dec 0x5e 67 7,
  dec 0x5f 68 7,
  dec 0x60 69 7,
  dec 0x61 70 7,
  dec 0x62 71 7,
  dec 0x63 72 7,
  dec 0x64 73 7,
  dec 0x65 74 7,
  dec 0x66 75 7,
  dec 0x67 76 7,
  dec 0x68 77 7,
  dec 0x69 78 7,
  dec 0x6a 79 7,
  dec 0x6b 80 7,
  dec 0x6c 81 7,
  dec 0x6d 82 7,
  dec 0x6e 83 7,
  dec 0x6f 84 7,
  dec 0x70 85 7,
  dec 0x71 86 7,
  dec 0x72 87 7,
  dec 0xfc 88 8,
  dec 0x73 89 7,
  dec 0xfd 90 8,
  dec 0x1ffb 91 13,
  dec 0x7fff0 92 19,
  dec 0x1ffc 93 13,
  dec 0x3ffc 94 14,
  dec 0x22 95 6,
  dec 0x7ffd 96 15,
  dec 0x3 97 5,
  dec 0x23 98 6,
  dec 0x4 99 5,
  dec 0x24 100 6,
  dec 0x5 101 5,
  dec 0x25 102 6,
  dec 0x26 103 6,
  dec 0x27 104 6,
  dec 0x6 105 5,
  dec 0x74 106 7,
  dec 0x75 107 7,
  dec 0x28 108 6,
  dec 0x29 109 6,
  dec 0x2a 110 6,
  dec 0x7 111 5,
  dec 0x2b 112 6,
  dec 0x76 113 7,
  dec 0x2c 114 6,
  dec 0x8 115 5,
  dec 0x9 116 5,
  dec 0x2d 117 6,
  dec 0x77 118 7,
  dec 0x78 119 7,
  dec 0x79 120 7,
  dec 0x7a 121 7,
  dec 0x7b 122 7,
  dec 0x7ffe 123 15,
  dec 0x7fc 124 11,
  dec 0x3ffd 125 14,
  dec 0x1ffd 126 13,
  dec 0xffffffc 127 28,
  dec 0xfffe6 128 20,
  dec 0x3fffd2 129 22,
  dec 0xfffe7 130 20,
  dec 0xfffe8 131 20,
  dec 0x3fffd3 132 22,
  dec 0x3fffd4 133 22,
  dec 0x3fffd5 134 22,
  dec 0x7fffd9 135 23,
  dec 0x3fffd6 136 22,
  dec 0x7fffda 137 23,
  dec 0x7fffdb 138 23,
  dec 0x7fffdc 139 23,
  dec 0x7fffdd 140 23,
  dec 0x7fffde 141 23,
  dec 0xffffeb 142 24,
  dec 0x7fffdf 143 23,
  dec 0xffffec 144 24,
  dec 0xffffed 145 24,
  dec 0x3fffd7 146 22,
  dec 0x7fffe0 147 23,
  dec 0xffffee 148 24,
  dec 0x7fffe1 149 23,
  dec 0x7fffe2 150 23,
  dec 0x7fffe3 151 23,
  dec 0x7fffe4 152 23,
  dec 0x1fffdc 153 21,
  dec 0x3fffd8 154 22,
  dec 0x7fffe5 155 23,
  dec 0x3fffd9 156 22,
  dec 0x7fffe6 157 23,
  dec 0x7fffe7 158 23,
  dec 0xffffef 159 24,
  dec 0x3fffda 160 22,
  dec 0x1fffdd 161 21,
  dec 0xfffe9 162 20,
  dec 0x3fffdb 163 22,
  dec 0x3fffdc 164 22,
  dec 0x7fffe8 165 23,
  dec 0x7fffe9 166 23,
  dec 0x1fffde 167 21,
  dec 0x7fffea 168 23,
  dec 0x3fffdd 169 22,
  dec 0x3fffde 170 22,
  dec 0xfffff0 171 24,
  dec 0x1fffdf 172 21,
  dec 0x3fffdf 173 22,
  dec 0x7fffeb 174 23,
  dec 0x7fffec 175 23,
  dec 0x1fffe0 176 21,
  dec 0x1fffe1 177 21,
  dec 0x3fffe0 178 22,
  dec 0x1fffe2 179 21,
  dec 0x7fffed 180 23,
  dec 0x3fffe1 181 22,
  dec 0x7fffee 182 23,
  dec 0x7fffef 183 23,
  dec 0xfffea 184 20,
  dec 0x3fffe2 185 22,
  dec 0x3fffe3 186 22,
  dec 0x3fffe4 187 22,
  dec 0x7ffff0 188 23,
  dec 0x3fffe5 189 22,
  dec 0x3fffe6 190 22,
  dec 0x7ffff1 191 23,
  dec 0x3ffffe0 192 26,
  dec 0x3ffffe1 193 26,
  dec 0xfffeb 194 20,
  dec 0x7fff1 195 19,
  dec 0x3fffe7 196 22,
  dec 0x7ffff2 197 23,
  dec 0x3fffe8 198 22,
  dec 0x1ffffec 199 25,
  dec 0x3ffffe2 200 26,
  dec 0x3ffffe3 201 26,
  dec 0x3ffffe4 202 26,
  dec 0x7ffffde 203 27,
  dec 0x7ffffdf 204 27,
  dec 0x3ffffe5 205 26,
  dec 0xfffff1 206 24,
  dec 0x1ffffed 207 25,
  dec 0x7fff2 208 19,
  dec 0x1fffe3 209 21,
  dec 0x3ffffe6 210 26,
  dec 0x7ffffe0 211 27,
  dec 0x7ffffe1 212 27,
  dec 0x3ffffe7 213 26,
  dec 0x7ffffe2 214 27,
  dec 0xfffff2 215 24,
  dec 0x1fffe4 216 21,
  dec 0x1fffe5 217 21,
  dec 0x3ffffe8 218 26,
  dec 0x3ffffe9 219 26,
  dec 0xffffffd 220 28,
  dec 0x7ffffe3 221 27,
  dec 0x7ffffe4 222 27,
  dec 0x7ffffe5 223 27,
  dec 0xfffec 224 20,
  dec 0xfffff3 225 24,
  dec 0xfffed 226 20,
  dec 0x1fffe6 227 21,
  dec 0x3fffe9 228 22,
  dec 0x1fffe7 229 21,
  dec 0x1fffe8 230 21,
  dec 0x7ffff3 231 23,
  dec 0x3fffea 232 22,
  dec 0x3fffeb 233 22,
  dec 0x1ffffee 234 25,
  dec 0x1ffffef 235 25,
  dec 0xfffff4 236 24,
  dec 0xfffff5 237 24,
  dec 0x3ffffea 238 26,
  dec 0x7ffff4 239 23,
  dec 0x3ffffeb 240 26,
  dec 0x7ffffe6 241 27,
  dec 0x3ffffec 242 26,
  dec 0x3ffffed 243 26,
  dec 0x7ffffe7 244 27,
  dec 0x7ffffe8 245 27,
  dec 0x7ffffe9 246 27,
  dec 0x7ffffea 247 27,
  dec 0x7ffffeb 248 27,
  dec 0xffffffe 249 28,
  dec 0x7ffffec 250 27,
  dec 0x7ffffed 251 27,
  dec 0x7ffffee 252 27,
  dec 0x7ffffef 253 27,
  dec 0x7fffff0 254 27,
  dec 0x3ffffee 255 26]

/-! ## Table lookup (`searchHeaderTable`, `decodeHeaderTable`) -/

/-- A loop `for c, v := range tbl { if p v { return c } }` entered with counter
`c`: the index of the first hit. -/
def rangeFind (p : KeyValue → Bool) : List KeyValue → Nat → Option Nat
  | [], _ => none
  | v :: rest, c => if p v then some c else rangeFind p rest (c + 1)

/-- `searchHeaderTable(dHeaderTable, plain)`: the flags "not hit", "hit a key
only" and the index. -/
def searchHeaderTable (dHeaderTable : List KeyValue) (plain : KeyValue) : Bool × Bool × Nat :=
  match rangeFind (fun v => v.Key = plain.Key ∧ v.Value = plain.Value) dHeaderTable 0 with
  | some c => (false, false, c + 62)
  | none =>
    match rangeFind (fun v => v.Key = plain.Key ∧ v.Value = plain.Value) staticHeaderTable 0 with
    | some c => (false, false, c + 1)
    | none =>
      match rangeFind (fun v => v.Key = plain.Key) dHeaderTable 0 with
      | some c => (false, true, c + 62)
      | none =>
        match rangeFind (fun v => v.Key = plain.Key) staticHeaderTable 0 with
        | some c => (false, true, c + 1)
        | none => (true, false, 0)

/-- `decodeHeaderTable(idx, dHeaderTable)`; `idx` is a `uint16`, and the bound
`uint16(61+len(dHeaderTable))` wraps at 65536. -/
def decodeHeaderTable (idx : Nat) (dHeaderTable : List KeyValue) : Res KeyValue :=
  if idx ≤ 0 ∨ idx > (61 + dHeaderTable.length) % 65536 then
    .error "decoderHeaderTable: wrong idx"
  else if idx < 62 then
    match staticHeaderTable[idx - 1]? with
    | some v => .ok v
    | none => .crash
  else
    match dHeaderTable[idx - 62]? with
    | some v => .ok v
    | none => .crash

/-! ## Huffman strings and string literals -/

/-- The map access `huffmanEncodeTable[b]` (a missing key gives the empty slice). -/
def huffmanCode (b : Byte) : List Bin := (huffmanEncodeTable.lookup b).getD []

/-- The Huffman bits of a string: `bin = append(bin, huffmanEncodeTable[b]...)`
for every octet of `str`. -/
def huffmanBits (s : List Byte) : List Bin :=
  s.foldl (fun bin b => bin ++ huffmanCode b) []

/-- The slice expression `binlist[lo:hi]` for `lo ≤ hi ≤ len(binlist)`. -/
def slice {α : Type} (l : List α) (lo hi : Nat) : List α := (l.drop lo).take (hi - lo)

/-- The test `v, ok := huffmanDecodeTable[b]; if ok { if v.codeLen == codelen {`
of `decodeHuffmanStrings`: the octet to write, when the test passes. -/
def huffmanLookup (b : Nat) (codelen : Nat) : Option Byte :=
  match huffmanDecodeTable.lookup b with
  | some v => if v.codeLen = codelen then some v.b else none
  | none => none

/-- The main loop of `decodeHuffmanStrings`, `for cur := 4; cur < len(binlist)+1;
cur++`, with state `sChar` and `strByte`. The first argument is fuel. At the head
of every pass `sChar < cur` (`cur` starts at 4 with `sChar = 0`, and a hit sets
`sChar = cur` just before `cur++`), so `cur - sChar` is taken in `Nat`. -/
def decodeHuffmanLoop (binlist : List Bin) :
    Nat → Nat → Nat → List Byte → Res (Nat × List Byte)
  | 0, _, _, _ => .stuck
  | fuel + 1, cur, sChar, strByte =>
    if cur < binlist.length + 1 then
      let b := BinToUint32 (slice binlist sChar cur)
      let codelen := cur - sChar
      match huffmanLookup b codelen with
      | some x => decodeHuffmanLoop binlist fuel (cur + 1) cur (strByte ++ [x])
      | none =>
        if cur - sChar > 30 then
          .error "failed to decode huffman strings (can't find string)"
        else decodeHuffmanLoop binlist fuel (cur + 1) sChar strByte
    else .ok (sChar, strByte)

/-- `decodeHuffmanStrings(encoded)`. -/
def decodeHuffmanStrings (encoded : List Byte) : Res (List Byte) :=
  let binlist := ByteToBin encoded
  (decodeHuffmanLoop binlist (binlist.length + 1) 4 0 []).bind fun (sChar, strByte) =>
    if (binlist.drop sChar).length > 7 then
      .error "failed to decode huffman strings (too much eos)"
    else if (slice binlist sChar binlist.length).any (fun bit => bit = Zero) then
      .error "failed to decode huffman strings (wrong eos)"
    else .ok strByte

/-- `decodeStrings(original)`: the string and the remaining octets. A slice
bound beyond the octets present panics: the slice is taken with capacity equal
to its length. -/
def decodeStrings (original : List Byte) : Res (List Byte × List Byte) :=
  let r : Res (Nat × List Byte × Option String) :=
    match decodeIntValue original 7 with
    | .ok (l, rb) => .ok (l, rb, none)
    | .error m => .ok (0, [], some m)
    | .crash => .crash
    | .stuck => .stuck
  r.bind fun (l, rb, err) =>
    match original with
    | [] => .crash
    | b0 :: _ =>
      if b0.val &&& 128 = 128 then
        if l > rb.length then .crash
        else
          (decodeHuffmanStrings (rb.take l)).bind fun decoded => .ok (decoded, rb.drop l)
      else
        match err with
        | some m => .error m
        | none => if l > rb.length then .crash else .ok (rb.take l, rb.drop l)

/-- `encodeStrings(original, str, huf)`. -/
def encodeStrings (original : List Byte) (s : List Byte) (huf : Bool) : Res (List Byte) :=
  if huf = true then
    let bin := huffmanBits s
    let enc := BinToByte bin
    let by1 := original ++ [byte 128]
    (encodeIntValue by1 7 enc.length).bind fun by2 => .ok (by2 ++ enc)
  else
    let b := original ++ [byte 0]
    (encodeIntValue b 7 s.length).bind fun b => .ok (b ++ s)

/-! ## Header blocks (`EncodeHeader`, `DecodeHeader`) -/

/-- The insertion at the front written in both codecs:
`if len(d) > 0 { d = append(d[0:1], d[0:]...); d[0] = kv } else { d = append(d, kv) }`. -/
def pushFront (dynamicHeader : List KeyValue) (kv : KeyValue) : List KeyValue :=
  if dynamicHeader.length > 0 then
    (dynamicHeader.take 1 ++ dynamicHeader.drop 0).set 0 kv
  else dynamicHeader ++ [kv]

/-- One pass of the body of the `for` loop of `EncodeHeader` on the field
`plainBuffer[0]`: the octets appended to `encBuffer` and the new table.

The encoder calls `strings.ToLower` of the Go standard library, which is not
part of the repository and lowers letters outside ASCII as well. The function is
therefore an argument, `lower`, of the encoder: a theorem stated for every
`lower` holds for the library function, whatever it returns. -/
def encodeField (lower : List Byte → List Byte) (f : KeyValue) (dynamicHeader : List KeyValue) :
    Res (List Byte × List KeyValue) :=
  if lower f.Key ≠ str "cookie" ∧ lower f.Key ≠ str "set-cookie" then
    match searchHeaderTable dynamicHeader f with
    | (true, _, _) =>
      (encodeStrings [byte 64] f.Key true).bind fun b =>
      (encodeStrings b f.Value true).bind fun b =>
        .ok (b, pushFront dynamicHeader f)
    | (false, true, index) =>
      (encodeIntValue [byte 64] 6 index).bind fun b =>
      (encodeStrings b f.Value true).bind fun b =>
        .ok (b, pushFront dynamicHeader f)
    | (false, false, index) =>
      (encodeIntValue [byte 128] 7 index).bind fun b =>
        .ok (b, dynamicHeader)
  else
    let r :=
      if lower f.Key = str "cookie" then encodeIntValue [byte 10] 4 32
      else encodeIntValue [byte 10] 4 55
    r.bind fun b =>
    (encodeStrings b f.Value true).bind fun b =>
      .ok (b, dynamicHeader)

/-- The `for` loop of `EncodeHeader` over `plainBuffer`; reading `plainBuffer[0]`
of an empty slice panics, and the loop ends after the field that finds
`len(plainBuffer) == 1`. -/
def EncodeHeaderLoop (lower : List Byte → List Byte) :
    List KeyValue → List KeyValue → List Byte → Res (List Byte × List KeyValue)
  | [], _, _ => .crash
  | f :: rest, dynamicHeader, encBuffer =>
    (encodeField lower f dynamicHeader).bind fun (b, dynamicHeader) =>
      match rest with
      | [] => .ok (encBuffer ++ b, dynamicHeader)
      | _ :: _ => EncodeHeaderLoop lower rest dynamicHeader (encBuffer ++ b)

/-- `EncodeHeader(plainHeader, con)`, with `strings.ToLower` as `lower`. -/
def EncodeHeader (lower : List Byte → List Byte) (plainHeader : List KeyValue)
    (con : HpackConn) : Res (List Byte × HpackConn) :=
  (EncodeHeaderLoop lower plainHeader con.DynamicTable []).bind
    fun (encBuffer, dynamicHeader) =>
      .ok (encBuffer, ⟨cutHeader dynamicHeader con.TableSizeLimit, con.TableSizeLimit⟩)

/-- The loop `for len(encBuffer) != 0` of `DecodeHeader` with its state
`dynamicHeader`, `limit`, `headerBuffer`, followed by the final `cutHeader`.
The first argument is fuel: every pass consumes at least one octet. -/
def DecodeHeaderLoop : Nat → List Byte → List KeyValue → Nat → List KeyValue →
    Res (List KeyValue × HpackConn)
  | _, [], dynamicHeader, limit, headerBuffer =>
    .ok (headerBuffer, ⟨cutHeader dynamicHeader limit, limit⟩)
  | 0, _ :: _, _, _, _ => .stuck
  | fuel + 1, b0 :: tl, dynamicHeader, limit, headerBuffer =>
    if b0.val &&& 128 = 128 then
      (decodeIntValue (b0 :: tl) 7).bind fun (i, eB) =>
      (decodeHeaderTable (i % 65536) dynamicHeader).bind fun kv =>
        DecodeHeaderLoop fuel eB dynamicHeader limit (headerBuffer ++ [kv])
    else if b0.val &&& 192 = 64 then
      if b0.val &&& 63 = 0 then
        (decodeStrings tl).bind fun (key, eB) =>
        (decodeStrings eB).bind fun (value, eB) =>
          DecodeHeaderLoop fuel eB (pushFront dynamicHeader ⟨key, value⟩) limit
            (headerBuffer ++ [⟨key, value⟩])
      else
        (decodeIntValue (b0 :: tl) 6).bind fun (i, eB) =>
        (decodeHeaderTable (i % 65536) dynamicHeader).bind fun kv =>
        (decodeStrings eB).bind fun (value, eB) =>
          DecodeHeaderLoop fuel eB (pushFront dynamicHeader ⟨kv.Key, value⟩) limit
            (headerBuffer ++ [⟨kv.Key, value⟩])
    else if b0.val &&& 240 = 0 ∨ b0.val &&& 240 = 16 then
      if b0.val &&& 15 = 0 then
        (decodeStrings tl).bind fun (key, eB) =>
        (decodeStrings eB).bind fun (value, eB) =>
          DecodeHeaderLoop fuel eB dynamicHeader limit (headerBuffer ++ [⟨key, value⟩])
      else
        (decodeIntValue (b0 :: tl) 4).bind fun (i, eB) =>
        (decodeHeaderTable (i % 65536) dynamicHeader).bind fun kv =>
        (decodeStrings eB).bind fun (value, eB) =>
          DecodeHeaderLoop fuel eB dynamicHeader limit (headerBuffer ++ [⟨kv.Key, value⟩])
    else if b0.val &&& 224 = 32 then
      (decodeIntValue (b0 :: tl) 5).bind fun (i, eB) =>
        DecodeHeaderLoop fuel eB dynamicHeader (i % 2 ^ 32) headerBuffer
    else .error "DecodeHeader: can't decode"

/-- `DecodeHeader(encoded, con)`. -/
def DecodeHeader (encoded : List Byte) (con : HpackConn) : Res (List KeyValue × HpackConn) :=
  DecodeHeaderLoop encoded.length encoded con.DynamicTable con.TableSizeLimit []

/-! ## Specification-side notions -/

/-- Index `j` is the first position of `l` whose entry satisfies `p`. -/
def firstAt (p : KeyValue → Prop) (l : List KeyValue) (j : Nat) : Prop :=
  (∃ v, l[j]? = some v ∧ p v) ∧ ∀ j' v, j' < j → l[j']? = some v → ¬ p v

/-- Entry `v` equals field `f` in name and value. -/
def fullMatch (f v : KeyValue) : Prop := v.Key = f.Key ∧ v.Value = f.Value

/-- Entry `v` has the name of field `f`. -/
def nameMatch (f v : KeyValue) : Prop := v.Key = f.Key

instance (f v : KeyValue) : Decidable (fullMatch f v) := by
  unfold fullMatch; infer_instance

instance (f v : KeyValue) : Decidable (nameMatch f v) := by
  unfold nameMatch; infer_instance

/-- Two entries of the decode table are compatible: they are for the same octet,
or their keys differ and the shorter code is not the leading part of the longer. -/
def codePairOk (e1 e2 : Nat × huffman) : Bool :=
  Nat.beq e1.2.b.val e2.2.b.val ||
    (!(Nat.beq e1.1 e2.1) &&
      (Nat.ble e2.2.codeLen e1.2.codeLen ||
        !(Nat.beq e1.1 (e2.1 >>> (e2.2.codeLen - e1.2.codeLen)))))

/-- Every pair of entries of the decode table is compatible. -/
def codeTableOk : Bool :=
  huffmanDecodeTable.all fun e1 => huffmanDecodeTable.all fun e2 => codePairOk e1 e2

/-- No run of up to seven one-bits passes the decoder's test. -/
def padChecks : Bool :=
  (List.range 8).all (fun l => huffmanLookup (BinToUint32 (List.replicate l One)) l == none)

/-- The number written by a bit sequence, most significant bit first. -/
def natOfBits (bits : List Bin) : Nat :=
  bits.foldl (fun a b => 2 * a + (if b then 1 else 0)) 0

/-- Invariant of the loop of `BinToByte` after the non-empty bit sequence `bs`:
`dst` holds the completed octets, and `buffer` holds the bits `chunk` of the
octet in progress, at its high end, over zeros. -/
def BinToByteInv (bs : List Bin) (st : BinToByteState) : Prop :=
  st.c = bs.length ∧ st.cur = (bs.length - 1) % 8 ∧
    ∃ chunk : List Bin, chunk.length = st.cur + 1 ∧ bs = ByteToBin st.dst ++ chunk ∧
      byteBits st.buffer = chunk ++ List.replicate (7 - st.cur) Zero

/-- The Huffman-coded string literal of `s` as `encodeStrings(dst, s, true)`
appends it to `dst`: the length octets written over `0x80`, then the payload. -/
def huffmanLiteral (s : List Byte) : List Byte :=
  intBytes (byte 128) 7 (BinToByte (huffmanBits s)).length ++ BinToByte (huffmanBits s)

/-- The number written by continuation octets, least significant first: the sum
of `(b[i] & 0x7F) * 2^(7(i-1))` over the octets `b[1], b[2], ...`. -/
def contValue : List Byte → Nat
  | [] => 0
  | b :: bs => b.val % 128 + 128 * contValue bs

/-- Reference continuation octets of `r`, after the spec's words: while
`r ≥ 128` emit `(r & 0x7F) | 0x80` and shift `r` right by 7; finally emit
`r & 0x7F`. The first argument is fuel (`r` is enough). -/
def referenceContinuation : Nat → Nat → List Byte
  | 0, r => [byte (r &&& 127)]
  | fuel + 1, r =>
    if r ≥ 128 then byte ((r &&& 127) ||| 128) :: referenceContinuation fuel (r >>> 7)
    else [byte (r &&& 127)]

/-- Reference prefix-integer encoding over the opcode octet `p`, after the
spec's words: `v` in the low `N` bits when `v < 2^N - 1`, else all ones in the
low `N` bits followed by the continuation octets of `v - (2^N - 1)`. -/
def referenceInt (p : Byte) (n v : Nat) : List Byte :=
  if v < 2 ^ n - 1 then [byte (p.val ||| v)]
  else byte (p.val ||| (2 ^ n - 1)) :: referenceContinuation (v - (2 ^ n - 1)) (v - (2 ^ n - 1))

/-- No run of up to thirty one-bits (a leading part of the EOS code, or the EOS
code itself) passes the decoder's test. -/
def onesChecks : Bool :=
  (List.range 31).all (fun l => huffmanLookup (BinToUint32 (List.replicate l One)) l == none)

/-! ## One representation of a header block -/

/-- One pass of the body of the loop of `DecodeHeader`, standing at the opcode
octet `b0` of `encBuffer = b0 :: tl`: the fields appended to `headerBuffer`
(none or one), the new `dynamicHeader`, the new `limit` and the new `encBuffer`. -/
def decodeRep (b0 : Byte) (tl : List Byte) (dynamicHeader : List KeyValue) (limit : Nat) :
    Res (List KeyValue × List KeyValue × Nat × List Byte) :=
  if b0.val &&& 128 = 128 then
    (decodeIntValue (b0 :: tl) 7).bind fun (i, eB) =>
    (decodeHeaderTable (i % 65536) dynamicHeader).bind fun kv =>
      .ok ([kv], dynamicHeader, limit, eB)
  else if b0.val &&& 192 = 64 then
    if b0.val &&& 63 = 0 then
      (decodeStrings tl).bind fun (key, eB) =>
      (decodeStrings eB).bind fun (value, eB) =>
        .ok ([⟨key, value⟩], pushFront dynamicHeader ⟨key, value⟩, limit, eB)
    else
      (decodeIntValue (b0 :: tl) 6).bind fun (i, eB) =>
      (decodeHeaderTable (i % 65536) dynamicHeader).bind fun kv =>
      (decodeStrings eB).bind fun (value, eB) =>
        .ok ([⟨kv.Key, value⟩], pushFront dynamicHeader ⟨kv.Key, value⟩, limit, eB)
  else if b0.val &&& 240 = 0 ∨ b0.val &&& 240 = 16 then
    if b0.val &&& 15 = 0 then
      (decodeStrings tl).bind fun (key, eB) =>
      (decodeStrings eB).bind fun (value, eB) =>
        .ok ([⟨key, value⟩], dynamicHeader, limit, eB)
    else
      (decodeIntValue (b0 :: tl) 4).bind fun (i, eB) =>
      (decodeHeaderTable (i % 65536) dynamicHeader).bind fun kv =>
      (decodeStrings eB).bind fun (value, eB) =>
        .ok ([⟨kv.Key, value⟩], dynamicHeader, limit, eB)
  else if b0.val &&& 224 = 32 then
    (decodeIntValue (b0 :: tl) 5).bind fun (i, eB) =>
      .ok ([], dynamicHeader, i % 2 ^ 32, eB)
  else .error "DecodeHeader: can't decode"

/-- Every representation that the decoder meets in the block, walking it as
`DecodeHeader` does from the table `dyn` and the limit `limit`, has an opcode
octet that satisfies `p`. The first argument is fuel. -/
def opcodesAll (p : Byte → Bool) : Nat → List Byte → List KeyValue → Nat → Bool
  | _, [], _, _ => true
  | 0, _ :: _, _, _ => true
  | fuel + 1, b0 :: tl, dyn, limit =>
    p b0 &&
      match decodeRep b0 tl dyn limit with
      | .ok (_, dyn1, limit1, eB) => opcodesAll p fuel eB dyn1 limit1
      | _ => true

/-- Opcode octet of an Indexed, a Literal-without-Indexing or a
Literal-Never-Indexed representation: `1xxxxxxx`, `0000xxxx` or `0001xxxx`. -/
def isPlainOpcode (b : Byte) : Bool :=
  decide (b.val &&& 128 = 128) || decide (b.val &&& 240 = 0) || decide (b.val &&& 240 = 16)

/-- Opcode octet other than that of a Dynamic Table Size Update, `001xxxxx`. -/
def notSizeUpdate (b : Byte) : Bool := !decide (b.val &&& 224 = 32)

/-- A raw (`H = 0`) string literal after the spec's words: the length as a
7-bit-prefix integer with the high bit clear, then the octets. -/
def rawLiteral (s : List Byte) : List Byte := referenceInt (byte 0) 7 s.length ++ s

/-- A Dynamic Table Size Update of `M` after the spec's words: leading bits
`001`, then `M` as a 5-bit-prefix integer. -/
def sizeUpdate (M : Nat) : List Byte := referenceInt (byte 0x20) 5 M

/-! ## Per-representation eviction: the reference of the specification -/

/-- Eviction after the spec's words: while the size exceeds the capacity,
remove the last (oldest) entry. The first argument is fuel. -/
def evictLoop (capacity : Int) : Nat → List KeyValue → List KeyValue
  | 0, t => t
  | fuel + 1, t => if tableSize t > capacity then evictLoop capacity fuel t.dropLast else t

/-- Evict oldest entries until the size is at most the capacity. -/
def evictOldest (t : List KeyValue) (capacity : Int) : List KeyValue :=
  evictLoop capacity t.length t

/-- Reference decoder: as `DecodeHeader` reads the block, but evicting right
after every representation, before the next one is processed. -/
def refDecodeLoop : Nat → List Byte → List KeyValue → Nat → List KeyValue →
    Res (List KeyValue × HpackConn)
  | _, [], dyn, limit, hb => .ok (hb, ⟨dyn, limit⟩)
  | 0, _ :: _, _, _, _ => .stuck
  | fuel + 1, b0 :: tl, dyn, limit, hb =>
    (decodeRep b0 tl dyn limit).bind fun (kvs, dyn1, limit1, eB) =>
      refDecodeLoop fuel eB (evictOldest dyn1 limit1) limit1 (hb ++ kvs)

/-- Reference decoder on a block, from a state. -/
def refDecodeHeader (encoded : List Byte) (con : HpackConn) : Res (List KeyValue × HpackConn) :=
  refDecodeLoop encoded.length encoded con.DynamicTable con.TableSizeLimit []

/-- Reference encoder loop: every field is written as `EncodeHeader` writes it,
with eviction right after every field. -/
def refEncodeLoop (lower : List Byte → List Byte) (limit : Nat) :
    List KeyValue → List KeyValue → List Byte → Res (List Byte × List KeyValue)
  | [], dyn, acc => .ok (acc, dyn)
  | f :: rest, dyn, acc =>
    (encodeField lower f dyn).bind fun (b, dyn1) =>
      refEncodeLoop lower limit rest (evictOldest dyn1 limit) (acc ++ b)

/-- Reference encoder on a header list, from a state. -/
def refEncodeHeader (lower : List Byte → List Byte) (plainHeader : List KeyValue)
    (con : HpackConn) : Res (List Byte × HpackConn) :=
  (refEncodeLoop lower con.TableSizeLimit plainHeader con.DynamicTable []).bind fun (b, dyn) =>
    .ok (b, ⟨dyn, con.TableSizeLimit⟩)

/-- No field of the list bears the name of an entry that the reference has
evicted by the time the field is written. The walk is that of `EncodeHeader`,
whose table `dyn` keeps every entry: the entries the reference has evicted are
those behind the part `cutHeader dyn limit` of the table. -/
def noStaleName (lower : List Byte → List Byte) (limit : Nat) :
    List KeyValue → List KeyValue → Bool
  | [], _ => true
  | f :: rest, dyn =>
    (dyn.drop (cutHeader dyn limit).length).all (fun e => decide (e.Key ≠ f.Key)) &&
      match encodeField lower f dyn with
      | .ok (_, dyn1) => noStaleName lower limit rest dyn1
      | _ => false

/-! ## DATA frames (`other/frame.go`) -/

/-- Frame header `Framer`: `Length` (24 bits in a `uint32`), `FType` and `Flags`
(`uint8`), `StreamID` (`uint32`). -/
structure Framer where
  Length : Nat
  FType : Nat
  Flags : Nat
  StreamID : Nat
  deriving DecidableEq, Repr

/-- Constant `FrameData FrameType = 0x0`. -/
def FrameData : Nat := 0

/-- Constant `DATA_END_STREAM = 0x1`. -/
def DATA_END_STREAM : Nat := 1

/-- Constant `DATA_PADDED = 0x8`. -/
def DATA_PADDED : Nat := 8

/-- Parsed DATA frame `Data`. -/
structure Data where
  Eos : Bool
  Content : List Byte
  deriving DecidableEq, Repr

/-- `ParseData(f, b)`. Reading `b[0]` of an empty payload panics, and so does
the slice `b[1:len(b)-pad]` when `len(b) - pad < 1`. -/
def ParseData (f : Framer) (b : List Byte) : Res Data :=
  if f.FType &&& FrameData ≠ 0 then .error "This is not DATA frame."
  else
    let r : Res (List Byte) :=
      if f.Flags &&& DATA_PADDED ≠ 0 then
        match b with
        | [] => .crash
        | b0 :: _ =>
          let pad : Int := b0.val
          if (b.length : Int) - pad < 1 then .crash
          else .ok (slice b 1 (b.length - b0.val))
      else .ok b
    r.bind fun b =>
      .ok ⟨decide (f.Flags &&& DATA_END_STREAM = DATA_END_STREAM), b⟩

/-! ## Frame headers (`other/frame.go`) -/

/-- `ReadFrame(b)`: the frame header, the payload and the remaining octets; the
error is `NotEnoughByte`. The shifts `b[0]<<16`, `b[1]<<8`, `b[5]<<24`, ... are
taken on `byte` operands, in 8 bits, before the conversion to `uint32`; the
comparison `uint32(len(b)) < frame.Length + 9` is in `uint32`. -/
def ReadFrame (b : List Byte) : Res (Framer × List Byte × List Byte) :=
  if b.length < 9 then .error "not enough byte"
  else
    match b with
    | b0 :: b1 :: b2 :: b3 :: b4 :: b5 :: b6 :: b7 :: b8 :: _ =>
      let length := (b0.val <<< 16) % 256 ||| (b1.val <<< 8) % 256 ||| b2.val
      let streamID :=
        ((b5.val <<< 24) % 256 ||| (b6.val <<< 16) % 256 ||| (b7.val <<< 8) % 256 ||| b8.val)
          &&& (2 ^ 31 - 1)
      let frame : Framer := ⟨length, b3.val, b4.val, streamID⟩
      if b.length % 2 ^ 32 < (frame.Length + 9) % 2 ^ 32 then .error "not enough byte"
      else if 9 + frame.Length > b.length then .crash
      else .ok (frame, slice b 9 (9 + frame.Length), b.drop (9 + frame.Length))
    | _ => .crash

/-- The frame length of the specification: the 24-bit big-endian value of the
first three octets. -/
def frameLength (b0 b1 b2 : Byte) : Nat := b0.val * 65536 + b1.val * 256 + b2.val

/-- The stream identifier of the specification: the 32-bit big-endian value of
four octets with the top bit cleared. -/
def frameStreamID (b5 b6 b7 b8 : Byte) : Nat :=
  (b5.val * 16777216 + b6.val * 65536 + b7.val * 256 + b8.val) % 2 ^ 31

/-! # Theorems -/

/-! ## Integer codec: lemmas -/

theorem mask8_eq {n : Nat} (h : n ≤ 8) : mask8 n = 2 ^ n - 1 := by
  interval_cases n <;> rfl

theorem mask64_eq {n : Nat} (h : n ≤ 8) : mask64 n = 2 ^ n - 1 := by
  interval_cases n <;> rfl

theorem byte_val (x : Nat) : (byte x).val = x % 256 := rfl

theorem byte_val_of_lt {x : Nat} (h : x < 256) : (byte x).val = x := by
  rw [byte_val]; exact Nat.mod_eq_of_lt h

theorem encodeIntLoop_append (fuel v : Nat) (after : List Byte) :
    encodeIntLoop fuel v after = after ++ encodeIntLoop fuel v [] := by
  induction fuel generalizing v after with
  | zero => simp [encodeIntLoop]
  | succ k ih =>
    unfold encodeIntLoop
    split
    · simp
    · rw [ih, ih _ ([] ++ _)]; simp

theorem and_127 (v : Nat) : v &&& 127 = v % 128 :=
  Nat.and_pow_two_sub_one_eq_mod v 7

theorem low7_bits : ∀ r : Fin 128,
    (byte r.val).val % 128 = r.val ∧ (byte r.val).val &&& 128 = 0 ∧
    (byte (r.val ||| 128)).val % 128 = r.val ∧
    (byte (r.val ||| 128)).val &&& 128 ≠ 0 := by
  decide

theorem encodeIntLoop_zero (v : Nat) : encodeIntLoop 0 v [] = [byte (v % 128)] := by
  simp [encodeIntLoop, and_127]

theorem encodeIntLoop_succ (k v : Nat) :
    encodeIntLoop (k + 1) v [] =
      if v < 127 then [byte (v % 128)]
      else byte (v % 128 ||| 128) :: encodeIntLoop k (v / 128) [] := by
  rw [encodeIntLoop]
  split
  · simp [and_127]
  · rw [encodeIntLoop_append]
    simp [and_127, Nat.shiftRight_eq_div_pow]

theorem decodeIntLoop_cons (b : Byte) (rest : List Byte) (tmp m : Nat) :
    decodeIntLoop (b :: rest) tmp m =
      if b.val &&& 128 = 0 then .ok ((tmp + (b.val % 128 * 2 ^ m) % 2 ^ 64) % 2 ^ 64, rest)
      else decodeIntLoop rest ((tmp + (b.val % 128 * 2 ^ m) % 2 ^ 64) % 2 ^ 64)
        ((m + 7) % 2 ^ 64) := by
  simp [decodeIntLoop, and_127, Nat.shiftLeft_eq]

/-- Decoding the continuation octets written by `encodeIntLoop` adds `v`, shifted
by the current `m`, to the accumulator, and stops exactly at their end. -/
theorem decodeIntLoop_encodeIntLoop (fuel : Nat) :
    ∀ (v tmp m : Nat) (rest : List Byte), v ≤ fuel → tmp + v * 2 ^ m < 2 ^ 64 →
      decodeIntLoop (encodeIntLoop fuel v [] ++ rest) tmp m = .ok (tmp + v * 2 ^ m, rest) := by
  have hlast : ∀ (v tmp m : Nat) (rest : List Byte), v < 127 → tmp + v * 2 ^ m < 2 ^ 64 →
      decodeIntLoop ([byte (v % 128)] ++ rest) tmp m = .ok (tmp + v * 2 ^ m, rest) := by
    intro v tmp m rest hv hlt
    obtain ⟨h1, h2, -, -⟩ := low7_bits ⟨v, by omega⟩
    simp only at h1 h2
    have hvm : v % 128 = v := Nat.mod_eq_of_lt (by omega)
    rw [hvm, List.singleton_append, decodeIntLoop_cons, if_pos h2, h1,
      Nat.mod_eq_of_lt (by omega : v * 2 ^ m < 2 ^ 64), Nat.mod_eq_of_lt hlt]
  induction fuel with
  | zero =>
    intro v tmp m rest hv hlt
    rw [encodeIntLoop_zero]
    exact hlast v tmp m rest (by omega) hlt
  | succ k ih =>
    intro v tmp m rest hv hlt
    rw [encodeIntLoop_succ]
    by_cases hlt127 : v < 127
    · rw [if_pos hlt127]
      exact hlast v tmp m rest hlt127 hlt
    · rw [if_neg hlt127]
      obtain ⟨-, -, h3, h4⟩ := low7_bits ⟨v % 128, Nat.mod_lt _ (by norm_num)⟩
      simp only at h3 h4
      have hpos : 0 < 2 ^ m := Nat.pos_of_ne_zero (by positivity)
      have hsplit : v = 128 * (v / 128) + v % 128 := (Nat.div_add_mod v 128).symm
      have hv1 : 2 ^ m ≤ v * 2 ^ m := Nat.le_mul_of_pos_left _ (by omega)
      have hm : m < 64 := by
        by_contra hcon
        have : 2 ^ 64 ≤ 2 ^ m := Nat.pow_le_pow_right (by norm_num) (by omega)
        omega
      have hmul : v * 2 ^ m = (v % 128) * 2 ^ m + (v / 128) * 2 ^ (m + 7) := by
        rw [pow_add]; nlinarith [hsplit]
      have hA : v % 128 * 2 ^ m < 2 ^ 64 := by omega
      have hB : tmp + v % 128 * 2 ^ m < 2 ^ 64 := by omega
      rw [List.cons_append, decodeIntLoop_cons, if_neg h4, h3, Nat.mod_eq_of_lt hA,
        Nat.mod_eq_of_lt hB, Nat.mod_eq_of_lt (by omega : m + 7 < 2 ^ 64),
        ih (v / 128) _ (m + 7) rest (by omega) (by omega)]
      congr 2
      omega

theorem encodeIntValue_eq (pre : List Byte) (p : Byte) {n : Nat} (v : Nat) (hn : n ≤ 8) :
    encodeIntValue (pre ++ [p]) n v = .ok (pre ++ intBytes p n v) := by
  unfold encodeIntValue intBytes
  rw [if_neg (by omega), mask64_eq hn, mask8_eq hn]
  simp only [List.getLast?_concat, List.dropLast_concat]
  by_cases h : v < 2 ^ n - 1
  · simp [h]
  · simp [h]

theorem prefix_bits (p : Byte) {n x : Nat} (hn : n ≤ 8) (hp : p.val % 2 ^ n = 0)
    (hx : x < 2 ^ n) : (byte (p.val ||| x)).val &&& (2 ^ n - 1) = x := by
  have hpow : 2 ^ n ≤ 2 ^ 8 := Nat.pow_le_pow_right (by norm_num) hn
  have hx8 : x < 2 ^ 8 := by omega
  have hlt : p.val ||| x < 2 ^ 8 := Nat.or_lt_two_pow p.isLt hx8
  rw [byte_val_of_lt hlt, Nat.and_pow_two_sub_one_eq_mod]
  obtain ⟨q, hq⟩ := Nat.dvd_of_mod_eq_zero hp
  rw [hq, ← Nat.mul_add_lt_is_or hx, Nat.mul_add_mod, Nat.mod_eq_of_lt hx]

/-- `decodeIntValue` reads back what `encodeIntValue` wrote over a clean prefix. -/
theorem decodeIntValue_intBytes (p : Byte) {n v : Nat} (rest : List Byte) (hn : n ≤ 8)
    (hv : v < 2 ^ 64) (hp : p.val % 2 ^ n = 0) :
    decodeIntValue (intBytes p n v ++ rest) n = .ok (v, rest) := by
  have hpos : 0 < 2 ^ n := Nat.pos_of_ne_zero (by positivity)
  have hpow : 2 ^ n ≤ 2 ^ 8 := Nat.pow_le_pow_right (by norm_num) hn
  unfold decodeIntValue intBytes
  rw [if_neg (by omega), mask64_eq hn, mask8_eq hn]
  by_cases h : v < 2 ^ n - 1
  · have hv256 : v % 256 = v := Nat.mod_eq_of_lt (by omega)
    simp only [h, if_true, List.singleton_append, hv256, prefix_bits p hn hp (by omega : v < 2 ^ n)]
  · simp only [h, if_false, List.cons_append,
      prefix_bits p hn hp (by omega : 2 ^ n - 1 < 2 ^ n), lt_self_iff_false]
    have := decodeIntLoop_encodeIntLoop (v - (2 ^ n - 1)) (v - (2 ^ n - 1)) (2 ^ n - 1) 0 rest
      (le_refl _) (by omega)
    rw [this]
    congr 2
    omega

/-- Claim C2. Integer round trip: for a prefix width `N` in 1..8, a value `v` below
`2^32`, an opcode octet `p` whose low `N` bits are zero and any trailing octets
`rest`, `encodeIntValue([p], N, v)` returns without error and `decodeIntValue` on
its output followed by `rest` returns `v` and exactly `rest` as the remainder. -/
theorem int_roundtrip (N v : Nat) (p : Byte) (rest : List Byte) (_hN1 : 1 ≤ N) (hN8 : N ≤ 8)
    (hv : v < 2 ^ 32) (hp : p.val % 2 ^ N = 0) :
    ∃ enc, encodeIntValue [p] N v = .ok enc ∧ decodeIntValue (enc ++ rest) N = .ok (v, rest) := by
  have hv64 : v < 2 ^ 64 := lt_trans hv (by norm_num)
  refine ⟨intBytes p N v, ?_, decodeIntValue_intBytes p rest hN8 hv64 hp⟩
  simpa using encodeIntValue_eq [] p v hN8

theorem int_roundtrip_witness :
    ∃ enc, encodeIntValue [0] 5 1337 = .ok enc ∧
      decodeIntValue (enc ++ [7, 9]) 5 = .ok (1337, [7, 9]) :=
  int_roundtrip 5 1337 0 [7, 9] (by decide) (by decide) (by norm_num) (by decide)


/-! ## Eviction: `cutHeader` -/

theorem entrySize_pos (kv : KeyValue) : 0 < entrySize kv := by
  unfold entrySize; omega

theorem tableSize_nil : tableSize [] = 0 := rfl

theorem tableSize_cons (kv : KeyValue) (t : List KeyValue) :
    tableSize (kv :: t) = entrySize kv + tableSize t := by
  simp [tableSize]

theorem tableSize_nonneg (t : List KeyValue) : 0 ≤ tableSize t := by
  induction t with
  | nil => simp [tableSize_nil]
  | cons kv t ih => rw [tableSize_cons]; have := entrySize_pos kv; omega

theorem cutHeaderLoop_cons (limit i : Int) (kv : KeyValue) (rest : List KeyValue) :
    cutHeaderLoop limit i (kv :: rest) =
      if i + entrySize kv > limit then [] else kv :: cutHeaderLoop limit (i + entrySize kv) rest := by
  simp only [cutHeaderLoop, entrySize]
  have : i + (kv.Key.length : Int) + kv.Value.length + 32
      = i + ((kv.Key.length : Int) + kv.Value.length + 32) := by ring
  rw [this]

theorem cutHeaderLoop_keeps_head (limit : Int) (t : List KeyValue) :
    ∀ i, cutHeaderLoop limit i t <+: t := by
  induction t with
  | nil => intro i; simp [cutHeaderLoop]
  | cons kv t ih =>
    intro i
    rw [cutHeaderLoop_cons]
    split
    · exact List.nil_prefix
    · exact (List.prefix_cons_inj kv).2 (ih _)

theorem cutHeaderLoop_size (limit : Int) (t : List KeyValue) :
    ∀ i, i ≤ limit → i + tableSize (cutHeaderLoop limit i t) ≤ limit := by
  induction t with
  | nil => intro i hi; simpa [cutHeaderLoop, tableSize_nil] using hi
  | cons kv t ih =>
    intro i hi
    rw [cutHeaderLoop_cons]
    split
    · simpa [tableSize_nil] using hi
    · rw [tableSize_cons]
      have := ih (i + entrySize kv) (by omega)
      omega

theorem cutHeaderLoop_maximal (limit : Int) (t : List KeyValue) :
    ∀ i (p : List KeyValue), p <+: t → i + tableSize p ≤ limit →
      p <+: cutHeaderLoop limit i t := by
  induction t with
  | nil =>
    intro i p hp _
    simpa [cutHeaderLoop] using hp
  | cons kv t ih =>
    intro i p hp hsz
    rw [cutHeaderLoop_cons]
    cases p with
    | nil => exact List.nil_prefix
    | cons a p =>
      obtain ⟨rfl, hp'⟩ := List.cons_prefix_cons.1 hp
      rw [tableSize_cons] at hsz
      have hnn := tableSize_nonneg p
      rw [if_neg (by omega)]
      exact (List.prefix_cons_inj a).2 (ih _ p hp' (by omega))

/-- When the whole table fits, nothing is evicted. -/
theorem cutHeader_of_fits (t : List KeyValue) (limit : Int) (h : tableSize t ≤ limit) :
    cutHeader t limit = t := by
  have hp := cutHeaderLoop_maximal limit t 0 t (List.prefix_refl t) (by simpa using h)
  exact List.Sublist.antisymm (cutHeaderLoop_keeps_head limit t 0).sublist hp.sublist

/-- Claim C6. Eviction: for a table `t` (newest entry first) and a limit `≥ 0`,
`cutHeader(t, limit)` is a prefix of `t` (entries leave only from the tail, the
kept ones keep their order), its total size is at most `limit`, and every prefix
of `t` whose size is at most `limit` is a prefix of it: it is the longest one. -/
theorem cutHeader_longest (t : List KeyValue) (limit : Int) (hlimit : 0 ≤ limit) :
    cutHeader t limit <+: t ∧ tableSize (cutHeader t limit) ≤ limit ∧
      ∀ p : List KeyValue, p <+: t → tableSize p ≤ limit →
        p <+: cutHeader t limit ∧ p.length ≤ (cutHeader t limit).length := by
  refine ⟨cutHeaderLoop_keeps_head limit t 0, ?_, ?_⟩
  · simpa using cutHeaderLoop_size limit t 0 hlimit
  · intro p hp hsz
    have := cutHeaderLoop_maximal limit t 0 p hp (by simpa using hsz)
    exact ⟨this, this.length_le⟩

/-- The dynamic table after the RFC 7541 C.6.1 block, newest entry first. -/
theorem cutHeader_longest_witness :
    (0 : Int) ≤ 63 ∧
    cutHeader [kv "location" "https://www.example.com", kv "date" "Mon, 21 Oct 2013 20:13:21 GMT",
        kv "cache-control" "private", kv ":status" "302"] 63
      = [kv "location" "https://www.example.com"] ∧
    cutHeader [kv "location" "https://www.example.com", kv "date" "Mon, 21 Oct 2013 20:13:21 GMT",
        kv "cache-control" "private", kv ":status" "302"] 62 = [] ∧
    tableSize (cutHeader [kv "location" "https://www.example.com",
        kv "date" "Mon, 21 Oct 2013 20:13:21 GMT", kv "cache-control" "private",
        kv ":status" "302"] 63) ≤ 63 :=
  ⟨by decide, by decide, by decide,
    (cutHeader_longest [kv "location" "https://www.example.com",
        kv "date" "Mon, 21 Oct 2013 20:13:21 GMT", kv "cache-control" "private",
        kv ":status" "302"] 63 (by decide)).2.1⟩

/-! ## Lookup and resolve -/

theorem staticHeaderTable_length : staticHeaderTable.length = 61 := by decide

theorem rangeFind_of_firstAt (p : KeyValue → Bool) (l : List KeyValue) :
    ∀ (c j : Nat), firstAt (fun v => p v = true) l j → rangeFind p l c = some (c + j) := by
  induction l with
  | nil =>
    intro c j h
    obtain ⟨⟨v, hv, _⟩, _⟩ := h
    simp at hv
  | cons a l ih =>
    intro c j h
    obtain ⟨⟨v, hv, hp⟩, hmin⟩ := h
    cases j with
    | zero =>
      simp only [List.getElem?_cons_zero, Option.some.injEq] at hv
      subst hv
      simp [rangeFind, hp]
    | succ j =>
      have ha : ¬ p a = true := hmin 0 a (Nat.succ_pos j) (by simp)
      simp only [List.getElem?_cons_succ] at hv
      have := ih (c + 1) j ⟨⟨v, hv, hp⟩, fun j' w hj' hw => hmin (j' + 1) w (by omega) (by simpa using hw)⟩
      simp only [rangeFind, ha, Bool.false_eq_true, if_false, this]
      congr 1
      omega

theorem rangeFind_none (p : KeyValue → Bool) (l : List KeyValue) :
    ∀ c, (∀ v ∈ l, ¬ p v = true) → rangeFind p l c = none := by
  induction l with
  | nil => intro c _; rfl
  | cons a l ih =>
    intro c h
    have ha : ¬ p a = true := h a (List.mem_cons_self a l)
    simp only [rangeFind, ha, Bool.false_eq_true, if_false]
    exact ih (c + 1) (fun v hv => h v (List.mem_cons_of_mem a hv))

theorem rangeFind_some (p : KeyValue → Bool) (l : List KeyValue) :
    ∀ (c r : Nat), rangeFind p l c = some r →
      ∃ j, r = c + j ∧ firstAt (fun v => p v = true) l j := by
  induction l with
  | nil => intro c r h; simp [rangeFind] at h
  | cons a l ih =>
    intro c r h
    by_cases ha : p a = true
    · simp only [rangeFind, ha, if_true, Option.some.injEq] at h
      exact ⟨0, by omega, ⟨a, by simp, ha⟩, fun j' _ hj' => absurd hj' (Nat.not_lt_zero j')⟩
    · simp only [rangeFind, ha, Bool.false_eq_true, if_false] at h
      obtain ⟨j, hj, ⟨v, hv, hp⟩, hmin⟩ := ih (c + 1) r h
      refine ⟨j + 1, by omega, ⟨v, by simpa using hv, hp⟩, ?_⟩
      intro j' w hj' hw
      cases j' with
      | zero =>
        simp only [List.getElem?_cons_zero, Option.some.injEq] at hw
        subst hw
        exact ha
      | succ j' =>
        exact hmin j' w (by omega) (by simpa using hw)

theorem rangeFind_eq_none (p : KeyValue → Bool) (l : List KeyValue) :
    ∀ c, rangeFind p l c = none → ∀ v ∈ l, ¬ p v = true := by
  induction l with
  | nil => intro c _ v hv; simp at hv
  | cons a l ih =>
    intro c h v hv
    by_cases ha : p a = true
    · simp [rangeFind, ha] at h
    · simp only [rangeFind, ha, Bool.false_eq_true, if_false] at h
      rcases List.mem_cons.1 hv with rfl | hv'
      · exact ha
      · exact ih (c + 1) h v hv'

/-- Claim C8. Lookup priority of `searchHeaderTable(d, f)`: a full match with index
`62 + j` for the first dynamic entry equal to `f` in name and value; else a full
match with index `1 + j` for the first such static entry; else a name-only match
with index `62 + j` for the first dynamic entry with the name of `f`; else a
name-only match with index `1 + j` for the first static entry with that name;
else no match and index `0`. -/
theorem searchHeaderTable_priority (d : List KeyValue) (f : KeyValue) :
    (∀ j, firstAt (fullMatch f) d j → searchHeaderTable d f = (false, false, 62 + j)) ∧
    ((∀ v ∈ d, ¬ fullMatch f v) → ∀ j, firstAt (fullMatch f) staticHeaderTable j →
      searchHeaderTable d f = (false, false, 1 + j)) ∧
    ((∀ v ∈ d, ¬ fullMatch f v) → (∀ v ∈ staticHeaderTable, ¬ fullMatch f v) →
      ∀ j, firstAt (nameMatch f) d j → searchHeaderTable d f = (false, true, 62 + j)) ∧
    ((∀ v ∈ d, ¬ fullMatch f v) → (∀ v ∈ staticHeaderTable, ¬ fullMatch f v) →
      (∀ v ∈ d, ¬ nameMatch f v) → ∀ j, firstAt (nameMatch f) staticHeaderTable j →
      searchHeaderTable d f = (false, true, 1 + j)) ∧
    ((∀ v ∈ d, ¬ nameMatch f v) → (∀ v ∈ staticHeaderTable, ¬ nameMatch f v) →
      searchHeaderTable d f = (true, false, 0)) := by
  have hfull : ∀ (l : List KeyValue) (c j : Nat), firstAt (fullMatch f) l j →
      rangeFind (fun v => decide (v.Key = f.Key ∧ v.Value = f.Value)) l c = some (c + j) := by
    intro l c j h
    apply rangeFind_of_firstAt
    simpa [fullMatch, firstAt] using h
  have hname : ∀ (l : List KeyValue) (c j : Nat), firstAt (nameMatch f) l j →
      rangeFind (fun v => decide (v.Key = f.Key)) l c = some (c + j) := by
    intro l c j h
    apply rangeFind_of_firstAt
    simpa [nameMatch, firstAt] using h
  have nfull : ∀ (l : List KeyValue) (c : Nat), (∀ v ∈ l, ¬ fullMatch f v) →
      rangeFind (fun v => decide (v.Key = f.Key ∧ v.Value = f.Value)) l c = none := by
    intro l c h
    apply rangeFind_none
    simpa [fullMatch] using h
  have nname : ∀ (l : List KeyValue) (c : Nat), (∀ v ∈ l, ¬ nameMatch f v) →
      rangeFind (fun v => decide (v.Key = f.Key)) l c = none := by
    intro l c h
    apply rangeFind_none
    simpa [nameMatch] using h
  have nfull_of_nname : ∀ (l : List KeyValue), (∀ v ∈ l, ¬ nameMatch f v) →
      ∀ v ∈ l, ¬ fullMatch f v := fun l h v hv hm => h v hv hm.1
  refine ⟨?_, ?_, ?_, ?_, ?_⟩
  · intro j h
    simp only [searchHeaderTable, hfull d 0 j h, Nat.zero_add, Nat.add_comm]
  · intro hd j h
    simp only [searchHeaderTable, nfull d 0 hd, hfull staticHeaderTable 0 j h, Nat.zero_add,
      Nat.add_comm]
  · intro hd hs j h
    simp only [searchHeaderTable, nfull d 0 hd, nfull staticHeaderTable 0 hs, hname d 0 j h,
      Nat.zero_add, Nat.add_comm]
  · intro hd hs hnd j h
    simp only [searchHeaderTable, nfull d 0 hd, nfull staticHeaderTable 0 hs, nname d 0 hnd,
      hname staticHeaderTable 0 j h, Nat.zero_add, Nat.add_comm]
  · intro hnd hns
    simp only [searchHeaderTable, nfull d 0 (nfull_of_nname d hnd),
      nfull staticHeaderTable 0 (nfull_of_nname _ hns), nname d 0 hnd,
      nname staticHeaderTable 0 hns]

theorem searchHeaderTable_priority_witness :
    searchHeaderTable [] (kv ":status" "600") = (false, true, 1 + 7) ∧
    searchHeaderTable [] (kv ":Status" "200") = (true, false, 0) :=
  ⟨(searchHeaderTable_priority [] (kv ":status" "600")).2.2.2.1
      (by simp) (by decide) (by simp) 7 (by
        refine ⟨⟨kv ":status" "200", by decide, by decide⟩, ?_⟩
        intro j' v hj' hv
        interval_cases j' <;> (simp [staticHeaderTable] at hv; subst hv; decide)),
    by decide⟩

theorem decodeHeaderTable_static (d : List KeyValue) (i : Nat) (hd : 61 + d.length < 65536)
    (h1 : 1 ≤ i) (h2 : i ≤ 61) :
    ∃ v, staticHeaderTable[i - 1]? = some v ∧ decodeHeaderTable i d = .ok v := by
  have hlen : i - 1 < staticHeaderTable.length := by rw [staticHeaderTable_length]; omega
  refine ⟨staticHeaderTable[i - 1], List.getElem?_eq_getElem hlen, ?_⟩
  unfold decodeHeaderTable
  rw [Nat.mod_eq_of_lt hd, if_neg (by omega), if_pos (by omega), List.getElem?_eq_getElem hlen]

theorem decodeHeaderTable_dynamic (d : List KeyValue) (i : Nat) (hd : 61 + d.length < 65536)
    (h1 : 62 ≤ i) (h2 : i ≤ 61 + d.length) :
    ∃ v, d[i - 62]? = some v ∧ decodeHeaderTable i d = .ok v := by
  have hlen : i - 62 < d.length := by omega
  refine ⟨d[i - 62], List.getElem?_eq_getElem hlen, ?_⟩
  unfold decodeHeaderTable
  rw [Nat.mod_eq_of_lt hd, if_neg (by omega), if_neg (by omega), List.getElem?_eq_getElem hlen]

theorem decodeHeaderTable_out_of_range (d : List KeyValue) (i : Nat)
    (hd : 61 + d.length < 65536) (h : i = 0 ∨ 61 + d.length < i) :
    decodeHeaderTable i d = .error "decoderHeaderTable: wrong idx" := by
  unfold decodeHeaderTable
  rw [Nat.mod_eq_of_lt hd, if_pos (by omega)]

/-- Claim C7 at its failing input: with a dynamic table of 65475 entries the bound
`uint16(61+len(dHeaderTable))` is `0`, so `decodeHeaderTable` returns an error for
the static index `1` and for the dynamic index `62`, both within `1..61+k`. -/
theorem decodeHeaderTable_bound_wraps :
    decodeHeaderTable 1 (List.replicate 65475 (kv "a" "b"))
      = .error "decoderHeaderTable: wrong idx" ∧
    decodeHeaderTable 62 (List.replicate 65475 (kv "a" "b"))
      = .error "decoderHeaderTable: wrong idx" := by
  constructor <;>
    (unfold decodeHeaderTable; rw [List.length_replicate]; exact if_pos (by decide))

/-! ## Header blocks: structure of the results -/

@[simp] theorem Res.bind_ok {α β : Type} (a : α) (f : α → Res β) : (Res.ok a).bind f = f a := rfl

@[simp] theorem Res.bind_error {α β : Type} (m : String) (f : α → Res β) :
    (Res.error m : Res α).bind f = .error m := rfl

@[simp] theorem Res.bind_crash {α β : Type} (f : α → Res β) :
    (Res.crash : Res α).bind f = .crash := rfl

@[simp] theorem Res.bind_stuck {α β : Type} (f : α → Res β) :
    (Res.stuck : Res α).bind f = .stuck := rfl

theorem Res.bind_eq_ok {α β : Type} (r : Res α) (f : α → Res β) (b : β) :
    r.bind f = .ok b ↔ ∃ a, r = .ok a ∧ f a = .ok b := by
  cases r <;> simp

theorem pushFront_eq (d : List KeyValue) (x : KeyValue) : pushFront d x = x :: d := by
  cases d with
  | nil => simp [pushFront]
  | cons a d => simp [pushFront]

theorem cutHeader_size_le (t : List KeyValue) (limit : Nat) :
    tableSize (cutHeader t limit) ≤ limit := by
  simpa using cutHeaderLoop_size (limit : Int) t 0 (Int.natCast_nonneg limit)

theorem EncodeHeader_state {lower : List Byte → List Byte}
    (plain : List KeyValue) (con : HpackConn) (b : List Byte)
    (con' : HpackConn) (h : EncodeHeader lower plain con = .ok (b, con')) :
    ∃ dyn, con' = ⟨cutHeader dyn con.TableSizeLimit, con.TableSizeLimit⟩ := by
  unfold EncodeHeader at h
  obtain ⟨⟨e, dyn⟩, _, h2⟩ := (Res.bind_eq_ok _ _ _).1 h
  simp only [Res.ok.injEq, Prod.mk.injEq] at h2
  exact ⟨dyn, h2.2.symm⟩

theorem DecodeHeaderLoop_state (fuel : Nat) :
    ∀ (enc : List Byte) (dyn : List KeyValue) (limit : Nat) (hb : List KeyValue)
      (r : List KeyValue × HpackConn), DecodeHeaderLoop fuel enc dyn limit hb = .ok r →
      ∃ (dyn' : List KeyValue) (limit' : Nat), r.2 = ⟨cutHeader dyn' limit', limit'⟩ := by
  induction fuel with
  | zero =>
    intro enc dyn limit hb r h
    cases enc with
    | nil =>
      simp only [DecodeHeaderLoop, Res.ok.injEq] at h
      exact ⟨dyn, limit, by rw [← h]⟩
    | cons b0 tl => simp [DecodeHeaderLoop] at h
  | succ k ih =>
    intro enc dyn limit hb r h
    cases enc with
    | nil =>
      simp only [DecodeHeaderLoop, Res.ok.injEq] at h
      exact ⟨dyn, limit, by rw [← h]⟩
    | cons b0 tl =>
      simp only [DecodeHeaderLoop] at h
      split_ifs at h
      all_goals
        simp only [Res.bind_eq_ok, Prod.exists] at h
      all_goals
        first
        | (obtain ⟨_, _, _, _, _, _, _, _, h'⟩ := h; exact ih _ _ _ _ _ h')
        | (obtain ⟨_, _, _, _, _, _, h'⟩ := h; exact ih _ _ _ _ _ h')
        | (obtain ⟨_, _, _, _, _, h'⟩ := h; exact ih _ _ _ _ _ h')
        | (obtain ⟨_, _, _, h'⟩ := h; exact ih _ _ _ _ _ h')

/-- Claim C5. Table-size bound: whenever `EncodeHeader` or `DecodeHeader` returns
without error, from any input and any initial state, the total size of the
returned `DynamicTable` is at most the returned `TableSizeLimit`. -/
theorem table_size_bound (lower : List Byte → List Byte) :
    (∀ (plain : List KeyValue) (con : HpackConn) (b : List Byte) (con' : HpackConn),
      EncodeHeader lower plain con = .ok (b, con') →
        tableSize con'.DynamicTable ≤ con'.TableSizeLimit) ∧
    (∀ (encoded : List Byte) (con : HpackConn) (hs : List KeyValue) (con' : HpackConn),
      DecodeHeader encoded con = .ok (hs, con') →
        tableSize con'.DynamicTable ≤ con'.TableSizeLimit) := by
  constructor
  · intro plain con b con' h
    obtain ⟨dyn, rfl⟩ := EncodeHeader_state plain con b con' h
    exact cutHeader_size_le dyn _
  · intro encoded con hs con' h
    obtain ⟨dyn, limit, h'⟩ := DecodeHeaderLoop_state _ _ _ _ _ _ h
    simp only at h'
    subst h'
    exact cutHeader_size_le dyn _

theorem table_size_bound_witness :
    tableSize [kv "a" "b"] ≤ (40 : Nat) ∧ tableSize [kv "c" "d"] ≤ (34 : Nat) :=
  ⟨(table_size_bound asciiToLower).1 [kv ":method" "GET"] ⟨[kv "a" "b", kv "c" "d"], 40⟩
      [0x82] ⟨[kv "a" "b"], 40⟩ (by decide),
   (table_size_bound asciiToLower).2 [0x82, 0x3f, 0x03] ⟨[kv "c" "d", kv "e" "f"], 4096⟩
      [kv ":method" "GET"] ⟨[kv "c" "d"], 34⟩ (by decide)⟩

/-! ## The encoder, one field at a time -/

theorem encodeStrings_huf (original s : List Byte) :
    encodeStrings original s true =
      .ok (original ++ intBytes (byte 128) 7 (BinToByte (huffmanBits s)).length
        ++ BinToByte (huffmanBits s)) := by
  unfold encodeStrings
  rw [if_pos rfl]
  simp only [encodeIntValue_eq original (byte 128) _ (by norm_num : 7 ≤ 8), Res.bind_ok]

theorem encodeStrings_raw (original s : List Byte) :
    encodeStrings original s false = .ok (original ++ intBytes (byte 0) 7 s.length ++ s) := by
  unfold encodeStrings
  rw [if_neg (by simp)]
  simp only [encodeIntValue_eq original (byte 0) _ (by norm_num : 7 ≤ 8), Res.bind_ok]

theorem intBytes_head (p : Byte) {n : Nat} (v : Nat) (hn : n ≤ 8) :
    ∃ x tl, x < 2 ^ n ∧ intBytes p n v = byte (p.val ||| x) :: tl := by
  have hpos : 0 < 2 ^ n := Nat.pos_of_ne_zero (by positivity)
  have hpow : 2 ^ n ≤ 2 ^ 8 := Nat.pow_le_pow_right (by norm_num) hn
  unfold intBytes
  by_cases h : v < 2 ^ n - 1
  · refine ⟨v, [], by omega, ?_⟩
    rw [if_pos h, Nat.mod_eq_of_lt (by omega)]
  · exact ⟨2 ^ n - 1, _, by omega, by rw [if_neg h]⟩

theorem opcode_bits_128 : ∀ x : Fin 128,
    128 ≤ (byte ((byte 128).val ||| x.val)).val ∧
    (byte ((byte 128).val ||| x.val)).val &&& 128 = 128 := by decide

theorem opcode_bits_64 : ∀ x : Fin 64,
    (byte ((byte 64).val ||| x.val)).val &&& 128 ≠ 128 ∧
    (byte ((byte 64).val ||| x.val)).val &&& 192 = 64 ∧
    ((byte ((byte 64).val ||| x.val)).val &&& 63 = 0 ↔ x.val = 0) := by decide

theorem encodeField_of_full {lower : List Byte → List Byte}
    (f : KeyValue) (dyn : List KeyValue) (i : Nat)
    (hc : lower f.Key ≠ str "cookie") (hs : lower f.Key ≠ str "set-cookie")
    (hm : searchHeaderTable dyn f = (false, false, i)) :
    encodeField lower f dyn = .ok (intBytes (byte 128) 7 i, dyn) := by
  unfold encodeField
  rw [if_pos ⟨hc, hs⟩, hm]
  have := encodeIntValue_eq [] (byte 128) i (by norm_num : 7 ≤ 8)
  simp only [List.nil_append] at this
  simp only [this, Res.bind_ok]

theorem encodeField_of_name {lower : List Byte → List Byte}
    (f : KeyValue) (dyn : List KeyValue) (i : Nat)
    (hc : lower f.Key ≠ str "cookie") (hs : lower f.Key ≠ str "set-cookie")
    (hm : searchHeaderTable dyn f = (false, true, i)) :
    encodeField lower f dyn =
      .ok (intBytes (byte 64) 6 i ++ intBytes (byte 128) 7 (BinToByte (huffmanBits f.Value)).length
        ++ BinToByte (huffmanBits f.Value), f :: dyn) := by
  unfold encodeField
  rw [if_pos ⟨hc, hs⟩, hm]
  have := encodeIntValue_eq [] (byte 64) i (by norm_num : 6 ≤ 8)
  simp only [List.nil_append] at this
  simp only [this, Res.bind_ok, encodeStrings_huf, pushFront_eq]

theorem encodeField_of_none {lower : List Byte → List Byte}
    (f : KeyValue) (dyn : List KeyValue) (b : Bool) (i : Nat)
    (hc : lower f.Key ≠ str "cookie") (hs : lower f.Key ≠ str "set-cookie")
    (hm : searchHeaderTable dyn f = (true, b, i)) :
    encodeField lower f dyn =
      .ok ([byte 64] ++ intBytes (byte 128) 7 (BinToByte (huffmanBits f.Key)).length
        ++ BinToByte (huffmanBits f.Key)
        ++ intBytes (byte 128) 7 (BinToByte (huffmanBits f.Value)).length
        ++ BinToByte (huffmanBits f.Value), f :: dyn) := by
  unfold encodeField
  rw [if_pos ⟨hc, hs⟩, hm]
  simp only [Res.bind_ok, encodeStrings_huf, pushFront_eq]

theorem EncodeHeader_single {lower : List Byte → List Byte}
    (f : KeyValue) (S : HpackConn) (b : List Byte)
    (dyn : List KeyValue) (h : encodeField lower f S.DynamicTable = .ok (b, dyn)) :
    EncodeHeader lower [f] S = .ok (b, ⟨cutHeader dyn S.TableSizeLimit, S.TableSizeLimit⟩) := by
  simp [EncodeHeader, EncodeHeaderLoop, h]

/-- Encoder, full match, through the integer writer of the code: for a field `f`
whose name `lower` sends neither to `cookie` nor to `set-cookie` and for which
the lookup reports a full match at index `i`, `EncodeHeader([f], S)` returns
exactly the octets of `encodeIntValue([128], 7, i)`: the first octet has its
high bit set and the octets read back as `i` under a 7-bit prefix. Nothing is
inserted: the returned table is the table of `S` evicted to the limit, and the
limit is unchanged. -/
theorem encode_full_match (lower : List Byte → List Byte) (S : HpackConn) (f : KeyValue) (i : Nat)
    (hc : lower f.Key ≠ str "cookie") (hs : lower f.Key ≠ str "set-cookie")
    (hm : searchHeaderTable S.DynamicTable f = (false, false, i)) :
    ∃ enc, encodeIntValue [byte 128] 7 i = .ok enc ∧
      EncodeHeader lower [f] S =
        .ok (enc, ⟨cutHeader S.DynamicTable S.TableSizeLimit, S.TableSizeLimit⟩) ∧
      (∃ b tl, enc = b :: tl ∧ b.val &&& 128 = 128) ∧
      (i < 2 ^ 64 → ∀ rest, decodeIntValue (enc ++ rest) 7 = .ok (i, rest)) := by
  refine ⟨intBytes (byte 128) 7 i, ?_, ?_, ?_, ?_⟩
  · simpa using encodeIntValue_eq [] (byte 128) i (by norm_num : 7 ≤ 8)
  · exact EncodeHeader_single f S _ _ (encodeField_of_full f _ i hc hs hm)
  · obtain ⟨x, tl, hx, htl⟩ := intBytes_head (byte 128) i (by norm_num : 7 ≤ 8)
    exact ⟨_, tl, htl, (opcode_bits_128 ⟨x, hx⟩).2⟩
  · intro hi rest
    exact decodeIntValue_intBytes (byte 128) rest (by norm_num) hi (by decide)

theorem encode_full_match_witness :
    ∃ enc, encodeIntValue [byte 128] 7 2 = .ok enc ∧
      EncodeHeader asciiToLower [kv ":method" "GET"] ⟨[kv "a" "b"], 4096⟩ =
        .ok (enc, ⟨cutHeader [kv "a" "b"] (4096 : Nat), 4096⟩) ∧
      (∃ b tl, enc = b :: tl ∧ b.val &&& 128 = 128) ∧
      (2 < 2 ^ 64 → ∀ rest, decodeIntValue (enc ++ rest) 7 = .ok (2, rest)) :=
  encode_full_match asciiToLower ⟨[kv "a" "b"], 4096⟩ (kv ":method" "GET") 2 (by decide)
    (by decide) (by decide)

/-- Encoder, name-only match, through the writers of the code: for a field `f` whose
name `lower` sends neither to `cookie` nor to `set-cookie` and for which the
lookup reports only a name match at index `i`, `EncodeHeader([f], S)` returns
the octets of `encodeIntValue([64], 6, i)` (leading bits `01`, reading back as
`i` under a 6-bit prefix), followed by the value as a string literal: a length
octet with the `H` bit set, the length of the Huffman payload as a 7-bit-prefix
integer, and the Huffman payload `BinToByte` of the concatenated codes. The
returned table is `f` pushed at the front of the table of `S`, then evicted to
the unchanged limit. -/
theorem encode_name_match (lower : List Byte → List Byte) (S : HpackConn) (f : KeyValue) (i : Nat)
    (hc : lower f.Key ≠ str "cookie") (hs : lower f.Key ≠ str "set-cookie")
    (hm : searchHeaderTable S.DynamicTable f = (false, true, i)) :
    ∃ pre len, encodeIntValue [byte 64] 6 i = .ok pre ∧
      encodeIntValue [byte 128] 7 (BinToByte (huffmanBits f.Value)).length = .ok len ∧
      EncodeHeader lower [f] S =
        .ok (pre ++ len ++ BinToByte (huffmanBits f.Value),
          ⟨cutHeader (f :: S.DynamicTable) S.TableSizeLimit, S.TableSizeLimit⟩) ∧
      (∃ b tl, pre = b :: tl ∧ b.val &&& 192 = 64) ∧
      (∃ b tl, len = b :: tl ∧ b.val &&& 128 = 128) ∧
      (i < 2 ^ 64 → ∀ rest, decodeIntValue (pre ++ rest) 6 = .ok (i, rest)) := by
  refine ⟨intBytes (byte 64) 6 i,
    intBytes (byte 128) 7 (BinToByte (huffmanBits f.Value)).length, ?_, ?_, ?_, ?_, ?_, ?_⟩
  · simpa using encodeIntValue_eq [] (byte 64) i (by norm_num : 6 ≤ 8)
  · simpa using encodeIntValue_eq [] (byte 128) (BinToByte (huffmanBits f.Value)).length
      (by norm_num : 7 ≤ 8)
  · exact EncodeHeader_single f S _ _ (encodeField_of_name f _ i hc hs hm)
  · obtain ⟨x, tl, hx, htl⟩ := intBytes_head (byte 64) i (by norm_num : 6 ≤ 8)
    exact ⟨_, tl, htl, (opcode_bits_64 ⟨x, hx⟩).2.1⟩
  · obtain ⟨x, tl, hx, htl⟩ := intBytes_head (byte 128)
      (BinToByte (huffmanBits f.Value)).length (by norm_num : 7 ≤ 8)
    exact ⟨_, tl, htl, (opcode_bits_128 ⟨x, hx⟩).2⟩
  · intro hi rest
    exact decodeIntValue_intBytes (byte 64) rest (by norm_num) hi (by decide)

theorem encode_name_match_witness :
    ∃ pre len, encodeIntValue [byte 64] 6 1 = .ok pre ∧
      encodeIntValue [byte 128] 7
        (BinToByte (huffmanBits (kv ":authority" "www.example.com").Value)).length = .ok len ∧
      EncodeHeader asciiToLower [kv ":authority" "www.example.com"] ⟨[], 4096⟩ =
        .ok (pre ++ len ++ BinToByte (huffmanBits (kv ":authority" "www.example.com").Value),
          ⟨cutHeader (kv ":authority" "www.example.com" :: []) (4096 : Nat), 4096⟩) ∧
      (∃ b tl, pre = b :: tl ∧ b.val &&& 192 = 64) ∧
      (∃ b tl, len = b :: tl ∧ b.val &&& 128 = 128) ∧
      (1 < 2 ^ 64 → ∀ rest, decodeIntValue (pre ++ rest) 6 = .ok (1, rest)) :=
  encode_name_match asciiToLower ⟨[], 4096⟩ (kv ":authority" "www.example.com") 1 (by decide)
    (by decide) (by decide)

/-! ## Huffman tables -/

theorem natOfBits_foldl (bits : List Bin) (n : Nat) :
    bits.foldl (fun a b => 2 * a + (if b then 1 else 0)) n
      = n * 2 ^ bits.length + natOfBits bits := by
  unfold natOfBits
  induction bits generalizing n with
  | nil => simp
  | cons b bits ih =>
    simp only [List.foldl_cons, List.length_cons]
    rw [ih (2 * n + _), ih (2 * 0 + _)]
    ring

theorem natOfBits_append (xs ys : List Bin) :
    natOfBits (xs ++ ys) = natOfBits xs * 2 ^ ys.length + natOfBits ys := by
  unfold natOfBits
  rw [List.foldl_append, natOfBits_foldl]
  rfl

theorem natOfBits_lt (bits : List Bin) : natOfBits bits < 2 ^ bits.length := by
  induction bits using List.reverseRecOn with
  | nil => simp [natOfBits]
  | append_singleton xs b ih =>
    rw [natOfBits_append, List.length_append, List.length_singleton, pow_succ]
    have hb : natOfBits [b] ≤ 1 := by cases b <;> simp [natOfBits]
    omega

theorem natOfBits_take (bits : List Bin) (l : Nat) (_hl : l ≤ bits.length) :
    natOfBits (bits.take l) = natOfBits bits >>> (bits.length - l) := by
  have h := natOfBits_append (bits.take l) (bits.drop l)
  rw [List.take_append_drop, List.length_drop] at h
  have hlt := natOfBits_lt (bits.drop l)
  rw [List.length_drop] at hlt
  have hpos : 0 < 2 ^ (bits.length - l) := Nat.pos_of_ne_zero (by positivity)
  rw [h, Nat.shiftRight_eq_div_pow, Nat.add_comm, Nat.add_mul_div_right _ _ hpos,
    Nat.div_eq_of_lt hlt, Nat.zero_add]

theorem BinToUint32_foldl (bits : List Bin) :
    ∀ (n k : Nat), n < 2 ^ k → k + bits.length ≤ 31 →
      bits.foldl (fun value b =>
          ((if b = One then (value + 1) % 2 ^ 32 else value) <<< 1) % 2 ^ 32) (2 * n)
        = 2 * (n * 2 ^ bits.length + natOfBits bits) := by
  induction bits with
  | nil => intro n k _ _; simp [natOfBits]
  | cons b bits ih =>
    intro n k hn hk
    simp only [List.length_cons] at hk
    have hk31 : 2 ^ k ≤ 2 ^ 30 := Nat.pow_le_pow_right (by norm_num) (by omega)
    have hstep : ((if b = One then (2 * n + 1) % 2 ^ 32 else 2 * n) <<< 1) % 2 ^ 32
        = 2 * (2 * n + (if b then 1 else 0)) := by
      cases b
      · simp only [One, Bool.false_eq_true, if_false, Nat.shiftLeft_eq, pow_one, Nat.add_zero]
        rw [Nat.mod_eq_of_lt (by omega)]; ring
      · simp only [One, if_true, Nat.shiftLeft_eq, pow_one]
        rw [Nat.mod_eq_of_lt (by omega : 2 * n + 1 < 2 ^ 32), Nat.mod_eq_of_lt (by omega)]; ring
    simp only [List.foldl_cons, hstep]
    have hn' : 2 * n + (if b then 1 else 0) < 2 ^ (k + 1) := by
      rw [pow_succ]; split <;> omega
    rw [ih _ (k + 1) hn' (by omega)]
    have : natOfBits (b :: bits) = (if b then 1 else 0) * 2 ^ bits.length + natOfBits bits := by
      have := natOfBits_append [b] bits
      simp only [List.singleton_append] at this
      rw [this]
      cases b <;> simp [natOfBits]
    rw [this, List.length_cons, pow_succ]
    ring

/-- On at most 31 bits `BinToUint32` is the number the bits write. -/
theorem BinToUint32_eq (bits : List Bin) (h : bits.length ≤ 31) :
    BinToUint32 bits = natOfBits bits := by
  unfold BinToUint32
  have := BinToUint32_foldl bits 0 0 (by norm_num) (by omega)
  simp only [Nat.mul_zero, Nat.zero_mul, Nat.zero_add] at this
  rw [this, Nat.shiftRight_eq_div_pow]
  omega

theorem codeTableOk_true : codeTableOk = true := by decide!

theorem decodeTable_image :
    huffmanEncodeTable.map (fun e => dec (BinToUint32 e.2) e.1.val e.2.length)
      = huffmanDecodeTable := by decide!

theorem encodeTable_keys : huffmanEncodeTable.map (fun e => e.1.val) = List.range 256 := by
  decide!

theorem decodeTable_lengths :
    huffmanDecodeTable.all (fun e => decide (5 ≤ e.2.codeLen ∧ e.2.codeLen ≤ 30)) = true := by
  decide!

theorem padChecks_true : padChecks = true := by decide!

/-! ## Codes and the decoder's test -/

theorem lookup_mem {α β : Type} [BEq α] [LawfulBEq α] (k : α) (v : β) (l : List (α × β))
    (h : l.lookup k = some v) : (k, v) ∈ l := by
  induction l with
  | nil => simp at h
  | cons e l ih =>
    obtain ⟨k', v'⟩ := e
    rw [List.lookup_cons] at h
    by_cases hk : k == k'
    · simp only [hk, Option.some.injEq] at h
      have := eq_of_beq hk
      subst this; subst h
      exact List.mem_cons_self _ _
    · simp only [hk] at h
      exact List.mem_cons_of_mem _ (ih h)

theorem lookup_isSome_of_mem {α β : Type} [BEq α] [LawfulBEq α] (k : α) (v : β)
    (l : List (α × β)) (h : (k, v) ∈ l) : ∃ v', l.lookup k = some v' := by
  induction l with
  | nil => simp at h
  | cons e l ih =>
    obtain ⟨k', v'⟩ := e
    rw [List.lookup_cons]
    by_cases hk : k == k'
    · exact ⟨v', by simp [hk]⟩
    · simp only [hk]
      rcases List.mem_cons.1 h with h1 | h1
      · simp only [Prod.mk.injEq] at h1
        exact absurd (by rw [h1.1]; exact beq_self_eq_true k') hk
      · exact ih h1

theorem lookup_of_nodup {α β : Type} [BEq α] [LawfulBEq α] (k : α) (v : β)
    (l : List (α × β)) (hn : (l.map Prod.fst).Nodup) (h : (k, v) ∈ l) :
    l.lookup k = some v := by
  induction l with
  | nil => simp at h
  | cons e l ih =>
    obtain ⟨k', v'⟩ := e
    simp only [List.map_cons, List.nodup_cons] at hn
    rw [List.lookup_cons]
    rcases List.mem_cons.1 h with h1 | h1
    · simp only [Prod.mk.injEq] at h1
      simp [h1.1, h1.2]
    · have hne : ¬ (k == k') = true := by
        intro hk
        have := eq_of_beq hk
        subst this
        exact hn.1 (List.mem_map.2 ⟨(k, v), h1, rfl⟩)
      simp only [hne]
      exact ih hn.2 h1

theorem encodeTable_nodup : (huffmanEncodeTable.map Prod.fst).Nodup := by
  have h : (huffmanEncodeTable.map Prod.fst).map Fin.val = List.range 256 := by
    rw [List.map_map]; exact encodeTable_keys
  exact List.Nodup.of_map Fin.val (by rw [h]; exact List.nodup_range 256)

/-- Every octet has an entry in the encode table, and `huffmanEncodeTable[c]` is it. -/
theorem code_mem (c : Byte) : (c, huffmanCode c) ∈ huffmanEncodeTable := by
  have hc : c.val ∈ List.range 256 := List.mem_range.2 c.isLt
  rw [← encodeTable_keys] at hc
  obtain ⟨⟨c', bits⟩, hmem, hval⟩ := List.mem_map.1 hc
  have hcc : c' = c := Fin.ext hval
  subst hcc
  have := lookup_of_nodup c' bits huffmanEncodeTable encodeTable_nodup hmem
  unfold huffmanCode
  rw [this]
  exact hmem

theorem byte_val_self (c : Byte) : byte c.val = c := by
  apply Fin.ext
  rw [byte_val]
  exact Nat.mod_eq_of_lt c.isLt

/-- The decode table holds the entry of every octet's code. -/
theorem entry_mem (c : Byte) :
    (BinToUint32 (huffmanCode c), (⟨c, (huffmanCode c).length⟩ : huffman))
      ∈ huffmanDecodeTable := by
  rw [← decodeTable_image]
  refine List.mem_map.2 ⟨(c, huffmanCode c), code_mem c, ?_⟩
  simp [dec, byte_val_self]

/-- An entry of the decode table is the entry of the code of its octet. -/
theorem entry_eq (k : Nat) (v : huffman) (h : (k, v) ∈ huffmanDecodeTable) :
    k = BinToUint32 (huffmanCode v.b) ∧ v.codeLen = (huffmanCode v.b).length := by
  rw [← decodeTable_image] at h
  obtain ⟨⟨c, bits⟩, hmem, heq⟩ := List.mem_map.1 h
  simp only [dec, byte_val_self, Prod.mk.injEq] at heq
  obtain ⟨hk, hv⟩ := heq
  subst hv
  have hb : huffmanCode c = bits := by
    have := lookup_of_nodup c bits huffmanEncodeTable encodeTable_nodup hmem
    unfold huffmanCode
    rw [this]; rfl
  constructor
  · simp only [hb]; exact hk.symm
  · simp only [hb]

theorem code_length (c : Byte) : 5 ≤ (huffmanCode c).length ∧ (huffmanCode c).length ≤ 30 := by
  have h := List.all_eq_true.1 decodeTable_lengths _ (entry_mem c)
  simpa using h

theorem codePairOk_iff (e1 e2 : Nat × huffman) :
    codePairOk e1 e2 = true ↔
      (e1.2.b.val = e2.2.b.val ∨
        (e1.1 ≠ e2.1 ∧
          (e2.2.codeLen ≤ e1.2.codeLen ∨ e1.1 ≠ e2.1 >>> (e2.2.codeLen - e1.2.codeLen)))) := by
  have hbeq : ∀ a b : Nat, (a.beq b = false) ↔ ¬ a = b := fun a b => by
    rw [← Bool.not_eq_true]
    exact not_congr ⟨Nat.eq_of_beq_eq_true, fun h => h ▸ Nat.beq_refl a⟩
  simp [codePairOk, hbeq]

theorem codePair (e1 e2 : Nat × huffman) (h1 : e1 ∈ huffmanDecodeTable)
    (h2 : e2 ∈ huffmanDecodeTable) :
    e1.2.b.val = e2.2.b.val ∨
      (e1.1 ≠ e2.1 ∧
        (e2.2.codeLen ≤ e1.2.codeLen ∨ e1.1 ≠ e2.1 >>> (e2.2.codeLen - e1.2.codeLen))) := by
  have h := codeTableOk_true
  unfold codeTableOk at h
  exact (codePairOk_iff e1 e2).1 (List.all_eq_true.1 (List.all_eq_true.1 h e1 h1) e2 h2)

/-- The code of `c` passes the decoder's test for `c`. -/
theorem huffmanLookup_code (c : Byte) :
    huffmanLookup (BinToUint32 (huffmanCode c)) (huffmanCode c).length = some c := by
  obtain ⟨v', hv'⟩ := lookup_isSome_of_mem _ _ _ (entry_mem c)
  have hmem' := lookup_mem _ _ _ hv'
  have hb : v'.b = c := by
    rcases codePair _ _ hmem' (entry_mem c) with h | h
    · exact Fin.ext h
    · exact absurd rfl h.1
  obtain ⟨_, hlen⟩ := entry_eq _ _ hmem'
  rw [hb] at hlen
  simp only [huffmanLookup, hv', hlen, if_true, hb]

/-- No proper prefix of the code of `c` passes the decoder's test. -/
theorem huffmanLookup_proper (c : Byte) (l : Nat) (hl : l < (huffmanCode c).length) :
    huffmanLookup (BinToUint32 ((huffmanCode c).take l)) l = none := by
  obtain ⟨h5, h30⟩ := code_length c
  unfold huffmanLookup
  cases hlk : huffmanDecodeTable.lookup (BinToUint32 ((huffmanCode c).take l)) with
  | none => rfl
  | some v =>
    simp only
    split
    · rename_i hlen
      exfalso
      have hmem := lookup_mem _ _ _ hlk
      have htake : BinToUint32 ((huffmanCode c).take l)
          = BinToUint32 (huffmanCode c) >>> ((huffmanCode c).length - l) := by
        rw [BinToUint32_eq _ (by rw [List.length_take]; omega), BinToUint32_eq _ (by omega),
          natOfBits_take _ _ (le_of_lt hl)]
      rcases codePair _ _ hmem (entry_mem c) with h | h
      · have hbc' : v.b = c := Fin.ext h
        obtain ⟨_, hlen'⟩ := entry_eq _ _ hmem
        rw [hbc'] at hlen'
        omega
      · simp only [hlen] at h
        rcases h.2 with h' | h'
        · omega
        · exact h' htake
    · rfl

/-- No run of at most seven one-bits passes the decoder's test. -/
theorem huffmanLookup_pad (l : Nat) (hl : l ≤ 7) :
    huffmanLookup (BinToUint32 (List.replicate l One)) l = none := by
  have h := List.all_eq_true.1 padChecks_true l (List.mem_range.2 (by omega))
  simpa using h

/-! ## The Huffman decoder loop -/

theorem huffmanBits_foldl (s : List Byte) (pre : List Bin) :
    s.foldl (fun bin b => bin ++ huffmanCode b) pre = pre ++ huffmanBits s := by
  unfold huffmanBits
  induction s generalizing pre with
  | nil => simp
  | cons c s ih =>
    simp only [List.foldl_cons, List.nil_append]
    rw [ih (pre ++ huffmanCode c), ih (huffmanCode c), List.append_assoc]

theorem huffmanBits_nil : huffmanBits [] = [] := rfl

theorem huffmanBits_cons (c : Byte) (s : List Byte) :
    huffmanBits (c :: s) = huffmanCode c ++ huffmanBits s := by
  have := huffmanBits_foldl s (huffmanCode c)
  unfold huffmanBits at this ⊢
  simpa using this

theorem decodeHuffmanLoop_succ (B : List Bin) (fuel cur s : Nat) (acc : List Byte) :
    decodeHuffmanLoop B (fuel + 1) cur s acc =
      if cur < B.length + 1 then
        match huffmanLookup (BinToUint32 (slice B s cur)) (cur - s) with
        | some x => decodeHuffmanLoop B fuel (cur + 1) cur (acc ++ [x])
        | none =>
          if cur - s > 30 then .error "failed to decode huffman strings (can't find string)"
          else decodeHuffmanLoop B fuel (cur + 1) s acc
      else .ok (s, acc) := by
  rw [decodeHuffmanLoop]

/-- More fuel does not change a result that was reached. -/
theorem decodeHuffmanLoop_mono (B : List Bin) (fuel : Nat) :
    ∀ (cur s : Nat) (acc : List Byte) (r : Res (Nat × List Byte)) (k : Nat),
      decodeHuffmanLoop B fuel cur s acc = r → r ≠ .stuck →
        decodeHuffmanLoop B (fuel + k) cur s acc = r := by
  induction fuel with
  | zero =>
    intro cur s acc r k h hr
    rw [decodeHuffmanLoop] at h
    exact absurd h.symm hr
  | succ n ih =>
    intro cur s acc r k h hr
    have hk : n + 1 + k = (n + k) + 1 := by omega
    rw [hk, decodeHuffmanLoop_succ]
    rw [decodeHuffmanLoop_succ] at h
    split at h
    · rw [if_pos (by assumption)]
      split at h
      · exact ih _ _ _ _ k h hr
      · split at h
        · first
          | exact h
          | (rw [if_pos (by assumption)]; exact h)
        · first
          | exact ih _ _ _ _ k h hr
          | (rw [if_neg (by assumption)]; exact ih _ _ _ _ k h hr)
    · rw [if_neg (by assumption)]; exact h

/-- The fuel `decodeHuffmanStrings` passes is enough: the loop is never stuck. -/
theorem decodeHuffmanLoop_enough (B : List Bin) (fuel : Nat) :
    ∀ (cur s : Nat) (acc : List Byte), 1 ≤ fuel → B.length + 2 ≤ fuel + cur →
      decodeHuffmanLoop B fuel cur s acc ≠ .stuck := by
  induction fuel with
  | zero => intro cur s acc h; omega
  | succ n ih =>
    intro cur s acc _ h
    rw [decodeHuffmanLoop_succ]
    split
    · split
      · exact ih _ _ _ (by omega) (by omega)
      · split
        · simp
        · exact ih _ _ _ (by omega) (by omega)
    · simp

theorem slice_of_drop {α : Type} (B : List α) (s cur : Nat) (code rest : List α)
    (hB : B.drop s = code ++ rest) (h : cur - s ≤ code.length) :
    slice B s cur = code.take (cur - s) := by
  unfold slice
  rw [hB, List.take_append_of_le_length h]

/-- One symbol: with the code of `c` at position `s0`, the loop started anywhere
inside that code reaches its end, writes `c` and moves `sChar` past the code. -/
theorem decodeHuffmanLoop_symbol (B : List Bin) (c : Byte) (s0 : Nat) (rest : List Bin)
    (hB : B.drop s0 = huffmanCode c ++ rest) :
    ∀ (n cur : Nat) (acc : List Byte) (fuel : Nat), s0 ≤ cur →
      cur + n = s0 + (huffmanCode c).length →
      decodeHuffmanLoop B (n + 1 + fuel) cur s0 acc =
        decodeHuffmanLoop B fuel (s0 + (huffmanCode c).length + 1)
          (s0 + (huffmanCode c).length) (acc ++ [c]) := by
  obtain ⟨h5, h30⟩ := code_length c
  have hlen : B.length = s0 + ((huffmanCode c).length + rest.length) := by
    have := congrArg List.length hB
    rw [List.length_drop, List.length_append] at this
    omega
  intro n
  induction n with
  | zero =>
    intro cur acc fuel hs hcur
    have hcur' : cur = s0 + (huffmanCode c).length := by omega
    subst hcur'
    have hk : 0 + 1 + fuel = fuel + 1 := by omega
    rw [hk, decodeHuffmanLoop_succ, if_pos (by omega),
      slice_of_drop B s0 _ _ rest hB (by omega)]
    have hsub : s0 + (huffmanCode c).length - s0 = (huffmanCode c).length := by omega
    rw [hsub, List.take_length, huffmanLookup_code]
  | succ n ih =>
    intro cur acc fuel hs hcur
    have hk : n + 1 + 1 + fuel = (n + 1 + fuel) + 1 := by omega
    rw [hk, decodeHuffmanLoop_succ, if_pos (by omega),
      slice_of_drop B s0 _ _ rest hB (by omega),
      huffmanLookup_proper c (cur - s0) (by omega)]
    simp only
    rw [if_neg (by omega)]
    exact ih (cur + 1) acc fuel (by omega) (by omega)

/-- The padding: with at most seven one-bits left after `s0`, the loop runs to
the end of the input without another hit. -/
theorem decodeHuffmanLoop_pad (B : List Bin) (s0 p : Nat) (hp : p ≤ 7)
    (hB : B.drop s0 = List.replicate p One) (hs : s0 ≤ B.length) :
    ∀ (n cur : Nat) (acc : List Byte), s0 ≤ cur → cur + n = B.length + 1 →
      decodeHuffmanLoop B (n + 1) cur s0 acc = .ok (s0, acc) := by
  have hlen : B.length = s0 + p := by
    have := congrArg List.length hB
    rw [List.length_drop, List.length_replicate] at this
    omega
  intro n
  induction n with
  | zero =>
    intro cur acc _ hcur
    rw [decodeHuffmanLoop_succ, if_neg (by omega)]
  | succ n ih =>
    intro cur acc hs' hcur
    have hsl : slice B s0 cur = List.replicate (cur - s0) One := by
      have := slice_of_drop B s0 cur (List.replicate p One) [] (by simpa using hB)
        (by rw [List.length_replicate]; omega)
      rw [this, List.take_replicate, Nat.min_eq_left (by omega)]
    rw [decodeHuffmanLoop_succ, if_pos (by omega), hsl, huffmanLookup_pad _ (by omega)]
    simp only
    rw [if_neg (by omega)]
    exact ih (cur + 1) acc (by omega) (by omega)

/-- The symbols of a string followed by the padding: some fuel decodes them all. -/
theorem decodeHuffmanLoop_string (B : List Bin) (p : Nat) (hp : p ≤ 7) :
    ∀ (syms : List Byte) (s0 : Nat) (acc : List Byte),
      B.drop s0 = huffmanBits syms ++ List.replicate p One → s0 ≤ B.length →
      ∃ fuel, decodeHuffmanLoop B fuel (s0 + 1) s0 acc = .ok (B.length - p, acc ++ syms) := by
  intro syms
  induction syms with
  | nil =>
    intro s0 acc hB hs
    rw [huffmanBits_nil, List.nil_append] at hB
    have hlen : B.length = s0 + p := by
      have := congrArg List.length hB
      rw [List.length_drop, List.length_replicate] at this
      omega
    refine ⟨(B.length - s0) + 1, ?_⟩
    rw [decodeHuffmanLoop_pad B s0 p hp hB hs (B.length - s0) (s0 + 1) acc (by omega) (by omega)]
    simp only [List.append_nil]
    congr 2
    omega
  | cons c syms ih =>
    intro s0 acc hB hs
    rw [huffmanBits_cons, List.append_assoc] at hB
    obtain ⟨h5, h30⟩ := code_length c
    have hlen : B.length = s0 + ((huffmanCode c).length
        + (huffmanBits syms ++ List.replicate p One).length) := by
      have := congrArg List.length hB
      rw [List.length_drop, List.length_append] at this
      omega
    have hB' : B.drop (s0 + (huffmanCode c).length)
        = huffmanBits syms ++ List.replicate p One := by
      rw [← List.drop_drop, hB, List.drop_left]
    obtain ⟨fuel, hfuel⟩ := ih (s0 + (huffmanCode c).length) (acc ++ [c]) hB' (by omega)
    refine ⟨((huffmanCode c).length - 1) + 1 + fuel, ?_⟩
    rw [decodeHuffmanLoop_symbol B c s0 _ hB ((huffmanCode c).length - 1) (s0 + 1) acc fuel
      (by omega) (by omega), hfuel]
    simp

/-! ## Packing bits into octets -/

theorem and_128_iff (x : Nat) : x &&& 128 = 128 ↔ x.testBit 7 = true := by
  constructor
  · intro h
    have : (x &&& 128).testBit 7 = true := by rw [h]; decide
    rw [Nat.testBit_and] at this
    exact (Bool.and_eq_true _ _ ▸ this).1
  · intro h
    apply Nat.eq_of_testBit_eq
    intro j
    rw [Nat.testBit_and]
    have h128 : (128 : Nat) = 2 ^ 7 := by norm_num
    rw [h128, Nat.testBit_two_pow]
    by_cases hj : 7 = j
    · subst hj; simp [h]
    · simp [hj]

theorem testBit_mod_256 (x j : Nat) :
    (x % 256).testBit j = (decide (j < 8) && x.testBit j) := by
  have := Nat.testBit_mod_two_pow x 8 j
  simpa using this

/-- The bits of an octet, read with `testBit`. -/
theorem byteBits_eq (b : Byte) :
    byteBits b = (List.range 8).map (fun i => b.val.testBit (7 - i)) := by
  unfold byteBits
  apply List.map_congr_left
  intro i hi
  have hi8 : i < 8 := List.mem_range.1 hi
  rw [Bool.eq_iff_iff, decide_eq_true_iff, and_128_iff, testBit_mod_256,
    Nat.testBit_shiftLeft]
  have : decide (7 ≥ i) = true := by simp; omega
  simp [this]

theorem byteBits_list (b : Byte) :
    byteBits b = [b.val.testBit 7, b.val.testBit 6, b.val.testBit 5, b.val.testBit 4,
      b.val.testBit 3, b.val.testBit 2, b.val.testBit 1, b.val.testBit 0] := by
  rw [byteBits_eq]
  rfl

theorem byteBits_length (b : Byte) : (byteBits b).length = 8 := by
  simp [byteBits]

theorem byteBits_zero : byteBits (byte 0) = List.replicate 8 Zero := by decide

theorem byte_or_val (buf : Byte) {x : Nat} (hx : x < 256) :
    (byte (buf.val ||| x)).val = buf.val ||| x :=
  byte_val_of_lt (Nat.or_lt_two_pow (n := 8) buf.isLt hx)

theorem testBit_mask : ∀ (c j : Fin 8),
    Nat.testBit ((1 <<< (7 - c.val)) % 256) j.val = decide (7 - c.val = j.val) := by
  decide

/-- Setting bit `7 - cur` of the buffer sets position `cur` of its bit sequence. -/
theorem byteBits_set (buf : Byte) (cur : Nat) (hcur : cur < 8) :
    byteBits (byte (buf.val ||| ((1 <<< (7 - cur)) % 256)))
      = (byteBits buf).take cur ++ [One] ++ (byteBits buf).drop (cur + 1) := by
  have hm : (1 <<< (7 - cur)) % 256 < 256 := Nat.mod_lt _ (by norm_num)
  have hbit : ∀ k, k < 8 →
      Nat.testBit ((1 <<< (7 - cur)) % 256) k = decide (7 - cur = k) :=
    fun k hk => testBit_mask ⟨cur, hcur⟩ ⟨k, hk⟩
  rw [byteBits_list, byteBits_list]
  simp only [byte_or_val buf hm, Nat.testBit_or, hbit 7 (by norm_num), hbit 6 (by norm_num),
    hbit 5 (by norm_num), hbit 4 (by norm_num), hbit 3 (by norm_num), hbit 2 (by norm_num),
    hbit 1 (by norm_num), hbit 0 (by norm_num)]
  interval_cases cur <;> simp

theorem byteBits_keep (buf : Byte) (cur : Nat) :
    byte (buf.val ||| ((0 <<< (7 - cur)) % 256)) = buf := by
  simp [byte_val_self]

/-- The padding loop fills the positions after `i` with ones. -/
theorem byteBits_pad (k : Nat) : ∀ (i : Nat) (buf : Byte), i + k = 7 →
    byteBits (BinToBytePad k i buf) = (byteBits buf).take (i + 1) ++ List.replicate k One := by
  induction k with
  | zero =>
    intro i buf hi
    have : i + 1 = 8 := by omega
    rw [BinToBytePad, this, List.replicate_zero, List.append_nil, List.take_of_length_le]
    rw [byteBits_length]
  | succ k ih =>
    intro i buf hi
    rw [BinToBytePad, ih (i + 1) _ (by omega)]
    have h6 : 6 - i = 7 - (i + 1) := by omega
    rw [h6, byteBits_set buf (i + 1) (by omega)]
    have hlen : ((byteBits buf).take (i + 1)).length = i + 1 := by
      rw [List.length_take, byteBits_length]; omega
    rw [List.append_assoc, List.take_append_eq_append_take, hlen,
      List.take_of_length_le (by omega : ((byteBits buf).take (i + 1)).length ≤ i + 1 + 1)]
    have : i + 1 + 1 - (i + 1) = 1 := by omega
    rw [this]
    simp [List.replicate_succ]

theorem ByteToBin_foldl (encoded : List Byte) (pre : List Bin) :
    encoded.foldl (fun binlist b => binlist ++ byteBits b) pre = pre ++ ByteToBin encoded := by
  unfold ByteToBin
  induction encoded generalizing pre with
  | nil => simp
  | cons b bs ih =>
    simp only [List.foldl_cons, List.nil_append]
    rw [ih (pre ++ byteBits b), ih (byteBits b), List.append_assoc]

theorem ByteToBin_nil : ByteToBin [] = [] := rfl

theorem ByteToBin_cons (b : Byte) (bs : List Byte) :
    ByteToBin (b :: bs) = byteBits b ++ ByteToBin bs := by
  have := ByteToBin_foldl bs (byteBits b)
  unfold ByteToBin at this ⊢
  simpa using this

theorem ByteToBin_append (xs ys : List Byte) :
    ByteToBin (xs ++ ys) = ByteToBin xs ++ ByteToBin ys := by
  induction xs with
  | nil => simp [ByteToBin_nil]
  | cons b xs ih => rw [List.cons_append, ByteToBin_cons, ByteToBin_cons, ih, List.append_assoc]

theorem ByteToBin_length (xs : List Byte) : (ByteToBin xs).length = 8 * xs.length := by
  induction xs with
  | nil => simp [ByteToBin_nil]
  | cons b xs ih =>
    rw [ByteToBin_cons, List.length_append, byteBits_length, ih, List.length_cons]; ring

/-- The first bit establishes the invariant of the loop of `BinToByte`. -/
theorem BinToByteInv_first (b : Bin) :
    BinToByteInv [b] (BinToByteStep ⟨[], byte 0, 0, 0⟩ b) := by
  refine ⟨rfl, rfl, [b], rfl, ?_, ?_⟩
  · simp [BinToByteStep, ByteToBin_nil]
  · cases b <;> decide

theorem BinToByteStep_flush (st : BinToByteState) (b : Bin)
    (h : st.c ≠ 0 ∧ st.c % 8 % 256 = 0) :
    BinToByteStep st b =
      ⟨st.dst ++ [st.buffer],
        (if b = One then byte ((byte 0).val ||| ((1 <<< (7 - st.c % 8 % 256)) % 256))
          else byte ((byte 0).val ||| ((0 <<< (7 - st.c % 8 % 256)) % 256))),
        st.c + 1, st.c % 8 % 256⟩ := by
  unfold BinToByteStep
  simp only [h, ne_eq, not_false_eq_true, and_self, if_true]

theorem BinToByteStep_keep (st : BinToByteState) (b : Bin)
    (h : ¬ (st.c ≠ 0 ∧ st.c % 8 % 256 = 0)) :
    BinToByteStep st b =
      ⟨st.dst,
        (if b = One then byte (st.buffer.val ||| ((1 <<< (7 - st.c % 8 % 256)) % 256))
          else byte (st.buffer.val ||| ((0 <<< (7 - st.c % 8 % 256)) % 256))),
        st.c + 1, st.c % 8 % 256⟩ := by
  unfold BinToByteStep
  simp only [h, if_false]

/-- Every further bit keeps the invariant of the loop of `BinToByte`. -/
theorem BinToByteInv_step (bs : List Bin) (st : BinToByteState) (b : Bin) (hne : bs ≠ [])
    (h : BinToByteInv bs st) : BinToByteInv (bs ++ [b]) (BinToByteStep st b) := by
  obtain ⟨hc, hcur, chunk, hclen, hbs, hbuf⟩ := h
  have hk : 1 ≤ bs.length := Nat.pos_of_ne_zero (fun h0 => hne (List.length_eq_zero.1 h0))
  have hmod : st.c % 8 % 256 = bs.length % 8 := by
    rw [hc]; exact Nat.mod_eq_of_lt (by omega)
  by_cases hflush : bs.length % 8 = 0
  · -- the buffer is full: it is flushed and a new octet starts
    have hcur7 : st.cur = 7 := by omega
    have hchunk : byteBits st.buffer = chunk := by
      rw [hbuf, hcur7]; simp
    rw [BinToByteStep_flush st b ⟨by omega, by omega⟩, hmod, hflush]
    refine ⟨by simp [hc], ?_, [b], rfl, ?_, ?_⟩
    · simp only [List.length_append, List.length_singleton]; omega
    · simp only [ByteToBin_append, ByteToBin_cons, ByteToBin_nil, List.append_nil, hchunk]
      rw [hbs]
    · cases b <;> (dsimp only; decide)
  · -- the bit goes into the octet in progress
    have hcur' : bs.length % 8 = st.cur + 1 := by omega
    have hcur6 : st.cur + 1 < 8 := by omega
    rw [BinToByteStep_keep st b (by omega), hmod, hcur']
    refine ⟨by simp [hc], ?_, chunk ++ [b], by simp [hclen], ?_, ?_⟩
    · simp only [List.length_append, List.length_singleton]; omega
    · simp only [hbs, List.append_assoc]
    · have h7 : 7 - st.cur = (7 - (st.cur + 1)) + 1 := by omega
      cases b
      · dsimp only
        rw [if_neg (by decide), byteBits_keep, hbuf, h7, List.replicate_succ]
        simp
      · dsimp only
        rw [if_pos rfl, byteBits_set st.buffer (st.cur + 1) hcur6, hbuf,
          List.take_append_of_le_length (by omega), List.take_of_length_le (by omega),
          List.drop_append_eq_append_drop, List.drop_of_length_le (by omega),
          List.nil_append, hclen, List.drop_replicate]
        have : 7 - st.cur - (st.cur + 1 + 1 - (st.cur + 1)) = 7 - (st.cur + 1) := by omega
        rw [this]

theorem BinToByteInv_foldl (rest : List Bin) :
    ∀ (bs : List Bin) (st : BinToByteState), bs ≠ [] → BinToByteInv bs st →
      BinToByteInv (bs ++ rest) (rest.foldl BinToByteStep st) := by
  induction rest with
  | nil => intro bs st _ h; simpa using h
  | cons b rest ih =>
    intro bs st hne h
    have := ih (bs ++ [b]) (BinToByteStep st b) (by simp) (BinToByteInv_step bs st b hne h)
    simpa using this

/-- Padding: for a non-empty bit sequence, the octets of `BinToByte` read back
as the bits followed by the one-bits that complete the last octet. -/
theorem ByteToBin_BinToByte (bits : List Bin) (hne : bits ≠ []) :
    ByteToBin (BinToByte bits) = bits ++ List.replicate ((8 - bits.length % 8) % 8) One := by
  obtain ⟨b, rest, rfl⟩ := List.exists_cons_of_ne_nil hne
  have hinv := BinToByteInv_foldl rest [b] _ (by simp) (BinToByteInv_first b)
  simp only [List.singleton_append] at hinv
  obtain ⟨hc, hcur, chunk, hclen, hbs, hbuf⟩ := hinv
  unfold BinToByte
  simp only [List.foldl_cons]
  have hlen : 1 ≤ (b :: rest).length := by simp
  by_cases h7 : (List.foldl BinToByteStep (BinToByteStep ⟨[], byte 0, 0, 0⟩ b) rest).cur = 7
  · rw [if_pos h7, ByteToBin_append, ByteToBin_cons, ByteToBin_nil, List.append_nil, hbuf, h7]
    have hp : (8 - (b :: rest).length % 8) % 8 = 0 := by omega
    rw [hp]
    simp only [Nat.sub_self, List.replicate_zero, List.append_nil]
    exact hbs.symm
  · rw [if_neg h7, ByteToBin_append, ByteToBin_cons, ByteToBin_nil, List.append_nil,
      byteBits_pad _ _ _ (by omega), hbuf]
    have hp : (8 - (b :: rest).length % 8) % 8
        = 7 - (List.foldl BinToByteStep (BinToByteStep ⟨[], byte 0, 0, 0⟩ b) rest).cur := by
      omega
    rw [hp, List.take_append_of_le_length (by omega), List.take_of_length_le (by omega),
      ← List.append_assoc, ← hbs]

/-! ## Huffman strings and string literals: round trips -/

theorem huffmanBits_length_le (s : List Byte) : (huffmanBits s).length ≤ 30 * s.length := by
  induction s with
  | nil => simp [huffmanBits_nil]
  | cons c s ih =>
    rw [huffmanBits_cons, List.length_append, List.length_cons]
    have := (code_length c).2
    omega

theorem huffmanBits_ne_nil (s : List Byte) (h : s ≠ []) : huffmanBits s ≠ [] := by
  obtain ⟨c, rest, rfl⟩ := List.exists_cons_of_ne_nil h
  rw [huffmanBits_cons]
  intro hnil
  have h1 := congrArg List.length hnil
  rw [List.length_append, List.length_nil] at h1
  have h2 := (code_length c).1
  omega

/-- Length of the Huffman payload of a non-empty string. -/
theorem BinToByte_length_le (s : List Byte) (h : s ≠ []) :
    (BinToByte (huffmanBits s)).length ≤ 4 * s.length := by
  have h1 := congrArg List.length (ByteToBin_BinToByte (huffmanBits s) (huffmanBits_ne_nil s h))
  rw [ByteToBin_length, List.length_append, List.length_replicate] at h1
  have h2 := huffmanBits_length_le s
  have h3 : 1 ≤ s.length := Nat.pos_of_ne_zero (fun h0 => h (List.length_eq_zero.1 h0))
  omega

/-- The main loop of the Huffman decoder on the bits of a non-empty string
followed by at most seven one-bits: with the fuel `decodeHuffmanStrings` passes it
returns the string and the position where the padding starts. -/
theorem decodeHuffmanLoop_bits (s : List Byte) (hs : s ≠ []) (p : Nat) (hp : p ≤ 7)
    (B : List Bin) (hB : B = huffmanBits s ++ List.replicate p One) :
    decodeHuffmanLoop B (B.length + 1) 4 0 [] = .ok (B.length - p, s) := by
  obtain ⟨c, syms, rfl⟩ := List.exists_cons_of_ne_nil hs
  obtain ⟨h5, h30⟩ := code_length c
  have hB0 : B.drop 0 = huffmanCode c ++ (huffmanBits syms ++ List.replicate p One) := by
    rw [List.drop_zero, hB, huffmanBits_cons, List.append_assoc]
  have hlen : B.length = (huffmanCode c).length
      + (huffmanBits syms ++ List.replicate p One).length := by
    have := congrArg List.length hB0
    rw [List.drop_zero, List.length_append] at this
    exact this
  have hBL : B.drop (0 + (huffmanCode c).length)
      = huffmanBits syms ++ List.replicate p One := by
    rw [← List.drop_drop, hB0, List.drop_left]
  obtain ⟨fuel, hfuel⟩ := decodeHuffmanLoop_string B p hp syms (0 + (huffmanCode c).length) [c]
    hBL (by omega)
  have hsym := decodeHuffmanLoop_symbol B c 0 _ hB0 ((huffmanCode c).length - 4) 4 [] fuel
    (by omega) (by omega)
  rw [List.nil_append, hfuel, List.singleton_append] at hsym
  have hne := decodeHuffmanLoop_enough B (B.length + 1) 4 0 [] (by omega) (by omega)
  have h1 := decodeHuffmanLoop_mono B (B.length + 1) 4 0 [] _
    ((huffmanCode c).length - 4 + 1 + fuel) rfl hne
  have h2 := decodeHuffmanLoop_mono B _ 4 0 [] _ (B.length + 1) hsym (by simp)
  rw [Nat.add_comm ((huffmanCode c).length - 4 + 1 + fuel) (B.length + 1)] at h2
  rw [← h1, h2]

/-- Huffman round trip for non-empty strings: `decodeHuffmanStrings` returns
the string whose codes `BinToByte` packed. -/
theorem decodeHuffmanStrings_BinToByte (s : List Byte) (hs : s ≠ []) :
    decodeHuffmanStrings (BinToByte (huffmanBits s)) = .ok s := by
  have hpack := ByteToBin_BinToByte (huffmanBits s) (huffmanBits_ne_nil s hs)
  have hp : (8 - (huffmanBits s).length % 8) % 8 ≤ 7 := by omega
  have hloop := decodeHuffmanLoop_bits s hs _ hp _ hpack
  unfold decodeHuffmanStrings
  simp only [hloop, Res.bind_ok]
  have hlen : (ByteToBin (BinToByte (huffmanBits s))).length
      = (huffmanBits s).length + (8 - (huffmanBits s).length % 8) % 8 := by
    rw [hpack, List.length_append, List.length_replicate]
  have hdrop : (ByteToBin (BinToByte (huffmanBits s))).drop
      ((ByteToBin (BinToByte (huffmanBits s))).length - (8 - (huffmanBits s).length % 8) % 8)
        = List.replicate ((8 - (huffmanBits s).length % 8) % 8) One := by
    have : (ByteToBin (BinToByte (huffmanBits s))).length
        - (8 - (huffmanBits s).length % 8) % 8 = (huffmanBits s).length := by omega
    rw [this]
    conv_lhs => rw [hpack]
    rw [List.drop_left]
  rw [if_neg (by rw [hdrop, List.length_replicate]; omega)]
  have hslice : slice (ByteToBin (BinToByte (huffmanBits s)))
      ((ByteToBin (BinToByte (huffmanBits s))).length - (8 - (huffmanBits s).length % 8) % 8)
      (ByteToBin (BinToByte (huffmanBits s))).length
        = List.replicate ((8 - (huffmanBits s).length % 8) % 8) One := by
    unfold slice
    rw [hdrop, List.take_replicate]
    congr 1
    omega
  rw [hslice, if_neg]
  simp [One, Zero]

theorem opcode_bits_0 : ∀ x : Fin 128,
    (byte ((byte 0).val ||| x.val)).val &&& 128 ≠ 128 := by decide

/-- A Huffman-coded string literal of a non-empty string decodes to the string,
and `decodeStrings` stops exactly at its end. -/
theorem decodeStrings_huf (s rest : List Byte) (hs : s ≠ []) (hl : s.length < 2 ^ 60) :
    decodeStrings (intBytes (byte 128) 7 (BinToByte (huffmanBits s)).length
      ++ BinToByte (huffmanBits s) ++ rest) = .ok (s, rest) := by
  have hL : (BinToByte (huffmanBits s)).length < 2 ^ 64 := by
    have := BinToByte_length_le s hs
    omega
  obtain ⟨x, tl, hx, htl⟩ := intBytes_head (byte 128) (BinToByte (huffmanBits s)).length
    (by norm_num : 7 ≤ 8)
  have hdec := decodeIntValue_intBytes (byte 128) (BinToByte (huffmanBits s) ++ rest)
    (by norm_num : 7 ≤ 8) hL (by decide)
  rw [List.append_assoc]
  rw [htl] at hdec ⊢
  unfold decodeStrings
  rw [hdec]
  simp only [Res.bind_ok, List.cons_append]
  rw [if_pos (opcode_bits_128 ⟨x, hx⟩).2, if_neg (by simp), List.take_left, List.drop_left,
    decodeHuffmanStrings_BinToByte s hs]
  rfl

/-- A raw string literal decodes to the string, and `decodeStrings` stops exactly
at its end. -/
theorem decodeStrings_raw (s rest : List Byte) (hl : s.length < 2 ^ 64) :
    decodeStrings (intBytes (byte 0) 7 s.length ++ s ++ rest) = .ok (s, rest) := by
  obtain ⟨x, tl, hx, htl⟩ := intBytes_head (byte 0) s.length (by norm_num : 7 ≤ 8)
  have hdec := decodeIntValue_intBytes (byte 0) (s ++ rest) (by norm_num : 7 ≤ 8) hl
    (by decide)
  rw [List.append_assoc]
  rw [htl] at hdec ⊢
  unfold decodeStrings
  rw [hdec]
  simp only [Res.bind_ok, List.cons_append]
  rw [if_neg (opcode_bits_0 ⟨x, hx⟩), if_neg (by simp), List.take_left, List.drop_left]

/-- Claim C3 at its failing input: the Huffman encoding of the empty string as
`encodeStrings` builds it is the single octet `0x7f`, not the empty sequence, and
`decodeHuffmanStrings` reads it back as the one-octet string `"9"`. -/
theorem huffman_roundtrip_empty_string :
    BinToByte (huffmanBits []) = [0x7f] ∧
      decodeHuffmanStrings (BinToByte (huffmanBits [])) = .ok (str "9") := by
  decide

/-- Claim C4 at its failing input: the Huffman string literal of the empty string
is `81 7f`, and `decodeStrings` reads it back as the one-octet string `"9"`. -/
theorem string_literal_roundtrip_empty_string :
    encodeStrings [] [] true = .ok [0x81, 0x7f] ∧
      decodeStrings [0x81, 0x7f] = .ok (str "9", []) := by
  decide

/-! ## Lookup and resolve agree -/

theorem KeyValue_eq_of (v f : KeyValue) (hk : v.Key = f.Key) (hv : v.Value = f.Value) :
    v = f := by
  cases v; cases f; simp_all

theorem getElem?_lt_length {α : Type} (l : List α) (j : Nat) (v : α) (h : l[j]? = some v) :
    j < l.length := by
  by_contra hcon
  rw [List.getElem?_eq_none (by omega)] at h
  exact absurd h (by simp)

/-- A full match reported by `searchHeaderTable` resolves to the field itself. -/
theorem search_full_resolves (d : List KeyValue) (f : KeyValue) (i : Nat)
    (hd : 61 + d.length < 65536) (h : searchHeaderTable d f = (false, false, i)) :
    1 ≤ i ∧ i ≤ 61 + d.length ∧ decodeHeaderTable i d = .ok f := by
  unfold searchHeaderTable at h
  split at h
  · rename_i c hc
    simp only [Prod.mk.injEq, true_and] at h
    obtain ⟨j, hj, ⟨v, hv, hp⟩, -⟩ := rangeFind_some _ _ _ _ hc
    have hjlt := getElem?_lt_length _ _ _ hv
    simp only [decide_eq_true_eq] at hp
    have hvf : v = f := KeyValue_eq_of v f hp.1 hp.2
    obtain ⟨v', hv', hres⟩ := decodeHeaderTable_dynamic d i hd (by omega) (by omega)
    have hidx : i - 62 = j := by omega
    rw [hidx, hv] at hv'
    simp only [Option.some.injEq] at hv'
    rw [← hv', hvf] at hres
    exact ⟨by omega, by omega, hres⟩
  · split at h
    · rename_i c hc
      simp only [Prod.mk.injEq, true_and] at h
      obtain ⟨j, hj, ⟨v, hv, hp⟩, -⟩ := rangeFind_some _ _ _ _ hc
      have hjlt := getElem?_lt_length _ _ _ hv
      rw [staticHeaderTable_length] at hjlt
      simp only [decide_eq_true_eq] at hp
      have hvf : v = f := KeyValue_eq_of v f hp.1 hp.2
      obtain ⟨v', hv', hres⟩ := decodeHeaderTable_static d i hd (by omega) (by omega)
      have hidx : i - 1 = j := by omega
      rw [hidx, hv] at hv'
      simp only [Option.some.injEq] at hv'
      rw [← hv', hvf] at hres
      exact ⟨by omega, by omega, hres⟩
    · split at h
      · simp at h
      · split at h <;> simp at h

/-- A name-only match reported by `searchHeaderTable` resolves to an entry with
the name of the field. -/
theorem search_name_resolves (d : List KeyValue) (f : KeyValue) (i : Nat)
    (hd : 61 + d.length < 65536) (h : searchHeaderTable d f = (false, true, i)) :
    1 ≤ i ∧ i ≤ 61 + d.length ∧ ∃ v, decodeHeaderTable i d = .ok v ∧ v.Key = f.Key := by
  unfold searchHeaderTable at h
  split at h
  · simp at h
  · split at h
    · simp at h
    · split at h
      · rename_i c hc
        simp only [Prod.mk.injEq, true_and] at h
        obtain ⟨j, hj, ⟨v, hv, hp⟩, -⟩ := rangeFind_some _ _ _ _ hc
        have hjlt := getElem?_lt_length _ _ _ hv
        simp only [decide_eq_true_eq] at hp
        obtain ⟨v', hv', hres⟩ := decodeHeaderTable_dynamic d i hd (by omega) (by omega)
        have hidx : i - 62 = j := by omega
        rw [hidx, hv] at hv'
        simp only [Option.some.injEq] at hv'
        rw [← hv'] at hres
        exact ⟨by omega, by omega, v, hres, hp⟩
      · split at h
        · rename_i c hc
          simp only [Prod.mk.injEq, true_and] at h
          obtain ⟨j, hj, ⟨v, hv, hp⟩, -⟩ := rangeFind_some _ _ _ _ hc
          have hjlt := getElem?_lt_length _ _ _ hv
          rw [staticHeaderTable_length] at hjlt
          simp only [decide_eq_true_eq] at hp
          obtain ⟨v', hv', hres⟩ := decodeHeaderTable_static d i hd (by omega) (by omega)
          have hidx : i - 1 = j := by omega
          rw [hidx, hv] at hv'
          simp only [Option.some.injEq] at hv'
          rw [← hv'] at hres
          exact ⟨by omega, by omega, v, hres, hp⟩
        · simp at h

/-! ## One field through the encoder and the decoder -/

theorem intBytes_head_nonzero (p : Byte) {n : Nat} (v : Nat) (hn1 : 1 ≤ n) (hn : n ≤ 8)
    (hv : v ≠ 0) :
    ∃ x tl, x < 2 ^ n ∧ x ≠ 0 ∧ intBytes p n v = byte (p.val ||| x) :: tl := by
  have hpos : 2 ≤ 2 ^ n := by
    calc 2 = 2 ^ 1 := by norm_num
      _ ≤ 2 ^ n := Nat.pow_le_pow_right (by norm_num) hn1
  have hpow : 2 ^ n ≤ 2 ^ 8 := Nat.pow_le_pow_right (by norm_num) hn
  unfold intBytes
  by_cases h : v < 2 ^ n - 1
  · refine ⟨v, [], by omega, hv, ?_⟩
    rw [if_pos h, Nat.mod_eq_of_lt (by omega)]
  · exact ⟨2 ^ n - 1, _, by omega, by omega, by rw [if_neg h]⟩

theorem DecodeHeaderLoop_succ (fuel : Nat) (b0 : Byte) (tl : List Byte)
    (dynamicHeader : List KeyValue) (limit : Nat) (headerBuffer : List KeyValue) :
    DecodeHeaderLoop (fuel + 1) (b0 :: tl) dynamicHeader limit headerBuffer =
      if b0.val &&& 128 = 128 then
        (decodeIntValue (b0 :: tl) 7).bind fun (i, eB) =>
        (decodeHeaderTable (i % 65536) dynamicHeader).bind fun kv =>
          DecodeHeaderLoop fuel eB dynamicHeader limit (headerBuffer ++ [kv])
      else if b0.val &&& 192 = 64 then
        if b0.val &&& 63 = 0 then
          (decodeStrings tl).bind fun (key, eB) =>
          (decodeStrings eB).bind fun (value, eB) =>
            DecodeHeaderLoop fuel eB (pushFront dynamicHeader ⟨key, value⟩) limit
              (headerBuffer ++ [⟨key, value⟩])
        else
          (decodeIntValue (b0 :: tl) 6).bind fun (i, eB) =>
          (decodeHeaderTable (i % 65536) dynamicHeader).bind fun kv =>
          (decodeStrings eB).bind fun (value, eB) =>
            DecodeHeaderLoop fuel eB (pushFront dynamicHeader ⟨kv.Key, value⟩) limit
              (headerBuffer ++ [⟨kv.Key, value⟩])
      else if b0.val &&& 240 = 0 ∨ b0.val &&& 240 = 16 then
        if b0.val &&& 15 = 0 then
          (decodeStrings tl).bind fun (key, eB) =>
          (decodeStrings eB).bind fun (value, eB) =>
            DecodeHeaderLoop fuel eB dynamicHeader limit (headerBuffer ++ [⟨key, value⟩])
        else
          (decodeIntValue (b0 :: tl) 4).bind fun (i, eB) =>
          (decodeHeaderTable (i % 65536) dynamicHeader).bind fun kv =>
          (decodeStrings eB).bind fun (value, eB) =>
            DecodeHeaderLoop fuel eB dynamicHeader limit (headerBuffer ++ [⟨kv.Key, value⟩])
      else if b0.val &&& 224 = 32 then
        (decodeIntValue (b0 :: tl) 5).bind fun (i, eB) =>
          DecodeHeaderLoop fuel eB dynamicHeader (i % 2 ^ 32) headerBuffer
      else .error "DecodeHeader: can't decode" := by
  rw [DecodeHeaderLoop]

/-- Decoder on an Indexed representation that the encoder wrote for a full match. -/
theorem decode_indexed (f : KeyValue) (dyn : List KeyValue) (i : Nat)
    (hd : 61 + dyn.length < 65536) (hm : searchHeaderTable dyn f = (false, false, i))
    (fuel : Nat) (rest : List Byte) (limit : Nat) (hb : List KeyValue) :
    DecodeHeaderLoop (fuel + 1) (intBytes (byte 128) 7 i ++ rest) dyn limit hb
      = DecodeHeaderLoop fuel rest dyn limit (hb ++ [f]) := by
  obtain ⟨h1, h2, hres⟩ := search_full_resolves dyn f i hd hm
  obtain ⟨x, tl, hx, htl⟩ := intBytes_head (byte 128) i (by norm_num : 7 ≤ 8)
  have hdec := decodeIntValue_intBytes (byte 128) rest (by norm_num : 7 ≤ 8)
    (by omega : i < 2 ^ 64) (by decide)
  rw [htl] at hdec ⊢
  rw [List.cons_append, DecodeHeaderLoop_succ, if_pos (opcode_bits_128 ⟨x, hx⟩).2]
  rw [List.cons_append] at hdec
  rw [hdec]
  simp only [Res.bind_ok, Nat.mod_eq_of_lt (by omega : i < 65536), hres]

/-- Decoder on a literal with incremental indexing and an indexed name that the
encoder wrote for a name-only match. -/
theorem decode_literal_indexed_name (f : KeyValue) (dyn : List KeyValue) (i : Nat)
    (hd : 61 + dyn.length < 65536) (hm : searchHeaderTable dyn f = (false, true, i))
    (hv : f.Value ≠ []) (hl : f.Value.length < 2 ^ 60)
    (fuel : Nat) (rest : List Byte) (limit : Nat) (hb : List KeyValue) :
    DecodeHeaderLoop (fuel + 1)
        (intBytes (byte 64) 6 i ++ intBytes (byte 128) 7 (BinToByte (huffmanBits f.Value)).length
          ++ BinToByte (huffmanBits f.Value) ++ rest) dyn limit hb
      = DecodeHeaderLoop fuel rest (f :: dyn) limit (hb ++ [f]) := by
  obtain ⟨h1, h2, v, hres, hkey⟩ := search_name_resolves dyn f i hd hm
  obtain ⟨x, tl, hx, hx0, htl⟩ := intBytes_head_nonzero (byte 64) i (by norm_num : 1 ≤ 6)
    (by norm_num : 6 ≤ 8) (by omega)
  have hbits := opcode_bits_64 ⟨x, hx⟩
  have hdec := decodeIntValue_intBytes (byte 64)
    (intBytes (byte 128) 7 (BinToByte (huffmanBits f.Value)).length
      ++ BinToByte (huffmanBits f.Value) ++ rest) (by norm_num : 6 ≤ 8)
    (by omega : i < 2 ^ 64) (by decide)
  rw [List.append_assoc, List.append_assoc, ← List.append_assoc (intBytes (byte 128) 7 _)]
  rw [htl] at hdec ⊢
  rw [List.cons_append] at hdec
  rw [List.cons_append, DecodeHeaderLoop_succ, if_neg hbits.1, if_pos hbits.2.1,
    if_neg (fun h0 => hx0 (hbits.2.2.1 h0)), hdec]
  simp only [Res.bind_ok, Nat.mod_eq_of_lt (by omega : i < 65536), hres,
    decodeStrings_huf f.Value rest hv hl, pushFront_eq, hkey]

/-- Decoder on a literal with incremental indexing and a new name. -/
theorem decode_literal_new_name (f : KeyValue) (dyn : List KeyValue)
    (hk : f.Key ≠ []) (hv : f.Value ≠ []) (hlk : f.Key.length < 2 ^ 60)
    (hlv : f.Value.length < 2 ^ 60)
    (fuel : Nat) (rest : List Byte) (limit : Nat) (hb : List KeyValue) :
    DecodeHeaderLoop (fuel + 1)
        ([byte 64] ++ intBytes (byte 128) 7 (BinToByte (huffmanBits f.Key)).length
          ++ BinToByte (huffmanBits f.Key)
          ++ intBytes (byte 128) 7 (BinToByte (huffmanBits f.Value)).length
          ++ BinToByte (huffmanBits f.Value) ++ rest) dyn limit hb
      = DecodeHeaderLoop fuel rest (f :: dyn) limit (hb ++ [f]) := by
  have hshape : [byte 64] ++ intBytes (byte 128) 7 (BinToByte (huffmanBits f.Key)).length
        ++ BinToByte (huffmanBits f.Key)
        ++ intBytes (byte 128) 7 (BinToByte (huffmanBits f.Value)).length
        ++ BinToByte (huffmanBits f.Value) ++ rest
      = byte 64 :: (intBytes (byte 128) 7 (BinToByte (huffmanBits f.Key)).length
        ++ BinToByte (huffmanBits f.Key)
        ++ (intBytes (byte 128) 7 (BinToByte (huffmanBits f.Value)).length
        ++ BinToByte (huffmanBits f.Value) ++ rest)) := by
    simp only [List.singleton_append, List.cons_append, List.append_assoc, List.nil_append]
  rw [hshape, DecodeHeaderLoop_succ, if_neg (by decide), if_pos (by decide), if_pos (by decide),
    decodeStrings_huf f.Key _ hk hlk]
  simp only [Res.bind_ok, decodeStrings_huf f.Value rest hv hlv, pushFront_eq]

theorem decodeIntValue_cookie (rest : List Byte) :
    decodeIntValue (byte 15 :: byte 17 :: rest) 4 = .ok (32, rest) := by
  rfl

theorem decodeIntValue_set_cookie (rest : List Byte) :
    decodeIntValue (byte 15 :: byte 40 :: rest) 4 = .ok (55, rest) := by
  rfl

theorem encodeField_cookie {lower : List Byte → List Byte} (f : KeyValue) (dyn : List KeyValue)
    (h : lower f.Key = str "cookie") :
    encodeField lower f dyn =
      .ok ([byte 15, byte 17] ++ intBytes (byte 128) 7 (BinToByte (huffmanBits f.Value)).length
        ++ BinToByte (huffmanBits f.Value), dyn) := by
  unfold encodeField
  rw [if_neg (fun hc => hc.1 h)]
  simp only [h, if_true]
  have : encodeIntValue [byte 10] 4 32 = .ok [byte 15, byte 17] := by decide
  simp only [this, Res.bind_ok, encodeStrings_huf]

theorem encodeField_set_cookie {lower : List Byte → List Byte} (f : KeyValue) (dyn : List KeyValue)
    (h : lower f.Key = str "set-cookie") :
    encodeField lower f dyn =
      .ok ([byte 15, byte 40] ++ intBytes (byte 128) 7 (BinToByte (huffmanBits f.Value)).length
        ++ BinToByte (huffmanBits f.Value), dyn) := by
  unfold encodeField
  rw [if_neg (fun hc => hc.2 h)]
  have hne : ¬ (lower f.Key = str "cookie") := by rw [h]; decide
  simp only [hne, if_false]
  have : encodeIntValue [byte 10] 4 55 = .ok [byte 15, byte 40] := by decide
  simp only [this, Res.bind_ok, encodeStrings_huf]

/-- Decoder on the literal without indexing that the encoder writes for a
`cookie` (static index 32) or `set-cookie` (static index 55) field. -/
theorem decode_cookie (f : KeyValue) (dyn : List KeyValue) (c : Byte) (idx : Nat) (name : String)
    (hdec : ∀ rest, decodeIntValue (byte 15 :: c :: rest) 4 = .ok (idx, rest))
    (hidx : 1 ≤ idx ∧ idx ≤ 61) (hst : staticHeaderTable[idx - 1]? = some (kv name ""))
    (hkey : f.Key = str name) (hd : 61 + dyn.length < 65536)
    (hv : f.Value ≠ []) (hl : f.Value.length < 2 ^ 60)
    (fuel : Nat) (rest : List Byte) (limit : Nat) (hb : List KeyValue) :
    DecodeHeaderLoop (fuel + 1)
        ([byte 15, c] ++ intBytes (byte 128) 7 (BinToByte (huffmanBits f.Value)).length
          ++ BinToByte (huffmanBits f.Value) ++ rest) dyn limit hb
      = DecodeHeaderLoop fuel rest dyn limit (hb ++ [f]) := by
  obtain ⟨v, hv', hres⟩ := decodeHeaderTable_static dyn idx hd hidx.1 hidx.2
  rw [hst] at hv'
  simp only [Option.some.injEq] at hv'
  subst hv'
  have hshape : [byte 15, c] ++ intBytes (byte 128) 7 (BinToByte (huffmanBits f.Value)).length
        ++ BinToByte (huffmanBits f.Value) ++ rest
      = byte 15 :: c :: (intBytes (byte 128) 7 (BinToByte (huffmanBits f.Value)).length
        ++ BinToByte (huffmanBits f.Value) ++ rest) := by
    simp only [List.cons_append, List.append_assoc, List.nil_append]
  rw [hshape, DecodeHeaderLoop_succ, if_neg (by decide), if_neg (by decide),
    if_pos (Or.inl (by decide)), if_neg (by decide), hdec]
  simp only [Res.bind_ok, Nat.mod_eq_of_lt (by omega : idx < 65536), hres,
    decodeStrings_huf f.Value rest hv hl]
  have : (⟨(kv name "").Key, f.Value⟩ : KeyValue) = f := by
    cases f
    simp only [kv] at hkey ⊢
    simp_all
  rw [this]

/-- One field: the encoder's octets for it are not empty, and the decoder reads
them back as the field, ending with the table the encoder ended with. -/
theorem field_roundtrip {lower : List Byte → List Byte} (f : KeyValue) (dyn : List KeyValue)
    (hk : f.Key ≠ []) (hv : f.Value ≠ []) (hlk : f.Key.length < 2 ^ 60)
    (hlv : f.Value.length < 2 ^ 60)
    (hc1 : lower f.Key = str "cookie" → f.Key = str "cookie")
    (hc2 : lower f.Key = str "set-cookie" → f.Key = str "set-cookie")
    (hd : 61 + dyn.length < 65536) :
    ∃ b dyn1, encodeField lower f dyn = .ok (b, dyn1) ∧ 1 ≤ b.length ∧
      dyn1.length ≤ dyn.length + 1 ∧
      ∀ (fuel : Nat) (rest : List Byte) (limit : Nat) (hb : List KeyValue),
        DecodeHeaderLoop (fuel + 1) (b ++ rest) dyn limit hb
          = DecodeHeaderLoop fuel rest dyn1 limit (hb ++ [f]) := by
  by_cases hck : lower f.Key = str "cookie"
  · refine ⟨_, dyn, encodeField_cookie f dyn hck, by simp, by omega, ?_⟩
    intro fuel rest limit hb
    exact decode_cookie f dyn (byte 17) 32 "cookie" decodeIntValue_cookie (by omega)
      (by decide) (hc1 hck) hd hv hlv fuel rest limit hb
  by_cases hsck : lower f.Key = str "set-cookie"
  · refine ⟨_, dyn, encodeField_set_cookie f dyn hsck, by simp, by omega, ?_⟩
    intro fuel rest limit hb
    exact decode_cookie f dyn (byte 40) 55 "set-cookie" decodeIntValue_set_cookie (by omega)
      (by decide) (hc2 hsck) hd hv hlv fuel rest limit hb
  rcases hsr : searchHeaderTable dyn f with ⟨nh, ko, i⟩
  cases nh
  · cases ko
    · -- full match
      obtain ⟨x, tl, _, htl⟩ := intBytes_head (byte 128) i (by norm_num : 7 ≤ 8)
      refine ⟨_, dyn, encodeField_of_full f dyn i hck hsck hsr, by rw [htl]; simp, by omega, ?_⟩
      intro fuel rest limit hb
      exact decode_indexed f dyn i hd hsr fuel rest limit hb
    · -- name-only match
      obtain ⟨x, tl, _, htl⟩ := intBytes_head (byte 64) i (by norm_num : 6 ≤ 8)
      refine ⟨_, f :: dyn, encodeField_of_name f dyn i hck hsck hsr, by rw [htl]; simp,
        by simp, ?_⟩
      intro fuel rest limit hb
      exact decode_literal_indexed_name f dyn i hd hsr hv hlv fuel rest limit hb
  · -- no match
    refine ⟨_, f :: dyn, encodeField_of_none f dyn ko i hck hsck hsr, by simp, by simp, ?_⟩
    intro fuel rest limit hb
    exact decode_literal_new_name f dyn hk hv hlk hlv fuel rest limit hb

/-! ## Header lists: the codec round trip -/

theorem DecodeHeaderLoop_nil (fuel : Nat) (dyn : List KeyValue) (limit : Nat)
    (hb : List KeyValue) :
    DecodeHeaderLoop fuel [] dyn limit hb = .ok (hb, ⟨cutHeader dyn limit, limit⟩) := by
  cases fuel <;> rw [DecodeHeaderLoop]

theorem EncodeHeaderLoop_single {lower : List Byte → List Byte}
    (f : KeyValue) (dyn : List KeyValue) (acc b : List Byte)
    (dyn1 : List KeyValue) (h : encodeField lower f dyn = .ok (b, dyn1)) :
    EncodeHeaderLoop lower [f] dyn acc = .ok (acc ++ b, dyn1) := by
  simp [EncodeHeaderLoop, h]

theorem EncodeHeaderLoop_cons {lower : List Byte → List Byte}
    (f g : KeyValue) (rest : List KeyValue) (dyn : List KeyValue)
    (acc b : List Byte) (dyn1 : List KeyValue) (h : encodeField lower f dyn = .ok (b, dyn1)) :
    EncodeHeaderLoop lower (f :: g :: rest) dyn acc =
      EncodeHeaderLoop lower (g :: rest) dyn1 (acc ++ b) := by
  simp [EncodeHeaderLoop, h]

/-- The loops of the two codecs on a non-empty header list: the decoder, given at
least as much fuel as there are octets, reads back the list and ends with the
table the encoder ended with, evicted to the limit. -/
theorem loops_roundtrip {lower : List Byte → List Byte} (L : List KeyValue) :
    L ≠ [] → ∀ (dyn : List KeyValue) (acc : List Byte),
      (∀ f ∈ L, f.Key ≠ [] ∧ f.Value ≠ []) →
      (∀ f ∈ L, f.Key.length < 2 ^ 60 ∧ f.Value.length < 2 ^ 60) →
      (∀ f ∈ L, (lower f.Key = str "cookie" → f.Key = str "cookie") ∧
        (lower f.Key = str "set-cookie" → f.Key = str "set-cookie")) →
      61 + dyn.length + L.length < 65536 →
      ∃ bytes dyn', EncodeHeaderLoop lower L dyn acc = .ok (acc ++ bytes, dyn') ∧
        ∀ (fuel limit : Nat) (hb : List KeyValue), bytes.length ≤ fuel →
          DecodeHeaderLoop fuel bytes dyn limit hb
            = .ok (hb ++ L, ⟨cutHeader dyn' limit, limit⟩) := by
  induction L with
  | nil => intro h; exact absurd rfl h
  | cons f rest ih =>
    intro _ dyn acc hne hlen hck htab
    obtain ⟨hk, hv⟩ := hne f (List.mem_cons_self f rest)
    obtain ⟨hlk, hlv⟩ := hlen f (List.mem_cons_self f rest)
    obtain ⟨hc1, hc2⟩ := hck f (List.mem_cons_self f rest)
    simp only [List.length_cons] at htab
    obtain ⟨b, dyn1, henc, hb1, hdyn1, hdecf⟩ :=
      field_roundtrip f dyn hk hv hlk hlv hc1 hc2 (by omega)
    cases rest with
    | nil =>
      refine ⟨b, dyn1, ?_, ?_⟩
      · exact EncodeHeaderLoop_single f dyn acc b dyn1 henc
      · intro fuel limit hb hfuel
        obtain ⟨fuel', rfl⟩ : ∃ k, fuel = k + 1 := ⟨fuel - 1, by omega⟩
        have := hdecf fuel' [] limit hb
        rw [List.append_nil] at this
        rw [this, DecodeHeaderLoop_nil]
    | cons g rest' =>
      obtain ⟨bytes', dyn', henc', hdec'⟩ := ih (by simp) dyn1 (acc ++ b)
        (fun x hx => hne x (List.mem_cons_of_mem f hx))
        (fun x hx => hlen x (List.mem_cons_of_mem f hx))
        (fun x hx => hck x (List.mem_cons_of_mem f hx))
        (by simp only [List.length_cons] at htab ⊢; omega)
      refine ⟨b ++ bytes', dyn', ?_, ?_⟩
      · rw [EncodeHeaderLoop_cons f g rest' dyn acc b dyn1 henc, henc', List.append_assoc]
      · intro fuel limit hb hfuel
        rw [List.length_append] at hfuel
        obtain ⟨fuel', rfl⟩ : ∃ k, fuel = k + 1 := ⟨fuel - 1, by omega⟩
        rw [hdecf fuel' bytes' limit hb, hdec' fuel' limit (hb ++ [f]) (by omega)]
        simp

/-- Claim C1, amended. Codec round trip: for every non-empty list `L` of header
fields whose names and values are non-empty strings (shorter than `2^60` octets)
and in which every name that the encoder takes for `cookie` or `set-cookie` is
written exactly so, and every state `S` with `61 + k + len(L) < 65536` for its
`k` table entries, whatever its limit: `EncodeHeader(L, S)` returns octets and a
state without error, and `DecodeHeader` on those octets from the same `S`
returns exactly `L` without error, with the state `EncodeHeader` returned. The
encoder takes a name for `cookie` when `strings.ToLower` of the name is
`cookie`; the library function is `lower` and the theorem holds whatever it
returns. -/
theorem codec_roundtrip (lower : List Byte → List Byte)
    (L : List KeyValue) (S : HpackConn) (hL : L ≠ [])
    (hne : ∀ f ∈ L, f.Key ≠ [] ∧ f.Value ≠ [])
    (hlen : ∀ f ∈ L, f.Key.length < 2 ^ 60 ∧ f.Value.length < 2 ^ 60)
    (hck : ∀ f ∈ L, (lower f.Key = str "cookie" → f.Key = str "cookie") ∧
      (lower f.Key = str "set-cookie" → f.Key = str "set-cookie"))
    (htab : 61 + S.DynamicTable.length + L.length < 65536) :
    ∃ bytes S', EncodeHeader lower L S = .ok (bytes, S') ∧
      DecodeHeader bytes S = .ok (L, S') := by
  obtain ⟨bytes, dyn', henc, hdec⟩ := loops_roundtrip L hL S.DynamicTable [] hne hlen hck htab
  refine ⟨bytes, ⟨cutHeader dyn' S.TableSizeLimit, S.TableSizeLimit⟩, ?_, ?_⟩
  · unfold EncodeHeader
    rw [henc]
    rfl
  · unfold DecodeHeader
    rw [hdec bytes.length S.TableSizeLimit [] (le_refl _)]
    rfl

theorem codec_roundtrip_witness :
    ∃ bytes S', EncodeHeader asciiToLower [kv ":method" "GET", kv "cookie" "a=b", kv "x-id" "7"]
        ⟨[kv "x-id" "6"], 40⟩ = .ok (bytes, S') ∧
      DecodeHeader bytes ⟨[kv "x-id" "6"], 40⟩
        = .ok ([kv ":method" "GET", kv "cookie" "a=b", kv "x-id" "7"], S') :=
  codec_roundtrip asciiToLower [kv ":method" "GET", kv "cookie" "a=b", kv "x-id" "7"]
    ⟨[kv "x-id" "6"], 40⟩ (by simp) (by decide) (by decide) (by decide) (by decide)

/-- Claim C1 as stated fails: with an empty table and limit 4096 (more than the 39
octets of the entry), the field `(Cookie, a)` is encoded as `0f 11 81 1f`, which
`DecodeHeader` reads back as `(cookie, a)`: the name comes back in lower case. -/
theorem codec_roundtrip_counterexample :
    EncodeHeader asciiToLower [kv "Cookie" "a"] ⟨[], 4096⟩
      = .ok ([0x0f, 0x11, 0x81, 0x1f], ⟨[], 4096⟩) ∧
    DecodeHeader [0x0f, 0x11, 0x81, 0x1f] ⟨[], 4096⟩ = .ok ([kv "cookie" "a"], ⟨[], 4096⟩) ∧
    [kv "cookie" "a"] ≠ [kv "Cookie" "a"] := by
  decide

/-! ## The fuel of `DecodeHeader` is enough -/

theorem Res.bind_ne_stuck {α β : Type} (r : Res α) (f : α → Res β) (hr : r ≠ .stuck)
    (hf : ∀ a, r = .ok a → f a ≠ .stuck) : r.bind f ≠ .stuck := by
  cases r with
  | ok a => simpa using hf a rfl
  | error m => simp
  | crash => simp
  | stuck => exact absurd rfl hr

theorem decodeIntLoop_ne_stuck (l : List Byte) :
    ∀ tmp m, decodeIntLoop l tmp m ≠ .stuck := by
  induction l with
  | nil => intro tmp m; simp [decodeIntLoop]
  | cons b l ih =>
    intro tmp m
    rw [decodeIntLoop_cons]
    split
    · simp
    · exact ih _ _

theorem decodeIntLoop_length (l : List Byte) :
    ∀ tmp m v rest, decodeIntLoop l tmp m = .ok (v, rest) → rest.length < l.length := by
  induction l with
  | nil => intro tmp m v rest h; simp [decodeIntLoop] at h
  | cons b l ih =>
    intro tmp m v rest h
    rw [decodeIntLoop_cons] at h
    split at h
    · simp only [Res.ok.injEq, Prod.mk.injEq] at h
      rw [← h.2]; simp
    · have := ih _ _ _ _ h
      simp only [List.length_cons]; omega

theorem decodeIntValue_ne_stuck (original : List Byte) (n : Nat) :
    decodeIntValue original n ≠ .stuck := by
  unfold decodeIntValue
  split
  · simp
  · cases original with
    | nil => simp
    | cons b0 rest =>
      simp only
      split
      · simp
      · exact decodeIntLoop_ne_stuck _ _ _

/-- `decodeIntValue` consumes at least one octet. -/
theorem decodeIntValue_length (original : List Byte) (n v : Nat) (rest : List Byte)
    (h : decodeIntValue original n = .ok (v, rest)) : rest.length < original.length := by
  unfold decodeIntValue at h
  split at h
  · simp at h
  · cases original with
    | nil => simp at h
    | cons b0 tl =>
      simp only at h
      split at h
      · simp only [Res.ok.injEq, Prod.mk.injEq] at h
        rw [← h.2]; simp
      · have := decodeIntLoop_length _ _ _ _ _ h
        simp only [List.length_cons]; omega

theorem decodeHuffmanStrings_ne_stuck (encoded : List Byte) :
    decodeHuffmanStrings encoded ≠ .stuck := by
  unfold decodeHuffmanStrings
  apply Res.bind_ne_stuck
  · exact decodeHuffmanLoop_enough _ _ _ _ _ (by omega) (by omega)
  · rintro ⟨sChar, strByte⟩ _
    simp only
    split_ifs <;> simp

theorem decodeStrings_ne_stuck (original : List Byte) : decodeStrings original ≠ .stuck := by
  unfold decodeStrings
  apply Res.bind_ne_stuck
  · have := decodeIntValue_ne_stuck original 7
    cases h : decodeIntValue original 7 <;> simp_all
  · rintro ⟨l, rb, err⟩ _
    cases original with
    | nil => simp
    | cons b0 tl =>
      simp only
      split
      · split
        · simp
        · exact Res.bind_ne_stuck _ _ (decodeHuffmanStrings_ne_stuck _) (by intro a _; simp)
      · cases err with
        | some m => simp
        | none => simp only; split <;> simp

/-- `decodeStrings` consumes at least one octet. -/
theorem decodeStrings_length (original s rest : List Byte)
    (h : decodeStrings original = .ok (s, rest)) : rest.length < original.length := by
  unfold decodeStrings at h
  cases hd : decodeIntValue original 7 with
  | ok a =>
    obtain ⟨l, rb⟩ := a
    have hlen := decodeIntValue_length original 7 l rb hd
    rw [hd] at h
    simp only [Res.bind_ok] at h
    cases original with
    | nil => simp at h
    | cons b0 tl =>
      simp only at h
      split at h
      · split at h
        · simp at h
        · obtain ⟨d, _, h2⟩ := (Res.bind_eq_ok _ _ _).1 h
          simp only [Res.ok.injEq, Prod.mk.injEq] at h2
          rw [← h2.2, List.length_drop]; omega
      · split at h
        · simp at h
        · simp only [Res.ok.injEq, Prod.mk.injEq] at h
          rw [← h.2, List.length_drop]; omega
  | error m =>
    rw [hd] at h
    simp only [Res.bind_ok] at h
    cases original with
    | nil => simp at h
    | cons b0 tl =>
      simp only at h
      split at h
      · obtain ⟨d, _, h2⟩ := (Res.bind_eq_ok _ _ _).1 (by simpa using h)
        simp only [Res.ok.injEq, Prod.mk.injEq] at h2
        rw [← h2.2]; simp
      · simp at h
  | crash => rw [hd] at h; simp at h
  | stuck => rw [hd] at h; simp at h

theorem decodeHeaderTable_ne_stuck (idx : Nat) (d : List KeyValue) :
    decodeHeaderTable idx d ≠ .stuck := by
  unfold decodeHeaderTable
  split
  · simp
  · split
    · split <;> simp
    · split <;> simp

/-- With fuel at least the number of octets left, the loop of `DecodeHeader` is
never stuck: every pass consumes at least one octet. -/
theorem DecodeHeaderLoop_ne_stuck (fuel : Nat) :
    ∀ (enc : List Byte) (dyn : List KeyValue) (limit : Nat) (hb : List KeyValue),
      enc.length ≤ fuel → DecodeHeaderLoop fuel enc dyn limit hb ≠ .stuck := by
  induction fuel with
  | zero =>
    intro enc dyn limit hb h
    have : enc = [] := List.length_eq_zero.1 (by omega)
    subst this
    rw [DecodeHeaderLoop_nil]; simp
  | succ k ih =>
    intro enc dyn limit hb h
    cases enc with
    | nil => rw [DecodeHeaderLoop_nil]; simp
    | cons b0 tl =>
      simp only [List.length_cons] at h
      have hint : ∀ n i eB, decodeIntValue (b0 :: tl) n = .ok (i, eB) → eB.length ≤ k := by
        intro n i eB hd
        have := decodeIntValue_length _ _ _ _ hd
        simp only [List.length_cons] at this; omega
      have hstr : ∀ (o s eB : List Byte), o.length ≤ k → decodeStrings o = .ok (s, eB) →
          eB.length ≤ k := by
        intro o s eB ho hd
        have := decodeStrings_length _ _ _ hd
        omega
      rw [DecodeHeaderLoop_succ]
      split
      · refine Res.bind_ne_stuck _ _ (decodeIntValue_ne_stuck _ _) ?_
        rintro ⟨i, eB⟩ hd
        refine Res.bind_ne_stuck _ _ (decodeHeaderTable_ne_stuck _ _) ?_
        intro kv _
        exact ih _ _ _ _ (hint _ _ _ hd)
      · split
        · split
          · refine Res.bind_ne_stuck _ _ (decodeStrings_ne_stuck _) ?_
            rintro ⟨key, eB⟩ hd
            refine Res.bind_ne_stuck _ _ (decodeStrings_ne_stuck _) ?_
            rintro ⟨value, eB'⟩ hd'
            exact ih _ _ _ _ (hstr _ _ _ (hstr _ _ _ (by omega) hd) hd')
          · refine Res.bind_ne_stuck _ _ (decodeIntValue_ne_stuck _ _) ?_
            rintro ⟨i, eB⟩ hd
            refine Res.bind_ne_stuck _ _ (decodeHeaderTable_ne_stuck _ _) ?_
            intro kv _
            refine Res.bind_ne_stuck _ _ (decodeStrings_ne_stuck _) ?_
            rintro ⟨value, eB'⟩ hd'
            exact ih _ _ _ _ (hstr _ _ _ (hint _ _ _ hd) hd')
        · split
          · split
            · refine Res.bind_ne_stuck _ _ (decodeStrings_ne_stuck _) ?_
              rintro ⟨key, eB⟩ hd
              refine Res.bind_ne_stuck _ _ (decodeStrings_ne_stuck _) ?_
              rintro ⟨value, eB'⟩ hd'
              exact ih _ _ _ _ (hstr _ _ _ (hstr _ _ _ (by omega) hd) hd')
            · refine Res.bind_ne_stuck _ _ (decodeIntValue_ne_stuck _ _) ?_
              rintro ⟨i, eB⟩ hd
              refine Res.bind_ne_stuck _ _ (decodeHeaderTable_ne_stuck _ _) ?_
              intro kv _
              refine Res.bind_ne_stuck _ _ (decodeStrings_ne_stuck _) ?_
              rintro ⟨value, eB'⟩ hd'
              exact ih _ _ _ _ (hstr _ _ _ (hint _ _ _ hd) hd')
          · split
            · refine Res.bind_ne_stuck _ _ (decodeIntValue_ne_stuck _ _) ?_
              rintro ⟨i, eB⟩ hd
              exact ih _ _ _ _ (hint _ _ _ hd)
            · simp

/-- `DecodeHeader` always ends: it returns, returns an error, or panics. -/
theorem DecodeHeader_ne_stuck (encoded : List Byte) (con : HpackConn) :
    DecodeHeader encoded con ≠ .stuck :=
  DecodeHeaderLoop_ne_stuck _ _ _ _ _ (le_refl _)

/-- The loop of `encodeIntValue` does not depend on its fuel once the fuel is at
least the value: the fuel `encodeIntValue` passes is enough. -/
theorem encodeIntLoop_fuel (f1 : Nat) :
    ∀ (f2 v : Nat), v ≤ f1 → v ≤ f2 → encodeIntLoop f1 v [] = encodeIntLoop f2 v [] := by
  induction f1 with
  | zero =>
    intro f2 v h1 _
    have hv : v = 0 := by omega
    subst hv
    cases f2 with
    | zero => rfl
    | succ k => rw [encodeIntLoop_zero, encodeIntLoop_succ, if_pos (by norm_num)]
  | succ k ih =>
    intro f2 v h1 h2
    rw [encodeIntLoop_succ]
    by_cases hv : v < 127
    · rw [if_pos hv]
      cases f2 with
      | zero => rw [encodeIntLoop_zero]
      | succ k2 => rw [encodeIntLoop_succ, if_pos hv]
    · rw [if_neg hv]
      cases f2 with
      | zero => omega
      | succ k2 =>
        rw [encodeIntLoop_succ, if_neg hv, ih k2 (v / 128) (by omega) (by omega)]

/-! ## The encoder: new names and the cookie policy -/

theorem encodeStrings_literal (original s : List Byte) :
    encodeStrings original s true = .ok (original ++ huffmanLiteral s) := by
  rw [encodeStrings_huf, huffmanLiteral, List.append_assoc]

theorem huffmanLiteral_head (s : List Byte) :
    ∃ h tl, huffmanLiteral s = h :: tl ∧ h.val &&& 128 = 128 := by
  obtain ⟨x, tl, hx, htl⟩ := intBytes_head (byte 128) (BinToByte (huffmanBits s)).length
    (by norm_num : 7 ≤ 8)
  refine ⟨_, tl ++ BinToByte (huffmanBits s), ?_, (opcode_bits_128 ⟨x, hx⟩).2⟩
  rw [huffmanLiteral, htl, List.cons_append]

theorem searchHeaderTable_of_no_name (d : List KeyValue) (f : KeyValue)
    (hd : ∀ v ∈ d, v.Key ≠ f.Key) (hs : ∀ v ∈ staticHeaderTable, v.Key ≠ f.Key) :
    searchHeaderTable d f = (true, false, 0) := by
  have nfull : ∀ (l : List KeyValue), (∀ v ∈ l, v.Key ≠ f.Key) →
      rangeFind (fun v => decide (v.Key = f.Key ∧ v.Value = f.Value)) l 0 = none := by
    intro l h
    apply rangeFind_none
    intro v hv
    simp only [decide_eq_true_eq, not_and]
    intro hk
    exact absurd hk (h v hv)
  have nname : ∀ (l : List KeyValue), (∀ v ∈ l, v.Key ≠ f.Key) →
      rangeFind (fun v => decide (v.Key = f.Key)) l 0 = none := by
    intro l h
    apply rangeFind_none
    intro v hv
    simp only [decide_eq_true_eq]
    exact h v hv
  simp only [searchHeaderTable, nfull d hd, nfull staticHeaderTable hs, nname d hd,
    nname staticHeaderTable hs]

/-- The shapes of what the encoder writes for one field: an index alone, or an
index (or `0x40`, or the cookie index octets) followed by Huffman literals. -/
theorem encodeField_shape {lower : List Byte → List Byte}
    (g : KeyValue) (dyn : List KeyValue) (b : List Byte)
    (d : List KeyValue) (h : encodeField lower g dyn = .ok (b, d)) :
    (∃ i, b = intBytes (byte 128) 7 i) ∨
    (∃ i, b = intBytes (byte 64) 6 i ++ huffmanLiteral g.Value) ∨
    (b = byte 64 :: (huffmanLiteral g.Key ++ huffmanLiteral g.Value)) ∨
    (b = [byte 15, byte 17] ++ huffmanLiteral g.Value) ∨
    (b = [byte 15, byte 40] ++ huffmanLiteral g.Value) := by
  by_cases hck : lower g.Key = str "cookie"
  · rw [encodeField_cookie g dyn hck] at h
    simp only [Res.ok.injEq, Prod.mk.injEq] at h
    right; right; right; left
    rw [← h.1, huffmanLiteral, List.append_assoc]
  by_cases hsck : lower g.Key = str "set-cookie"
  · rw [encodeField_set_cookie g dyn hsck] at h
    simp only [Res.ok.injEq, Prod.mk.injEq] at h
    right; right; right; right
    rw [← h.1, huffmanLiteral, List.append_assoc]
  rcases hsr : searchHeaderTable dyn g with ⟨nh, ko, i⟩
  cases nh
  · cases ko
    · rw [encodeField_of_full g dyn i hck hsck hsr] at h
      simp only [Res.ok.injEq, Prod.mk.injEq] at h
      left
      exact ⟨i, h.1.symm⟩
    · rw [encodeField_of_name g dyn i hck hsck hsr] at h
      simp only [Res.ok.injEq, Prod.mk.injEq] at h
      right; left
      refine ⟨i, ?_⟩
      rw [← h.1, huffmanLiteral, List.append_assoc]
  · rw [encodeField_of_none g dyn ko i hck hsck hsr] at h
    simp only [Res.ok.injEq, Prod.mk.injEq] at h
    right; right; left
    rw [← h.1, huffmanLiteral, huffmanLiteral]
    simp only [List.singleton_append, List.cons_append, List.append_assoc, List.nil_append]

/-- Encoder, no match, through the string writer of the code: for a field `f` whose
name `lower` sends neither to `cookie` nor to `set-cookie` and which occurs in
neither table, `EncodeHeader([f], S)` returns the octet `0x40` followed by the
Huffman-coded string literal of the name and then of the value, each as
`encodeStrings` writes it with `huf = true`; the returned table is `f` pushed at
the front of the table of `S`, then evicted to the unchanged limit. Every string
literal the encoder writes, for any field and any table, is such a Huffman
literal, and its first octet has the `H` bit set. -/
theorem encode_no_match (lower : List Byte → List Byte) (S : HpackConn) (f : KeyValue)
    (hc : lower f.Key ≠ str "cookie") (hs : lower f.Key ≠ str "set-cookie")
    (hdyn : ∀ v ∈ S.DynamicTable, v.Key ≠ f.Key)
    (hst : ∀ v ∈ staticHeaderTable, v.Key ≠ f.Key) :
    EncodeHeader lower [f] S =
      .ok (byte 64 :: (huffmanLiteral f.Key ++ huffmanLiteral f.Value),
        ⟨cutHeader (f :: S.DynamicTable) S.TableSizeLimit, S.TableSizeLimit⟩) ∧
    encodeStrings [] f.Key true = .ok (huffmanLiteral f.Key) ∧
    encodeStrings [] f.Value true = .ok (huffmanLiteral f.Value) ∧
    (∀ s : List Byte, ∃ h tl, huffmanLiteral s = h :: tl ∧ h.val &&& 128 = 128) ∧
    (∀ (g : KeyValue) (dyn : List KeyValue) (b : List Byte) (d : List KeyValue),
      encodeField lower g dyn = .ok (b, d) →
        (∃ i, b = intBytes (byte 128) 7 i) ∨
        (∃ i, b = intBytes (byte 64) 6 i ++ huffmanLiteral g.Value) ∨
        (b = byte 64 :: (huffmanLiteral g.Key ++ huffmanLiteral g.Value)) ∨
        (b = [byte 15, byte 17] ++ huffmanLiteral g.Value) ∨
        (b = [byte 15, byte 40] ++ huffmanLiteral g.Value)) := by
  refine ⟨?_, ?_, ?_, huffmanLiteral_head, encodeField_shape⟩
  · have hsr := searchHeaderTable_of_no_name S.DynamicTable f hdyn hst
    have henc := encodeField_of_none f S.DynamicTable false 0 hc hs hsr
    have := EncodeHeader_single f S _ _ henc
    rw [this, huffmanLiteral, huffmanLiteral]
    simp only [List.singleton_append, List.cons_append, List.append_assoc, List.nil_append]
  · simpa using encodeStrings_literal [] f.Key
  · simpa using encodeStrings_literal [] f.Value

theorem encode_no_match_witness :
    EncodeHeader asciiToLower [kv "custom-key" "custom-header"] ⟨[kv "x" "y"], 4096⟩ =
      .ok (byte 64 :: (huffmanLiteral (str "custom-key") ++ huffmanLiteral (str "custom-header")),
        ⟨cutHeader (kv "custom-key" "custom-header" :: [kv "x" "y"]) (4096 : Nat), 4096⟩) :=
  (encode_no_match asciiToLower ⟨[kv "x" "y"], 4096⟩ (kv "custom-key" "custom-header") (by decide)
    (by decide) (by decide) (by decide)).1

/-- Cookie policy, through the string writer of the code: for every state `S` and
every field whose name `lower` sends to `cookie` (resp. `set-cookie`),
`EncodeHeader([f], S)` writes a first octet whose leading four bits are `0000`,
a 4-bit-prefix index that decodes to 32 (resp. 55), the static entries named
`cookie` and `set-cookie`, and then the literal of the value as `encodeStrings`
writes it with `huf = true`; nothing is inserted: the returned table is the
table of `S` evicted to its limit. -/
theorem encode_cookie_policy (lower : List Byte → List Byte) (S : HpackConn) (f : KeyValue) :
    (lower f.Key = str "cookie" →
      ∃ o1 o2 : Byte,
        EncodeHeader lower [f] S = .ok (o1 :: o2 :: huffmanLiteral f.Value,
          ⟨cutHeader S.DynamicTable S.TableSizeLimit, S.TableSizeLimit⟩) ∧
        o1.val &&& 240 = 0 ∧
        decodeIntValue (o1 :: o2 :: huffmanLiteral f.Value) 4
          = .ok (32, huffmanLiteral f.Value) ∧
        (staticHeaderTable[32 - 1]?).map KeyValue.Key = some (str "cookie")) ∧
    (lower f.Key = str "set-cookie" →
      ∃ o1 o2 : Byte,
        EncodeHeader lower [f] S = .ok (o1 :: o2 :: huffmanLiteral f.Value,
          ⟨cutHeader S.DynamicTable S.TableSizeLimit, S.TableSizeLimit⟩) ∧
        o1.val &&& 240 = 0 ∧
        decodeIntValue (o1 :: o2 :: huffmanLiteral f.Value) 4
          = .ok (55, huffmanLiteral f.Value) ∧
        (staticHeaderTable[55 - 1]?).map KeyValue.Key = some (str "set-cookie")) := by
  constructor
  · intro h
    refine ⟨byte 15, byte 17, ?_, by decide, decodeIntValue_cookie _, by decide⟩
    rw [EncodeHeader_single f S _ _ (encodeField_cookie f S.DynamicTable h), huffmanLiteral]
    simp only [List.cons_append, List.nil_append, List.append_assoc]
  · intro h
    refine ⟨byte 15, byte 40, ?_, by decide, decodeIntValue_set_cookie _, by decide⟩
    rw [EncodeHeader_single f S _ _ (encodeField_set_cookie f S.DynamicTable h), huffmanLiteral]
    simp only [List.cons_append, List.nil_append, List.append_assoc]

theorem encode_cookie_policy_witness :
    asciiToLower (str "Cookie") = str "cookie" ∧
    ∃ o1 o2 : Byte,
      EncodeHeader asciiToLower [kv "Cookie" "a=b"] ⟨[kv "x" "y"], 4096⟩
        = .ok (o1 :: o2 :: huffmanLiteral (str "a=b"),
          ⟨cutHeader [kv "x" "y"] (4096 : Nat), 4096⟩) ∧
      o1.val &&& 240 = 0 ∧
      decodeIntValue (o1 :: o2 :: huffmanLiteral (str "a=b")) 4
        = .ok (32, huffmanLiteral (str "a=b")) ∧
      (staticHeaderTable[32 - 1]?).map KeyValue.Key = some (str "cookie") :=
  ⟨by decide,
    (encode_cookie_policy asciiToLower ⟨[kv "x" "y"], 4096⟩ (kv "Cookie" "a=b")).1 (by decide)⟩

/-! ## Prefix integers against the reference algorithm -/

theorem and_128_zero_iff : ∀ b : Byte, b.val &&& 128 = 0 ↔ b.val < 128 := by
  decide!

theorem contValue_cons (b : Byte) (bs : List Byte) :
    contValue (b :: bs) = b.val % 128 + 128 * contValue bs := rfl

/-- Continuation octets that write zero leave the accumulator alone, whatever
the shift has grown to. -/
theorem decodeIntLoop_zeros (conts : List Byte) :
    ∀ (last : Byte) (tail : List Byte) (tmp m : Nat), (∀ c ∈ conts, 128 ≤ c.val) →
      last.val < 128 → contValue (conts ++ [last]) = 0 → tmp < 2 ^ 64 →
      decodeIntLoop (conts ++ last :: tail) tmp m = .ok (tmp, tail) := by
  induction conts with
  | nil =>
    intro last tail tmp m _ hl h0 ht
    simp only [List.nil_append] at h0
    rw [contValue_cons] at h0
    have hz : last.val % 128 = 0 := by omega
    rw [List.nil_append, decodeIntLoop_cons, if_pos ((and_128_zero_iff last).2 hl), hz,
      Nat.zero_mul, Nat.zero_mod, Nat.add_zero, Nat.mod_eq_of_lt ht]
  | cons c conts ih =>
    intro last tail tmp m hc hl h0 ht
    simp only [List.cons_append] at h0
    rw [contValue_cons] at h0
    have hz : c.val % 128 = 0 := by omega
    have hR : contValue (conts ++ [last]) = 0 := by omega
    have hc128 : ¬ c.val &&& 128 = 0 := by
      rw [and_128_zero_iff]
      have := hc c (List.mem_cons_self _ _)
      omega
    rw [List.cons_append, decodeIntLoop_cons, if_neg hc128, hz,
      Nat.zero_mul, Nat.zero_mod, Nat.add_zero, Nat.mod_eq_of_lt ht]
    exact ih last tail tmp _ (fun x hx => hc x (List.mem_cons_of_mem _ hx)) hl hR ht

/-- The continuation loop of `decodeIntValue` on octets with the high bit set
followed by one with the high bit clear: it adds their value, shifted by `m`, as
long as the sum fits in 64 bits. -/
theorem decodeIntLoop_contValue (conts : List Byte) :
    ∀ (last : Byte) (tail : List Byte) (tmp m : Nat), (∀ c ∈ conts, 128 ≤ c.val) →
      last.val < 128 → tmp + contValue (conts ++ [last]) * 2 ^ m < 2 ^ 64 →
      decodeIntLoop (conts ++ last :: tail) tmp m
        = .ok (tmp + contValue (conts ++ [last]) * 2 ^ m, tail) := by
  induction conts with
  | nil =>
    intro last tail tmp m _ hl hfit
    have hv : contValue [last] = last.val % 128 := by
      rw [contValue_cons]; rfl
    simp only [List.nil_append] at hfit ⊢
    rw [hv] at hfit ⊢
    rw [decodeIntLoop_cons, if_pos ((and_128_zero_iff last).2 hl),
      Nat.mod_eq_of_lt (by omega : last.val % 128 * 2 ^ m < 2 ^ 64), Nat.mod_eq_of_lt hfit]
  | cons c conts ih =>
    intro last tail tmp m hc hl hfit
    have hc128 : ¬ c.val &&& 128 = 0 := by
      rw [and_128_zero_iff]
      have := hc c (List.mem_cons_self _ _)
      omega
    have hc' : ∀ x ∈ conts, 128 ≤ x.val := fun x hx => hc x (List.mem_cons_of_mem _ hx)
    simp only [List.cons_append] at hfit ⊢
    rw [contValue_cons] at hfit ⊢
    have hsplit : (c.val % 128 + 128 * contValue (conts ++ [last])) * 2 ^ m
        = c.val % 128 * 2 ^ m + contValue (conts ++ [last]) * (2 ^ m * 128) := by ring
    rw [hsplit] at hfit ⊢
    rw [decodeIntLoop_cons, if_neg hc128,
      Nat.mod_eq_of_lt (by omega : c.val % 128 * 2 ^ m < 2 ^ 64),
      Nat.mod_eq_of_lt (by omega : tmp + c.val % 128 * 2 ^ m < 2 ^ 64)]
    by_cases hR : contValue (conts ++ [last]) = 0
    · rw [hR, Nat.zero_mul, Nat.add_zero]
      exact decodeIntLoop_zeros conts last tail _ _ hc' hl hR (by omega)
    · have hge : 2 ^ m * 128 ≤ contValue (conts ++ [last]) * (2 ^ m * 128) :=
        Nat.le_mul_of_pos_left _ (Nat.pos_of_ne_zero hR)
      have hpw : (2 : Nat) ^ (m + 7) = 2 ^ m * 128 := by rw [pow_add]; norm_num
      have hpow : 2 ^ (m + 7) < 2 ^ 64 := by
        rw [hpw]
        omega
      have hm : m + 7 < 64 := (Nat.pow_lt_pow_iff_right (by norm_num)).1 hpow
      have hmod : (m + 7) % 2 ^ 64 = m + 7 := Nat.mod_eq_of_lt (by omega)
      rw [hmod, ih last tail _ (m + 7) hc' hl (by rw [hpw]; omega), hpw, Nat.add_assoc]

/-- A prefix whose low `n` bits are not all ones is the value. -/
theorem decodeIntValue_small {n : Nat} (hn : n ≤ 8) (b0 : Byte) (rest : List Byte)
    (h : b0.val % 2 ^ n < 2 ^ n - 1) :
    decodeIntValue (b0 :: rest) n = .ok (b0.val % 2 ^ n, rest) := by
  unfold decodeIntValue
  rw [if_neg (by omega), mask64_eq hn, mask8_eq hn]
  simp only [Nat.and_pow_two_sub_one_eq_mod, h, if_true]

/-- A prefix whose low `n` bits are all ones is completed by the continuation
octets, with no bound on the value other than the 64 bits of the accumulator. -/
theorem decodeIntValue_cont {n : Nat} (hn : n ≤ 8) (b0 : Byte) (conts : List Byte)
    (last : Byte) (tail : List Byte) (hb : b0.val % 2 ^ n = 2 ^ n - 1)
    (hc : ∀ c ∈ conts, 128 ≤ c.val) (hl : last.val < 128)
    (hfit : 2 ^ n - 1 + contValue (conts ++ [last]) < 2 ^ 64) :
    decodeIntValue (b0 :: (conts ++ last :: tail)) n
      = .ok (2 ^ n - 1 + contValue (conts ++ [last]), tail) := by
  unfold decodeIntValue
  rw [if_neg (by omega), mask64_eq hn, mask8_eq hn]
  simp only [Nat.and_pow_two_sub_one_eq_mod, hb, lt_self_iff_false, if_false]
  have := decodeIntLoop_contValue conts last tail (2 ^ n - 1) 0 hc hl (by simpa using hfit)
  simpa using this

/-- Where no intermediate value of the loop is 127, the loop of `encodeIntValue`
writes the reference continuation octets. -/
theorem encodeIntLoop_eq_reference (fuel : Nat) :
    ∀ v, v ≤ fuel → (∀ k, v / 128 ^ k ≠ 127) →
      encodeIntLoop fuel v [] = referenceContinuation fuel v := by
  induction fuel with
  | zero =>
    intro v _ _
    rw [encodeIntLoop_zero, referenceContinuation, and_127]
  | succ n ih =>
    intro v hv hk
    have h127 : v ≠ 127 := by simpa using hk 0
    rw [encodeIntLoop_succ, referenceContinuation]
    by_cases hlt : v < 127
    · rw [if_pos hlt, if_neg (by omega), and_127]
    · rw [if_neg hlt, if_pos (by omega), and_127, Nat.shiftRight_eq_div_pow]
      have hdiv : v / 2 ^ 7 = v / 128 := by norm_num
      rw [hdiv, ih (v / 128) (by omega)]
      intro k
      have := hk (k + 1)
      rwa [pow_succ, Nat.mul_comm, ← Nat.div_div_eq_div_mul] at this

/-- Where no intermediate value of its loop is 127, `encodeIntValue` writes the
reference encoding over the last octet `p` of the buffer. -/
theorem encodeIntValue_eq_reference (pre : List Byte) (p : Byte) {n : Nat} (v : Nat)
    (hn : n ≤ 8) (h : ∀ k, (v - (2 ^ n - 1)) / 128 ^ k ≠ 127) :
    encodeIntValue (pre ++ [p]) n v = .ok (pre ++ referenceInt p n v) := by
  have hpow : 2 ^ n ≤ 2 ^ 8 := Nat.pow_le_pow_right (by norm_num) hn
  rw [encodeIntValue_eq pre p v hn]
  unfold intBytes referenceInt
  by_cases hv : v < 2 ^ n - 1
  · rw [if_pos hv, if_pos hv, Nat.mod_eq_of_lt (by omega : v < 256)]
  · rw [if_neg hv, if_neg hv, encodeIntLoop_eq_reference _ _ (Nat.le_refl _) h]

/-- Claim C13 at its failing input: for `N = 7` and `v = 254` the remainder is
`r = 127`, and `encodeIntValue([0], 7, 254)` writes `7f ff 00`, because its loop
leaves on `v < 127`; the reference algorithm writes `7f 7f`. Both decode to 254. -/
theorem encodeIntValue_remainder_127 :
    encodeIntValue [byte 0] 7 254 = .ok [byte 0x7f, byte 0xff, byte 0x00] ∧
    referenceInt (byte 0) 7 254 = [byte 0x7f, byte 0x7f] ∧
    decodeIntValue [byte 0x7f, byte 0xff, byte 0x00] 7 = .ok (254, []) ∧
    decodeIntValue [byte 0x7f, byte 0x7f] 7 = .ok (254, []) := by
  refine ⟨by decide, by decide, by decide, by decide⟩

/-- Claim C14. Integer decoding equals the reference algorithm: for `N ≤ 8` and
an input `b0 :: rest`, when the low `N` bits `I` of `b0` are below `2^N - 1`,
`decodeIntValue` returns `I` and `rest`, whatever the high bits of `b0`;
otherwise, when `rest` is octets with the high bit set, then `last` with the
high bit clear, then `tail`, and the value fits in 64 bits, it returns
`2^N - 1` plus the sum of `(b[i] & 0x7F) * 2^(7(i-1))` over these octets, and
`tail`. -/
theorem decodeIntValue_reference (N : Nat) (hN : N ≤ 8) (b0 : Byte) (rest : List Byte) :
    (b0.val % 2 ^ N < 2 ^ N - 1 →
      decodeIntValue (b0 :: rest) N = .ok (b0.val % 2 ^ N, rest)) ∧
    (b0.val % 2 ^ N = 2 ^ N - 1 →
      ∀ (conts : List Byte) (last : Byte) (tail : List Byte),
        rest = conts ++ last :: tail → (∀ c ∈ conts, 128 ≤ c.val) → last.val < 128 →
        2 ^ N - 1 + contValue (conts ++ [last]) < 2 ^ 64 →
        decodeIntValue (b0 :: rest) N
          = .ok (2 ^ N - 1 + contValue (conts ++ [last]), tail)) := by
  constructor
  · exact decodeIntValue_small hN b0 rest
  · intro hb conts last tail hrest hc hl hfit
    rw [hrest]
    exact decodeIntValue_cont hN b0 conts last tail hb hc hl hfit

theorem decodeIntValue_reference_witness :
    decodeIntValue [byte 0x1f, byte 0x9a, byte 0x0a, byte 0x01] 5 = .ok (1337, [byte 0x01]) :=
  (decodeIntValue_reference 5 (by decide) (byte 0x1f) [byte 0x9a, byte 0x0a, byte 0x01]).2
    (by decide) [byte 0x9a] (byte 0x0a) [byte 0x01] rfl
    (by intro c hc; rw [List.mem_singleton.1 hc]; decide) (by decide) (by decide)

/-! ## Padding of the empty string, malformed blocks, large integers -/

/-- Octet count of the packed bits of a non-empty sequence: `ceil(len / 8)`. -/
theorem BinToByte_length (bits : List Bin) (hne : bits ≠ []) :
    (BinToByte bits).length = (bits.length + 7) / 8 := by
  have h := congrArg List.length (ByteToBin_BinToByte bits hne)
  rw [ByteToBin_length, List.length_append, List.length_replicate] at h
  omega

/-- Claim C15 at its failing input: for the empty string there are no bits, and
`BinToByte` returns one octet, `0x7f`, not zero octets; its bit sequence is a
zero bit followed by seven one-bits. -/
theorem BinToByte_empty_string_padding :
    huffmanBits [] = [] ∧
    BinToByte (huffmanBits []) = [byte 0x7f] ∧
    (BinToByte (huffmanBits [])).length = 1 ∧
    ByteToBin (BinToByte (huffmanBits [])) = Zero :: List.replicate 7 One := by
  refine ⟨rfl, by decide, by decide, by decide⟩

/-- Claim C18 at its failing inputs: on a block that ends inside a prefix
integer (`ff`), on a literal whose length octet is missing (`40`) and on a string
literal that declares five octets where one remains (`40 05 61`), `DecodeHeader`
fails at run time with an out-of-range access; it returns no error value. -/
theorem DecodeHeader_truncated_panics (con : HpackConn) :
    DecodeHeader [byte 0xff] con = .crash ∧
    DecodeHeader [byte 0x40] con = .crash ∧
    DecodeHeader [byte 0x40, byte 0x05, byte 0x61] con = .crash := by
  refine ⟨rfl, rfl, rfl⟩

/-- Claim C19 at its failing input: the index 65538, written `ff 83 ff 03` with a
7-bit prefix and `7f c3 ff 03` with a 6-bit prefix, is above `61 + 0`, and
`DecodeHeader` returns no error: the index is cut to 16 bits and resolves as
index 2, the static entry `:method: GET`. -/
theorem DecodeHeader_index_65538 :
    decodeIntValue [byte 0xff, byte 0x83, byte 0xff, byte 0x03] 7 = .ok (65538, []) ∧
    DecodeHeader [byte 0xff, byte 0x83, byte 0xff, byte 0x03] ⟨[], 4096⟩
      = .ok ([kv ":method" "GET"], ⟨[], 4096⟩) ∧
    DecodeHeader [byte 0x7f, byte 0xc3, byte 0xff, byte 0x03, byte 0x01, byte 0x61] ⟨[], 4096⟩
      = .ok ([kv ":method" "a"], ⟨[kv ":method" "a"], 4096⟩) := by
  refine ⟨by decide, by decide, by decide⟩

/-- `DecodeHeader` on a block that is one Dynamic Table Size Update whose 5-bit
prefix is completed by continuation octets. -/
theorem DecodeHeader_size_update (S : HpackConn) (conts : List Byte) (last : Byte)
    (hc : ∀ c ∈ conts, 128 ≤ c.val) (hl : last.val < 128)
    (hfit : 2 ^ 5 - 1 + contValue (conts ++ [last]) < 2 ^ 64) :
    DecodeHeader (byte 0x3f :: (conts ++ [last])) S =
      .ok ([], ⟨cutHeader S.DynamicTable
          (((2 ^ 5 - 1 + contValue (conts ++ [last])) % 2 ^ 32 : Nat)),
        (2 ^ 5 - 1 + contValue (conts ++ [last])) % 2 ^ 32⟩) := by
  have hdec := decodeIntValue_cont (by norm_num : 5 ≤ 8) (byte 0x3f) conts last [] (by decide)
    hc hl hfit
  unfold DecodeHeader
  rw [List.length_cons, DecodeHeaderLoop_succ, if_neg (by decide), if_neg (by decide),
    if_neg (by decide), if_pos (by decide), hdec]
  simp only [Res.bind_ok, DecodeHeaderLoop_nil]

/-- Claim C20, counterexample: the well-terminated integer `7f ff ff ff ff 0f`
(7-bit prefix) has the value `2^32 + 126`, above `2^32 - 1`, and `decodeIntValue`
returns it without error; `DecodeHeader` on the size update `3f ff ff ff ff 0f`,
of value `2^32 + 30`, returns no error and sets the limit to 30. -/
theorem int_overflow_counterexample :
    decodeIntValue [byte 0x7f, byte 0xff, byte 0xff, byte 0xff, byte 0xff, byte 0x0f] 7
      = .ok (2 ^ 32 + 126, []) ∧
    DecodeHeader [byte 0x3f, byte 0xff, byte 0xff, byte 0xff, byte 0xff, byte 0x0f] ⟨[], 4096⟩
      = .ok ([], ⟨[], 30⟩) := by
  refine ⟨by decide, by decide⟩

/-- Claim C20, amended. Integer overflow is not detected: for `N ≤ 8` and a
well-terminated prefix integer whose value exceeds `2^32 - 1` and is below
`2^64`, `decodeIntValue` returns that value and the remaining octets without
error; `DecodeHeader` on a block that is one Dynamic Table Size Update carrying
such a value returns no error and sets `TableSizeLimit` to the value modulo
`2^32`. -/
theorem int_overflow_accepted :
    (∀ (N : Nat) (b0 : Byte) (conts : List Byte) (last : Byte) (tail : List Byte),
      N ≤ 8 → b0.val % 2 ^ N = 2 ^ N - 1 → (∀ c ∈ conts, 128 ≤ c.val) → last.val < 128 →
      2 ^ 32 - 1 < 2 ^ N - 1 + contValue (conts ++ [last]) →
      2 ^ N - 1 + contValue (conts ++ [last]) < 2 ^ 64 →
      decodeIntValue (b0 :: (conts ++ last :: tail)) N
        = .ok (2 ^ N - 1 + contValue (conts ++ [last]), tail)) ∧
    (∀ (S : HpackConn) (conts : List Byte) (last : Byte),
      (∀ c ∈ conts, 128 ≤ c.val) → last.val < 128 →
      2 ^ 32 - 1 < 2 ^ 5 - 1 + contValue (conts ++ [last]) →
      2 ^ 5 - 1 + contValue (conts ++ [last]) < 2 ^ 64 →
      DecodeHeader (byte 0x3f :: (conts ++ [last])) S =
        .ok ([], ⟨cutHeader S.DynamicTable
            (((2 ^ 5 - 1 + contValue (conts ++ [last])) % 2 ^ 32 : Nat)),
          (2 ^ 5 - 1 + contValue (conts ++ [last])) % 2 ^ 32⟩)) := by
  constructor
  · intro N b0 conts last tail hN hb hc hl _ hfit
    exact decodeIntValue_cont hN b0 conts last tail hb hc hl hfit
  · intro S conts last hc hl _ hfit
    exact DecodeHeader_size_update S conts last hc hl hfit

theorem int_overflow_accepted_witness :
    decodeIntValue
        (byte 0x7f :: ([byte 0xff, byte 0xff, byte 0xff, byte 0xff] ++ byte 0x0f :: [byte 0x82]))
        7
      = .ok (2 ^ 7 - 1 + contValue ([byte 0xff, byte 0xff, byte 0xff, byte 0xff] ++ [byte 0x0f]),
          [byte 0x82]) ∧
    2 ^ 32 - 1 < 2 ^ 7 - 1 + contValue ([byte 0xff, byte 0xff, byte 0xff, byte 0xff] ++ [byte 0x0f]) :=
  ⟨int_overflow_accepted.1 7 (byte 0x7f) [byte 0xff, byte 0xff, byte 0xff, byte 0xff]
      (byte 0x0f) [byte 0x82] (by decide) (by decide)
      (by intro c hc; simp only [List.mem_cons, List.mem_singleton, List.not_mem_nil, or_false,
            or_self] at hc; rw [hc]; decide)
      (by decide) (by decide) (by decide),
    by decide⟩

/-! ## The Huffman decoder: soundness, and the EOS code -/

theorem natOfBits_cons (b : Bin) (bs : List Bin) :
    natOfBits (b :: bs) = (if b then 1 else 0) * 2 ^ bs.length + natOfBits bs := by
  have h := natOfBits_append [b] bs
  rw [List.singleton_append] at h
  rw [h]
  cases b <;> simp [natOfBits]

/-- Bit sequences of one length that write the same number are equal. -/
theorem natOfBits_inj (xs : List Bin) :
    ∀ ys : List Bin, xs.length = ys.length → natOfBits xs = natOfBits ys → xs = ys := by
  induction xs with
  | nil =>
    intro ys hl _
    exact (List.length_eq_zero.1 hl.symm).symm
  | cons a xs ih =>
    intro ys hl hv
    cases ys with
    | nil => simp at hl
    | cons b ys =>
      have hl' : xs.length = ys.length := by simpa using hl
      rw [natOfBits_cons, natOfBits_cons, hl'] at hv
      have hx := natOfBits_lt xs
      have hy := natOfBits_lt ys
      rw [hl'] at hx
      have hab : a = b ∧ natOfBits xs = natOfBits ys := by
        cases a <;> cases b <;> simp at hv ⊢ <;> omega
      rw [hab.1, ih ys hl' hab.2]

theorem huffmanBits_append (s t : List Byte) :
    huffmanBits (s ++ t) = huffmanBits s ++ huffmanBits t := by
  have := huffmanBits_foldl t (huffmanBits s)
  unfold huffmanBits at this ⊢
  rw [List.foldl_append]
  exact this

theorem huffmanBits_concat (s : List Byte) (x : Byte) :
    huffmanBits (s ++ [x]) = huffmanBits s ++ huffmanCode x := by
  rw [huffmanBits_append, huffmanBits_cons, huffmanBits_nil, List.append_nil]

/-- A hit of the decoder's test on a bit sequence means the sequence is the
code of the octet written. -/
theorem huffmanLookup_sound (bits : List Bin) (x : Byte)
    (h : huffmanLookup (BinToUint32 bits) bits.length = some x) : bits = huffmanCode x := by
  unfold huffmanLookup at h
  cases hlk : huffmanDecodeTable.lookup (BinToUint32 bits) with
  | none => rw [hlk] at h; simp at h
  | some v =>
    rw [hlk] at h
    simp only at h
    split_ifs at h with hlen
    have hx : v.b = x := by simpa using h
    obtain ⟨hk, hcl⟩ := entry_eq _ _ (lookup_mem _ _ _ hlk)
    have h30 := (code_length v.b).2
    rw [BinToUint32_eq bits (by omega), BinToUint32_eq _ (by omega)] at hk
    rw [← hx]
    exact natOfBits_inj bits _ (by omega) hk

theorem slice_length {α : Type} (B : List α) (s cur : Nat) (hs : s ≤ cur) (hc : cur ≤ B.length) :
    (slice B s cur).length = cur - s := by
  unfold slice
  rw [List.length_take, List.length_drop]
  omega

theorem take_slice {α : Type} (B : List α) (s cur : Nat) (hs : s ≤ cur) :
    B.take cur = B.take s ++ slice B s cur := by
  unfold slice
  have : cur = s + (cur - s) := by omega
  conv_lhs => rw [this]
  rw [List.take_add]

/-- Invariant of the decoder loop: the bits before `sChar` are the codes of the
octets written so far. -/
theorem decodeHuffmanLoop_sound (B : List Bin) (fuel : Nat) :
    ∀ (cur s : Nat) (acc : List Byte) (s1 : Nat) (acc1 : List Byte), s ≤ cur →
      s ≤ B.length → B.take s = huffmanBits acc →
      decodeHuffmanLoop B fuel cur s acc = .ok (s1, acc1) →
      s1 ≤ B.length ∧ B.take s1 = huffmanBits acc1 := by
  induction fuel with
  | zero =>
    intro cur s acc s1 acc1 _ _ _ h
    rw [decodeHuffmanLoop] at h
    simp at h
  | succ n ih =>
    intro cur s acc s1 acc1 hsc hsB hinv h
    rw [decodeHuffmanLoop_succ] at h
    by_cases hcur : cur < B.length + 1
    · rw [if_pos hcur] at h
      cases hlk : huffmanLookup (BinToUint32 (slice B s cur)) (cur - s) with
      | some x =>
        rw [hlk] at h
        simp only at h
        have hsl := slice_length B s cur hsc (by omega)
        rw [← hsl] at hlk
        have hcode := huffmanLookup_sound _ _ hlk
        refine ih (cur + 1) cur (acc ++ [x]) s1 acc1 (by omega) (by omega) ?_ h
        rw [take_slice B s cur hsc, hinv, hcode, huffmanBits_concat]
      | none =>
        rw [hlk] at h
        simp only at h
        by_cases h30 : cur - s > 30
        · rw [if_pos h30] at h
          simp at h
        · rw [if_neg h30] at h
          exact ih (cur + 1) s acc s1 acc1 (by omega) hsB hinv h
    · rw [if_neg hcur] at h
      simp only [Res.ok.injEq, Prod.mk.injEq] at h
      rw [← h.1, ← h.2]
      exact ⟨hsB, hinv⟩

theorem slice_to_end {α : Type} (B : List α) (s : Nat) : slice B s B.length = B.drop s := by
  unfold slice
  rw [List.take_of_length_le]
  rw [List.length_drop]

/-- Claim C16. Huffman decoder soundness: if `decodeHuffmanStrings(e)` returns
`s` without error, the bit sequence of `e` is the concatenation of the codes of
the octets of `s` followed by a leftover run of at most 7 bits, all ones; and
whenever the bits left after the last code the loop decoded are more than 7 or
contain a zero bit, `decodeHuffmanStrings(e)` is an error. -/
theorem decodeHuffmanStrings_sound (e : List Byte) :
    (∀ s : List Byte, decodeHuffmanStrings e = .ok s →
      ∃ pad : List Bin, ByteToBin e = huffmanBits s ++ pad ∧ pad.length ≤ 7 ∧
        ∀ b ∈ pad, b = One) ∧
    (∀ (sChar : Nat) (strByte : List Byte),
      decodeHuffmanLoop (ByteToBin e) ((ByteToBin e).length + 1) 4 0 [] = .ok (sChar, strByte) →
      (7 < ((ByteToBin e).drop sChar).length ∨ Zero ∈ (ByteToBin e).drop sChar) →
      ∃ msg, decodeHuffmanStrings e = .error msg) := by
  constructor
  · intro s h
    unfold decodeHuffmanStrings at h
    cases hl : decodeHuffmanLoop (ByteToBin e) ((ByteToBin e).length + 1) 4 0 [] with
    | error m => simp [hl] at h
    | crash => simp [hl] at h
    | stuck => simp [hl] at h
    | ok r =>
      obtain ⟨s1, acc1⟩ := r
      simp only [hl, Res.bind_ok] at h
      split_ifs at h with h7 hz
      have hs : acc1 = s := by simpa using h
      obtain ⟨hle, htake⟩ := decodeHuffmanLoop_sound (ByteToBin e) _ 4 0 [] s1 acc1 (by omega)
        (by omega) (by simp [huffmanBits_nil]) hl
      rw [slice_to_end] at hz
      refine ⟨(ByteToBin e).drop s1, ?_, by omega, ?_⟩
      · rw [← hs, ← htake, List.take_append_drop]
      · intro b hb
        by_contra hne
        apply hz
        rw [List.any_eq_true]
        refine ⟨b, hb, ?_⟩
        cases b
        · simp
        · exact absurd rfl hne
  · intro sChar strByte hl hbad
    unfold decodeHuffmanStrings
    simp only [hl, Res.bind_ok]
    by_cases h7 : ((ByteToBin e).drop sChar).length > 7
    · rw [if_pos h7]
      exact ⟨_, rfl⟩
    · rw [if_neg h7, slice_to_end, if_pos]
      · exact ⟨_, rfl⟩
      · rcases hbad with h | h
        · exact absurd h h7
        · rw [List.any_eq_true]
          exact ⟨Zero, h, by simp⟩

theorem decodeHuffmanStrings_sound_witness :
    ∃ pad : List Bin, ByteToBin [byte 0x1f] = huffmanBits [byte 97] ++ pad ∧ pad.length ≤ 7 ∧
      ∀ b ∈ pad, b = One :=
  (decodeHuffmanStrings_sound [byte 0x1f]).1 [byte 97] (by decide)

theorem onesChecks_true : onesChecks = true := by decide!

/-- No run of at most thirty one-bits passes the decoder's test. -/
theorem huffmanLookup_ones (l : Nat) (hl : l ≤ 30) :
    huffmanLookup (BinToUint32 (List.replicate l One)) l = none := by
  have h := List.all_eq_true.1 onesChecks_true l (List.mem_range.2 (by omega))
  simpa using h

/-- No bit sequence longer than thirty bits passes the decoder's test. -/
theorem huffmanLookup_long (b l : Nat) (hl : 30 < l) : huffmanLookup b l = none := by
  unfold huffmanLookup
  cases hlk : huffmanDecodeTable.lookup b with
  | none => rfl
  | some v =>
    have h := List.all_eq_true.1 decodeTable_lengths _ (lookup_mem _ _ _ hlk)
    simp only [decide_eq_true_eq] at h
    simp only
    rw [if_neg (by omega)]

/-- The codes of a string at position `s0`: the loop decodes them all and stands
right after them. -/
theorem decodeHuffmanLoop_symbols (B : List Bin) :
    ∀ (syms : List Byte) (s0 : Nat) (acc : List Byte) (fuel : Nat) (rest : List Bin),
      B.drop s0 = huffmanBits syms ++ rest →
      decodeHuffmanLoop B ((huffmanBits syms).length + fuel) (s0 + 1) s0 acc =
        decodeHuffmanLoop B fuel (s0 + (huffmanBits syms).length + 1)
          (s0 + (huffmanBits syms).length) (acc ++ syms) := by
  intro syms
  induction syms with
  | nil =>
    intro s0 acc fuel rest _
    simp [huffmanBits_nil]
  | cons c syms ih =>
    intro s0 acc fuel rest hB
    rw [huffmanBits_cons, List.append_assoc] at hB
    obtain ⟨h5, h30⟩ := code_length c
    have hB' : B.drop (s0 + (huffmanCode c).length) = huffmanBits syms ++ rest := by
      rw [← List.drop_drop, hB, List.drop_left]
    have hfuel : (huffmanBits (c :: syms)).length + fuel
        = ((huffmanCode c).length - 1) + 1 + ((huffmanBits syms).length + fuel) := by
      rw [huffmanBits_cons, List.length_append]
      omega
    rw [hfuel, decodeHuffmanLoop_symbol B c s0 _ hB ((huffmanCode c).length - 1) (s0 + 1) acc _
      (by omega) (by omega), ih _ _ _ rest hB']
    have hpos : s0 + (huffmanCode c).length + (huffmanBits syms).length
        = s0 + (huffmanBits (c :: syms)).length := by
      rw [huffmanBits_cons, List.length_append]
      omega
    rw [hpos, List.append_assoc, List.singleton_append]

/-- The loop from its start, `cur = 4` and `sChar = 0`, on the codes of a
string: it decodes them all, whatever follows. -/
theorem decodeHuffmanLoop_start (B : List Bin) (s : List Byte) (hs : s ≠ []) (rest : List Bin)
    (hB : B = huffmanBits s ++ rest) (fuel : Nat) :
    decodeHuffmanLoop B ((huffmanBits s).length - 3 + fuel) 4 0 [] =
      decodeHuffmanLoop B fuel ((huffmanBits s).length + 1) (huffmanBits s).length s := by
  obtain ⟨c, syms, rfl⟩ := List.exists_cons_of_ne_nil hs
  obtain ⟨h5, h30⟩ := code_length c
  have hB0 : B.drop 0 = huffmanCode c ++ (huffmanBits syms ++ rest) := by
    rw [List.drop_zero, hB, huffmanBits_cons, List.append_assoc]
  have hBL : B.drop (0 + (huffmanCode c).length) = huffmanBits syms ++ rest := by
    rw [← List.drop_drop, hB0, List.drop_left]
  have hlen : (huffmanBits (c :: syms)).length
      = (huffmanCode c).length + (huffmanBits syms).length := by
    rw [huffmanBits_cons, List.length_append]
  have hfuel : (huffmanBits (c :: syms)).length - 3 + fuel
      = ((huffmanCode c).length - 4) + 1 + ((huffmanBits syms).length + fuel) := by
    omega
  rw [hfuel, decodeHuffmanLoop_symbol B c 0 _ hB0 ((huffmanCode c).length - 4) 4 [] _
    (by omega) (by omega), decodeHuffmanLoop_symbols B syms _ _ fuel rest hBL, hlen]
  simp only [Nat.zero_add, List.nil_append, List.singleton_append]

/-- Thirty one-bits and more at `s0`: the loop gives up at the 31st bit. -/
theorem decodeHuffmanLoop_eos_more (B : List Bin) (s0 : Nat) (more : List Bin)
    (hB : B.drop s0 = List.replicate 30 One ++ more) (hm : more ≠ []) :
    ∀ (n cur : Nat) (acc : List Byte) (fuel : Nat), s0 ≤ cur → cur + n = s0 + 31 →
      decodeHuffmanLoop B (n + 1 + fuel) cur s0 acc =
        .error "failed to decode huffman strings (can't find string)" := by
  have hlen : B.length = s0 + (30 + more.length) := by
    have := congrArg List.length hB
    rw [List.length_drop, List.length_append, List.length_replicate] at this
    have hpos : 0 < more.length := List.length_pos.2 hm
    omega
  have hpos : 0 < more.length := List.length_pos.2 hm
  intro n
  induction n with
  | zero =>
    intro cur acc fuel _ hcur
    have hk : 0 + 1 + fuel = fuel + 1 := by omega
    rw [hk, decodeHuffmanLoop_succ, if_pos (by omega), huffmanLookup_long _ _ (by omega)]
    simp only
    rw [if_pos (by omega)]
  | succ n ih =>
    intro cur acc fuel hs hcur
    have hk : n + 1 + 1 + fuel = (n + 1 + fuel) + 1 := by omega
    have hsl : slice B s0 cur = List.replicate (cur - s0) One := by
      rw [slice_of_drop B s0 cur (List.replicate 30 One) more hB
        (by rw [List.length_replicate]; omega), List.take_replicate, Nat.min_eq_left (by omega)]
    rw [hk, decodeHuffmanLoop_succ, if_pos (by omega), hsl, huffmanLookup_ones _ (by omega)]
    simp only
    rw [if_neg (by omega)]
    exact ih (cur + 1) acc fuel (by omega) (by omega)

/-- At most thirty one-bits at `s0` and nothing more: the loop runs to the end
of the input without a hit. -/
theorem decodeHuffmanLoop_ones (B : List Bin) (s0 p : Nat) (hp : p ≤ 30)
    (hB : B.drop s0 = List.replicate p One) (hs : s0 ≤ B.length) :
    ∀ (n cur : Nat) (acc : List Byte), s0 ≤ cur → cur + n = B.length + 1 →
      decodeHuffmanLoop B (n + 1) cur s0 acc = .ok (s0, acc) := by
  have hlen : B.length = s0 + p := by
    have := congrArg List.length hB
    rw [List.length_drop, List.length_replicate] at this
    omega
  intro n
  induction n with
  | zero =>
    intro cur acc _ hcur
    rw [decodeHuffmanLoop_succ, if_neg (by omega)]
  | succ n ih =>
    intro cur acc hs' hcur
    have hsl : slice B s0 cur = List.replicate (cur - s0) One := by
      have := slice_of_drop B s0 cur (List.replicate p One) [] (by simpa using hB)
        (by rw [List.length_replicate]; omega)
      rw [this, List.take_replicate, Nat.min_eq_left (by omega)]
    rw [decodeHuffmanLoop_succ, if_pos (by omega), hsl, huffmanLookup_ones _ (by omega)]
    simp only
    rw [if_neg (by omega)]
    exact ih (cur + 1) acc (by omega) (by omega)

/-- A result reached with some fuel is the result with the fuel that
`decodeHuffmanStrings` passes. -/
theorem decodeHuffmanLoop_fuel (B : List Bin) (fuel : Nat) (r : Res (Nat × List Byte))
    (h : decodeHuffmanLoop B fuel 4 0 [] = r) (hr : r ≠ .stuck) :
    decodeHuffmanLoop B (B.length + 1) 4 0 [] = r := by
  have hne := decodeHuffmanLoop_enough B (B.length + 1) 4 0 [] (by omega) (by omega)
  have h1 := decodeHuffmanLoop_mono B (B.length + 1) 4 0 [] _ fuel rfl hne
  have h2 := decodeHuffmanLoop_mono B fuel 4 0 [] r (B.length + 1) h hr
  rw [Nat.add_comm fuel (B.length + 1)] at h2
  rw [← h1, h2]

/-- After the codes of `s` come thirty one-bits: the loop of the decoder ends
in an error, or at the end of the input with these thirty bits left over. -/
theorem decodeHuffmanLoop_eos (B : List Bin) (s : List Byte) (more : List Bin)
    (hB : B = huffmanBits s ++ List.replicate 30 One ++ more) :
    decodeHuffmanLoop B (B.length + 1) 4 0 []
        = .error "failed to decode huffman strings (can't find string)" ∨
    (more = [] ∧
      decodeHuffmanLoop B (B.length + 1) 4 0 [] = .ok ((huffmanBits s).length, s)) := by
  have hdrop : B.drop (huffmanBits s).length = List.replicate 30 One ++ more := by
    rw [hB, List.append_assoc, List.drop_left]
  have hlen : B.length = (huffmanBits s).length + (30 + more.length) := by
    rw [hB, List.length_append, List.length_append, List.length_replicate]
    omega
  by_cases hm : more = []
  · right
    refine ⟨hm, ?_⟩
    rw [hm, List.append_nil] at hdrop
    rw [hm, List.length_nil] at hlen
    by_cases hs : s = []
    · subst hs
      rw [huffmanBits_nil, List.length_nil] at hdrop hlen ⊢
      have := decodeHuffmanLoop_ones B 0 30 (by omega) hdrop (by omega) (B.length - 3) 4 []
        (by omega) (by omega)
      exact decodeHuffmanLoop_fuel B _ _ this (by simp)
    · have hstart := decodeHuffmanLoop_start B s hs (List.replicate 30 One ++ more)
        (by rw [hB, List.append_assoc]) (30 + 1)
      rw [decodeHuffmanLoop_ones B _ 30 (by omega) hdrop (by omega) 30 _ s (by omega)
        (by omega)] at hstart
      exact decodeHuffmanLoop_fuel B _ _ hstart (by simp)
  · left
    by_cases hs : s = []
    · subst hs
      rw [huffmanBits_nil, List.length_nil] at hdrop
      have := decodeHuffmanLoop_eos_more B 0 more hdrop hm 27 4 [] 0 (by omega) (by omega)
      exact decodeHuffmanLoop_fuel B _ _ this (by simp)
    · have hstart := decodeHuffmanLoop_start B s hs (List.replicate 30 One ++ more)
        (by rw [hB, List.append_assoc]) (30 + 1 + 0)
      rw [decodeHuffmanLoop_eos_more B _ more hdrop hm 30 _ s 0 (by omega) (by omega)] at hstart
      exact decodeHuffmanLoop_fuel B _ _ hstart (by simp)

/-- Claim C17. EOS is never decoded: for every string `s` and every octet
sequence whose bits are the codes of `s`, then thirty one-bits (the EOS code),
then any further bits, `decodeHuffmanStrings` returns an error; and the
decoder's test passes for no sequence of thirty one-bits, so no input makes it
write an octet for the EOS code. -/
theorem eos_rejected (s e : List Byte) (more : List Bin)
    (h : ByteToBin e = huffmanBits s ++ List.replicate 30 One ++ more) :
    (∃ msg, decodeHuffmanStrings e = .error msg) ∧
    huffmanLookup (BinToUint32 (List.replicate 30 One)) 30 = none ∧
    BinToUint32 (List.replicate 30 One) = 0x3fffffff := by
  refine ⟨?_, huffmanLookup_ones 30 (by omega), by decide⟩
  unfold decodeHuffmanStrings
  rcases decodeHuffmanLoop_eos (ByteToBin e) s more h with hl | ⟨hm, hl⟩
  · simp only [hl, Res.bind_error]
    exact ⟨_, rfl⟩
  · simp only [hl, Res.bind_ok]
    have hd : ((ByteToBin e).drop (huffmanBits s).length).length = 30 := by
      rw [h, hm, List.append_nil, List.drop_left, List.length_replicate]
    rw [if_pos (by omega)]
    exact ⟨_, rfl⟩

theorem eos_rejected_witness :
    ByteToBin [byte 0x1f, byte 0xff, byte 0xff, byte 0xff, byte 0xff]
      = huffmanBits [byte 97] ++ List.replicate 30 One ++ [One, One, One, One, One] ∧
    ∃ msg, decodeHuffmanStrings [byte 0x1f, byte 0xff, byte 0xff, byte 0xff, byte 0xff]
      = .error msg :=
  ⟨by decide,
    (eos_rejected [byte 97] [byte 0x1f, byte 0xff, byte 0xff, byte 0xff, byte 0xff]
      [One, One, One, One, One] (by decide)).1⟩

/-! ## RFC 7541 C.4 encode vectors, the static table, DATA frames -/

/-- Claim C27. RFC 7541 C.4.1 and C.4.2: `EncodeHeader` on the four request
fields with an empty table and limit 4096 returns `82 86 84 41 8c f1 e3 c2 e5
f2 3a 6b a0 ab 90 f4 ff` and the table `[(:authority, www.example.com)]`; on
those fields followed by `(cache-control, no-cache)`, from the state just
returned, it returns `82 86 84 be 58 86 a8 eb 10 64 9c bf`. -/
theorem encode_vectors_c41_c42 :
    EncodeHeader asciiToLower [kv ":method" "GET", kv ":scheme" "http", kv ":path" "/",
        kv ":authority" "www.example.com"] ⟨[], 4096⟩
      = .ok ([byte 0x82, byte 0x86, byte 0x84, byte 0x41, byte 0x8c, byte 0xf1, byte 0xe3,
          byte 0xc2, byte 0xe5, byte 0xf2, byte 0x3a, byte 0x6b, byte 0xa0, byte 0xab,
          byte 0x90, byte 0xf4, byte 0xff],
        ⟨[kv ":authority" "www.example.com"], 4096⟩) ∧
    EncodeHeader asciiToLower [kv ":method" "GET", kv ":scheme" "http", kv ":path" "/",
        kv ":authority" "www.example.com", kv "cache-control" "no-cache"]
        ⟨[kv ":authority" "www.example.com"], 4096⟩
      = .ok ([byte 0x82, byte 0x86, byte 0x84, byte 0xbe, byte 0x58, byte 0x86, byte 0xa8,
          byte 0xeb, byte 0x10, byte 0x64, byte 0x9c, byte 0xbf],
        ⟨[kv "cache-control" "no-cache", kv ":authority" "www.example.com"], 4096⟩) := by
  constructor <;> decide!

/-- Claim C28, counterexample: with the value written `custom-Value`, the octets
are not those of RFC 7541 C.4.3: the code of `V` differs from that of `v`, and
the value literal is `25 a8 49 e9 5b 88 e8 b4 bf`, not `25 a8 49 e9 5b b8 e8 b4
bf`. -/
theorem encode_vector_c43_counterexample :
    EncodeHeader asciiToLower [kv ":method" "GET", kv ":scheme" "https", kv ":path" "/index.html",
        kv ":authority" "www.example.com", kv "custom-key" "custom-Value"]
        ⟨[kv "cache-control" "no-cache", kv ":authority" "www.example.com"], 4096⟩
      = .ok ([byte 0x82, byte 0x87, byte 0x85, byte 0xbf, byte 0x40, byte 0x88, byte 0x25,
          byte 0xa8, byte 0x49, byte 0xe9, byte 0x5b, byte 0xa9, byte 0x7d, byte 0x7f,
          byte 0x89, byte 0x25, byte 0xa8, byte 0x49, byte 0xe9, byte 0x5b, byte 0x88,
          byte 0xe8, byte 0xb4, byte 0xbf],
        ⟨[kv "custom-key" "custom-Value", kv "cache-control" "no-cache",
          kv ":authority" "www.example.com"], 4096⟩) := by
  decide!

/-- Claim C28, amended. RFC 7541 C.4.3: from the state reached by encoding the
C.4.1 and C.4.2 lists, `EncodeHeader` on the five fields ending in
`(custom-key, custom-value)` returns `82 87 85 bf 40 88 25 a8 49 e9 5b a9 7d 7f
89 25 a8 49 e9 5b b8 e8 b4 bf` and the table `[(custom-key, custom-value),
(cache-control, no-cache), (:authority, www.example.com)]`. -/
theorem encode_vector_c43 :
    EncodeHeader asciiToLower [kv ":method" "GET", kv ":scheme" "https", kv ":path" "/index.html",
        kv ":authority" "www.example.com", kv "custom-key" "custom-value"]
        ⟨[kv "cache-control" "no-cache", kv ":authority" "www.example.com"], 4096⟩
      = .ok ([byte 0x82, byte 0x87, byte 0x85, byte 0xbf, byte 0x40, byte 0x88, byte 0x25,
          byte 0xa8, byte 0x49, byte 0xe9, byte 0x5b, byte 0xa9, byte 0x7d, byte 0x7f,
          byte 0x89, byte 0x25, byte 0xa8, byte 0x49, byte 0xe9, byte 0x5b, byte 0xb8,
          byte 0xe8, byte 0xb4, byte 0xbf],
        ⟨[kv "custom-key" "custom-value", kv "cache-control" "no-cache",
          kv ":authority" "www.example.com"], 4096⟩) := by
  decide!

/-- Claim C29, counterexample: entry 16 of the static table is
`accept-encoding` with the value `gzip, deflate`, which is not empty. -/
theorem static_table_entry_16 :
    staticHeaderTable[16 - 1]? = some (kv "accept-encoding" "gzip, deflate") ∧
    (kv "accept-encoding" "gzip, deflate").Value ≠ [] := by
  constructor <;> decide

/-- Claim C29, amended. Static table shape: `staticHeaderTable` has exactly 61
entries; entry 1 is `:authority` with an empty value; the entries with a
non-empty value are exactly entries 2 through 14 and entry 16. -/
theorem static_table_shape :
    staticHeaderTable.length = 61 ∧
    staticHeaderTable[1 - 1]? = some (kv ":authority" "") ∧
    (kv ":authority" "").Value = [] ∧
    ∀ i : Fin 61, ((staticHeaderTable[i.val]?).map KeyValue.Value ≠ some []) ↔
      ((2 ≤ i.val + 1 ∧ i.val + 1 ≤ 14) ∨ i.val + 1 = 16) := by
  refine ⟨by decide, by decide, by decide, by decide⟩

/-- Claim C30. DATA padding removal: when the PADDED flag `0x8` is set and
`1 + b[0] ≤ len(b)`, `ParseData(f, b)` returns `Content = b[1 : len(b) - b[0]]`;
when the flag is clear it returns `Content = b`; in both cases `Eos` is true
exactly when the END_STREAM flag `0x1` is set. -/
theorem ParseData_padding (f : Framer) (b : List Byte) :
    (∀ (b0 : Byte) (tl : List Byte), b = b0 :: tl → f.Flags &&& 8 ≠ 0 →
      1 + b0.val ≤ b.length →
      ParseData f b = .ok ⟨decide (f.Flags &&& 1 = 1), slice b 1 (b.length - b0.val)⟩) ∧
    (f.Flags &&& 8 = 0 → ParseData f b = .ok ⟨decide (f.Flags &&& 1 = 1), b⟩) := by
  constructor
  · intro b0 tl hb hflag hlen
    subst hb
    unfold ParseData
    have hty : ¬ (f.FType &&& FrameData ≠ 0) := by simp [FrameData]
    rw [if_neg hty]
    simp only [DATA_PADDED, DATA_END_STREAM, hflag, ne_eq, not_false_eq_true, if_true]
    rw [if_neg (by omega)]
    rfl
  · intro hflag
    unfold ParseData
    have hty : ¬ (f.FType &&& FrameData ≠ 0) := by simp [FrameData]
    rw [if_neg hty]
    simp only [DATA_PADDED, DATA_END_STREAM, hflag, ne_eq, not_true_eq_false, if_false]
    rfl

theorem ParseData_padding_witness :
    ParseData ⟨8, 0, 8, 0⟩ (byte 2 :: (str "Data Test" ++ [byte 0, byte 0]))
      = .ok ⟨false, str "Data Test"⟩ :=
  (ParseData_padding ⟨8, 0, 8, 0⟩ (byte 2 :: (str "Data Test" ++ [byte 0, byte 0]))).1
    (byte 2) (str "Data Test" ++ [byte 0, byte 0]) rfl (by decide) (by decide)

/-! ## The decoder, one representation at a time -/

theorem Res.bind_assoc {α β γ : Type} (r : Res α) (f : α → Res β) (g : β → Res γ) :
    (r.bind f).bind g = r.bind (fun a => (f a).bind g) := by
  cases r <;> rfl

/-- The loop of `DecodeHeader` is its body, `decodeRep`, followed by the loop. -/
theorem DecodeHeaderLoop_rep (fuel : Nat) (b0 : Byte) (tl : List Byte) (dyn : List KeyValue)
    (limit : Nat) (hb : List KeyValue) :
    DecodeHeaderLoop (fuel + 1) (b0 :: tl) dyn limit hb =
      (decodeRep b0 tl dyn limit).bind fun r =>
        DecodeHeaderLoop fuel r.2.2.2 r.2.1 r.2.2.1 (hb ++ r.1) := by
  rw [DecodeHeaderLoop_succ]
  unfold decodeRep
  split_ifs <;> simp only [Res.bind_assoc, Res.bind_ok, Res.bind_error, List.append_nil]

theorem and_192_64 : ∀ b : Byte, b.val &&& 192 = 64 →
    b.val &&& 128 ≠ 128 ∧ b.val &&& 240 ≠ 0 ∧ b.val &&& 240 ≠ 16 := by
  decide!

/-- What one representation does, by cases: the octets it leaves are shorter
than the input, the limit changes only on a size update, and the table either
stays or gets the emitted field at its front. -/
theorem decodeRep_ok (b0 : Byte) (tl : List Byte) (dyn : List KeyValue) (limit : Nat)
    (kvs d : List KeyValue) (l : Nat) (eB : List Byte)
    (h : decodeRep b0 tl dyn limit = .ok (kvs, d, l, eB)) :
    eB.length ≤ tl.length ∧
    (notSizeUpdate b0 = true → l = limit) ∧
    (isPlainOpcode b0 = true → d = dyn ∧ l = limit) ∧
    (d = dyn ∨ ∃ kv, kvs = [kv] ∧ d = kv :: dyn) := by
  unfold decodeRep at h
  split_ifs at h with h1 h2 h3 h4 h5 h6
  · simp only [Res.bind_eq_ok] at h
    obtain ⟨⟨i, r⟩, hi, kv, _, h⟩ := h
    simp only [Res.ok.injEq, Prod.mk.injEq] at h
    obtain ⟨-, rfl, rfl, rfl⟩ := h
    have := decodeIntValue_length _ _ _ _ hi
    simp only [List.length_cons] at this
    exact ⟨by omega, fun _ => rfl, fun _ => ⟨rfl, rfl⟩, Or.inl rfl⟩
  · simp only [Res.bind_eq_ok] at h
    obtain ⟨⟨key, r1⟩, hk, ⟨value, r2⟩, hv, h⟩ := h
    simp only [Res.ok.injEq, Prod.mk.injEq] at h
    obtain ⟨rfl, rfl, rfl, rfl⟩ := h
    dsimp only at hk hv
    have := decodeStrings_length _ _ _ hk
    have := decodeStrings_length _ _ _ hv
    refine ⟨by omega, fun _ => rfl, ?_, Or.inr ⟨_, rfl, pushFront_eq _ _⟩⟩
    intro hp
    simp only [isPlainOpcode, Bool.or_eq_true, decide_eq_true_eq] at hp
    have := and_192_64 b0 h2
    omega
  · simp only [Res.bind_eq_ok] at h
    obtain ⟨⟨i, r⟩, hi, kv, _, ⟨value, r2⟩, hv, h⟩ := h
    simp only [Res.ok.injEq, Prod.mk.injEq] at h
    obtain ⟨rfl, rfl, rfl, rfl⟩ := h
    dsimp only at hi hv
    have h1l := decodeIntValue_length _ _ _ _ hi
    have h2l := decodeStrings_length _ _ _ hv
    simp only [List.length_cons] at h1l
    refine ⟨by omega, fun _ => rfl, ?_, Or.inr ⟨_, rfl, pushFront_eq _ _⟩⟩
    intro hp
    simp only [isPlainOpcode, Bool.or_eq_true, decide_eq_true_eq] at hp
    have := and_192_64 b0 h2
    omega
  · simp only [Res.bind_eq_ok] at h
    obtain ⟨⟨key, r1⟩, hk, ⟨value, r2⟩, hv, h⟩ := h
    simp only [Res.ok.injEq, Prod.mk.injEq] at h
    obtain ⟨-, rfl, rfl, rfl⟩ := h
    dsimp only at hk hv
    have := decodeStrings_length _ _ _ hk
    have := decodeStrings_length _ _ _ hv
    exact ⟨by omega, fun _ => rfl, fun _ => ⟨rfl, rfl⟩, Or.inl rfl⟩
  · simp only [Res.bind_eq_ok] at h
    obtain ⟨⟨i, r⟩, hi, kv, _, ⟨value, r2⟩, hv, h⟩ := h
    simp only [Res.ok.injEq, Prod.mk.injEq] at h
    obtain ⟨-, rfl, rfl, rfl⟩ := h
    dsimp only at hi hv
    have h1l := decodeIntValue_length _ _ _ _ hi
    have h2l := decodeStrings_length _ _ _ hv
    simp only [List.length_cons] at h1l
    exact ⟨by omega, fun _ => rfl, fun _ => ⟨rfl, rfl⟩, Or.inl rfl⟩
  · simp only [Res.bind_eq_ok] at h
    obtain ⟨⟨i, r⟩, hi, h⟩ := h
    simp only [Res.ok.injEq, Prod.mk.injEq] at h
    obtain ⟨-, rfl, rfl, rfl⟩ := h
    have := decodeIntValue_length _ _ _ _ hi
    simp only [List.length_cons] at this
    refine ⟨by omega, ?_, ?_, Or.inl rfl⟩
    · intro hp
      simp [notSizeUpdate, h6] at hp
    · intro hp
      simp only [isPlainOpcode, Bool.or_eq_true, decide_eq_true_eq] at hp
      tauto
theorem Res.bind_congr {α β : Type} (r : Res α) (f g : α → Res β)
    (h : ∀ a, r = .ok a → f a = g a) : r.bind f = r.bind g := by
  cases r with
  | ok a => exact h a rfl
  | error m => rfl
  | crash => rfl
  | stuck => rfl

/-- With at least as much fuel as octets, the fuel does not matter. -/
theorem DecodeHeaderLoop_fuel (fuel : Nat) :
    ∀ (enc : List Byte) (dyn : List KeyValue) (limit : Nat) (hb : List KeyValue),
      enc.length ≤ fuel →
      DecodeHeaderLoop fuel enc dyn limit hb = DecodeHeaderLoop enc.length enc dyn limit hb := by
  induction fuel using Nat.strong_induction_on with
  | _ fuel ih =>
    intro enc dyn limit hb hlen
    cases enc with
    | nil => rw [DecodeHeaderLoop_nil, DecodeHeaderLoop_nil]
    | cons b0 tl =>
      cases fuel with
      | zero => simp at hlen
      | succ n =>
        rw [List.length_cons, DecodeHeaderLoop_rep, DecodeHeaderLoop_rep]
        apply Res.bind_congr
        rintro ⟨kvs, d, l, eB⟩ hr
        have hle := (decodeRep_ok _ _ _ _ _ _ _ _ hr).1
        simp only [List.length_cons] at hlen
        dsimp only
        rw [ih n (by omega) eB d l _ (by omega)]
        by_cases htl : tl.length = n
        · rw [htl, ih n (by omega) eB d l _ (by omega)]
        · rw [ih tl.length (by omega) eB d l _ hle]

theorem decodeIntLoop_append (l : List Byte) :
    ∀ (tmp m v : Nat) (r : List Byte), decodeIntLoop l tmp m = .ok (v, r) →
      ∃ c, l = c ++ r ∧ ∀ s, decodeIntLoop (c ++ s) tmp m = .ok (v, s) := by
  induction l with
  | nil => intro tmp m v r h; simp [decodeIntLoop] at h
  | cons b l ih =>
    intro tmp m v r h
    rw [decodeIntLoop_cons] at h
    by_cases hb : b.val &&& 128 = 0
    · rw [if_pos hb] at h
      simp only [Res.ok.injEq, Prod.mk.injEq] at h
      refine ⟨[b], by rw [← h.2]; rfl, ?_⟩
      intro s
      rw [List.singleton_append, decodeIntLoop_cons, if_pos hb, h.1]
    · rw [if_neg hb] at h
      obtain ⟨c, hc, hs⟩ := ih _ _ _ _ h
      refine ⟨b :: c, by rw [hc]; rfl, ?_⟩
      intro s
      rw [List.cons_append, decodeIntLoop_cons, if_neg hb]
      exact hs s

theorem decodeIntValue_ne_error (l : List Byte) {n : Nat} (hn : n ≤ 8) (msg : String) :
    decodeIntValue l n ≠ .error msg := by
  unfold decodeIntValue
  rw [if_neg (by omega)]
  cases l with
  | nil => simp
  | cons b0 rest =>
    simp only
    split
    · simp
    · intro h
      have : ∀ (l : List Byte) (tmp m : Nat), decodeIntLoop l tmp m ≠ .error msg := by
        intro l
        induction l with
        | nil => intro tmp m; simp [decodeIntLoop]
        | cons b l ih =>
          intro tmp m
          rw [decodeIntLoop_cons]
          split
          · simp
          · exact ih _ _
      exact this _ _ _ h

/-- `decodeIntValue` reads a leading part of its input and does not look at
what follows. -/
theorem decodeIntValue_append (b0 : Byte) (tl : List Byte) (n v : Nat) (r : List Byte)
    (h : decodeIntValue (b0 :: tl) n = .ok (v, r)) :
    ∃ c, tl = c ++ r ∧ ∀ s, decodeIntValue (b0 :: (c ++ s)) n = .ok (v, s) := by
  unfold decodeIntValue at h ⊢
  by_cases hn : n > 8
  · rw [if_pos hn] at h; simp at h
  · rw [if_neg hn] at h
    simp only [if_neg hn]
    by_cases hi : b0.val &&& mask8 n < mask64 n
    · simp only [hi, if_true, Res.ok.injEq, Prod.mk.injEq] at h ⊢
      exact ⟨[], by rw [← h.2]; rfl, fun s => ⟨h.1, rfl⟩⟩
    · simp only [hi, if_false] at h ⊢
      exact decodeIntLoop_append _ _ _ _ _ h

/-- `decodeStrings` reads a leading part of its input and does not look at what
follows. -/
theorem decodeStrings_append (l : List Byte) (v r : List Byte)
    (h : decodeStrings l = .ok (v, r)) :
    ∃ c, l = c ++ r ∧ ∀ s, decodeStrings (c ++ s) = .ok (v, s) := by
  cases l with
  | nil =>
    unfold decodeStrings at h
    simp [decodeIntValue] at h
  | cons b0 tl =>
    cases hd : decodeIntValue (b0 :: tl) 7 with
    | error m => exact absurd hd (decodeIntValue_ne_error _ (by norm_num) m)
    | crash => unfold decodeStrings at h; simp [hd] at h
    | stuck => unfold decodeStrings at h; simp [hd] at h
    | ok p =>
      obtain ⟨len, rb⟩ := p
      obtain ⟨c, hc, hs⟩ := decodeIntValue_append b0 tl 7 len rb hd
      unfold decodeStrings at h
      simp only [hd, Res.bind_ok] at h
      have key : ∀ s, decodeStrings (b0 :: (c ++ (rb.take len ++ s)))
          = (if b0.val &&& 128 = 128 then
              if len > (rb.take len ++ s).length then .crash
              else (decodeHuffmanStrings ((rb.take len ++ s).take len)).bind fun decoded =>
                .ok (decoded, (rb.take len ++ s).drop len)
            else if len > (rb.take len ++ s).length then .crash
              else .ok ((rb.take len ++ s).take len, (rb.take len ++ s).drop len)) := by
        intro s
        unfold decodeStrings
        simp only [hs (rb.take len ++ s), Res.bind_ok]
      by_cases hlen : len > rb.length
      · split_ifs at h
      · have htl : (rb.take len).length = len := by
          rw [List.length_take]; omega
        have e1 : ∀ s, (rb.take len ++ s).take len = rb.take len := by
          intro s
          rw [List.take_append_of_le_length (by omega), List.take_take, Nat.min_self]
        have e2 : ∀ s, (rb.take len ++ s).drop len = s := by
          intro s
          have := List.drop_left (rb.take len) s
          rwa [htl] at this
        have e3 : ∀ s, ¬ len > (rb.take len ++ s).length := by
          intro s
          rw [List.length_append, htl]; omega
        refine ⟨b0 :: (c ++ rb.take len), ?_, ?_⟩
        · have hr : r = rb.drop len := by
            split_ifs at h with hH
            · simp only [Res.bind_eq_ok] at h
              obtain ⟨a, _, h⟩ := h
              simp only [Res.ok.injEq, Prod.mk.injEq] at h
              exact h.2.symm
            · simp only [Res.ok.injEq, Prod.mk.injEq] at h
              exact h.2.symm
          rw [hr, List.cons_append, List.append_assoc, List.take_append_drop, hc]
        · intro s
          rw [List.cons_append, List.append_assoc, key s]
          simp only [e1, e2, e3, if_false]
          split_ifs at h with hH
          · rw [if_pos hH]
            simp only [Res.bind_eq_ok] at h ⊢
            obtain ⟨a, ha, h⟩ := h
            simp only [Res.ok.injEq, Prod.mk.injEq] at h
            exact ⟨a, ha, by rw [h.1]⟩
          · rw [if_neg hH]
            simp only [Res.ok.injEq, Prod.mk.injEq] at h
            rw [h.1]

/-- One representation reads a leading part of the block and does not look at
what follows. -/
theorem decodeRep_append (b0 : Byte) (tl : List Byte) (dyn : List KeyValue) (limit : Nat)
    (kvs d : List KeyValue) (l : Nat) (eB : List Byte)
    (h : decodeRep b0 tl dyn limit = .ok (kvs, d, l, eB)) :
    ∃ c, tl = c ++ eB ∧ ∀ s, decodeRep b0 (c ++ s) dyn limit = .ok (kvs, d, l, s) := by
  have two : ∀ (tl key r1 value r2 : List Byte), decodeStrings tl = .ok (key, r1) →
      decodeStrings r1 = .ok (value, r2) →
      ∃ c, tl = c ++ r2 ∧ ∀ s, ∃ r1', decodeStrings (c ++ s) = .ok (key, r1') ∧
        decodeStrings r1' = .ok (value, s) := by
    intro tl key r1 value r2 hk hv
    obtain ⟨c1, hc1, hs1⟩ := decodeStrings_append _ _ _ hk
    obtain ⟨c2, hc2, hs2⟩ := decodeStrings_append _ _ _ hv
    refine ⟨c1 ++ c2, by rw [hc1, hc2, List.append_assoc], ?_⟩
    intro s
    exact ⟨c2 ++ s, by rw [List.append_assoc]; exact hs1 _, hs2 s⟩
  have intstr : ∀ (n i : Nat) (r1 value r2 : List Byte),
      decodeIntValue (b0 :: tl) n = .ok (i, r1) → decodeStrings r1 = .ok (value, r2) →
      ∃ c, tl = c ++ r2 ∧ ∀ s, ∃ r1', decodeIntValue (b0 :: (c ++ s)) n = .ok (i, r1') ∧
        decodeStrings r1' = .ok (value, s) := by
    intro n i r1 value r2 hi hv
    obtain ⟨c1, hc1, hs1⟩ := decodeIntValue_append _ _ _ _ _ hi
    obtain ⟨c2, hc2, hs2⟩ := decodeStrings_append _ _ _ hv
    refine ⟨c1 ++ c2, by rw [hc1, hc2, List.append_assoc], ?_⟩
    intro s
    exact ⟨c2 ++ s, by rw [List.append_assoc]; exact hs1 _, hs2 s⟩
  unfold decodeRep at h ⊢
  split_ifs at h with h1 h2 h3 h4 h5 h6
  · simp only [Res.bind_eq_ok] at h
    obtain ⟨⟨i, r⟩, hi, kv, hkv, h⟩ := h
    simp only [Res.ok.injEq, Prod.mk.injEq] at h
    obtain ⟨rfl, rfl, rfl, rfl⟩ := h
    try dsimp only at hi hkv
    obtain ⟨c, hc, hs⟩ := decodeIntValue_append _ _ _ _ _ hi
    refine ⟨c, hc, fun s => ?_⟩
    simp only [h1, if_true, hs s, Res.bind_ok, hkv]
  · simp only [Res.bind_eq_ok] at h
    obtain ⟨⟨key, r1⟩, hk, ⟨value, r2⟩, hv, h⟩ := h
    simp only [Res.ok.injEq, Prod.mk.injEq] at h
    obtain ⟨rfl, rfl, rfl, rfl⟩ := h
    try dsimp only at hk hv
    obtain ⟨c, hc, hs⟩ := two _ _ _ _ _ hk hv
    refine ⟨c, hc, fun s => ?_⟩
    obtain ⟨r1', e1, e2⟩ := hs s
    simp only [h1, h2, h3, if_true, if_false, e1, e2, Res.bind_ok]
  · simp only [Res.bind_eq_ok] at h
    obtain ⟨⟨i, r⟩, hi, kv, hkv, ⟨value, r2⟩, hv, h⟩ := h
    simp only [Res.ok.injEq, Prod.mk.injEq] at h
    obtain ⟨rfl, rfl, rfl, rfl⟩ := h
    try dsimp only at hi hv hkv
    obtain ⟨c, hc, hs⟩ := intstr _ _ _ _ _ hi hv
    refine ⟨c, hc, fun s => ?_⟩
    obtain ⟨r1', e1, e2⟩ := hs s
    simp only [h1, h2, h3, if_true, if_false, e1, e2, Res.bind_ok, hkv]
  · simp only [Res.bind_eq_ok] at h
    obtain ⟨⟨key, r1⟩, hk, ⟨value, r2⟩, hv, h⟩ := h
    simp only [Res.ok.injEq, Prod.mk.injEq] at h
    obtain ⟨rfl, rfl, rfl, rfl⟩ := h
    try dsimp only at hk hv
    obtain ⟨c, hc, hs⟩ := two _ _ _ _ _ hk hv
    refine ⟨c, hc, fun s => ?_⟩
    obtain ⟨r1', e1, e2⟩ := hs s
    simp only [h1, h2, h4, h5, if_true, if_false, e1, e2, Res.bind_ok]
  · simp only [Res.bind_eq_ok] at h
    obtain ⟨⟨i, r⟩, hi, kv, hkv, ⟨value, r2⟩, hv, h⟩ := h
    simp only [Res.ok.injEq, Prod.mk.injEq] at h
    obtain ⟨rfl, rfl, rfl, rfl⟩ := h
    try dsimp only at hi hv hkv
    obtain ⟨c, hc, hs⟩ := intstr _ _ _ _ _ hi hv
    refine ⟨c, hc, fun s => ?_⟩
    obtain ⟨r1', e1, e2⟩ := hs s
    simp only [h1, h2, h4, h5, if_true, if_false, e1, e2, Res.bind_ok, hkv]
  · simp only [Res.bind_eq_ok] at h
    obtain ⟨⟨i, r⟩, hi, h⟩ := h
    simp only [Res.ok.injEq, Prod.mk.injEq] at h
    obtain ⟨rfl, rfl, rfl, rfl⟩ := h
    try dsimp only at hi
    obtain ⟨c, hc, hs⟩ := decodeIntValue_append _ _ _ _ _ hi
    refine ⟨c, hc, fun s => ?_⟩
    simp only [h1, h2, h4, h6, if_true, if_false, hs s, Res.bind_ok]

/-- A block that decodes without error, followed by more octets: the decoder
reaches the end of the block with some table `T`, of which the returned table is
the eviction, and goes on from there. -/
theorem DecodeHeaderLoop_append (n : Nat) :
    ∀ (enc : List Byte), enc.length ≤ n →
      ∀ (dyn : List KeyValue) (limit : Nat) (hb F : List KeyValue) (S1 : HpackConn),
      DecodeHeaderLoop enc.length enc dyn limit hb = .ok (F, S1) →
      ∃ T, S1 = ⟨cutHeader T S1.TableSizeLimit, S1.TableSizeLimit⟩ ∧
        ∀ s, DecodeHeaderLoop (enc ++ s).length (enc ++ s) dyn limit hb
          = DecodeHeaderLoop s.length s T S1.TableSizeLimit F := by
  induction n with
  | zero =>
    intro enc hlen dyn limit hb F S1 h
    have : enc = [] := List.length_eq_zero.1 (by omega)
    subst this
    rw [DecodeHeaderLoop_nil] at h
    simp only [Res.ok.injEq, Prod.mk.injEq] at h
    obtain ⟨rfl, rfl⟩ := h
    exact ⟨dyn, rfl, fun s => by rw [List.nil_append]⟩
  | succ n ih =>
    intro enc hlen dyn limit hb F S1 h
    cases enc with
    | nil =>
      rw [DecodeHeaderLoop_nil] at h
      simp only [Res.ok.injEq, Prod.mk.injEq] at h
      obtain ⟨rfl, rfl⟩ := h
      exact ⟨dyn, rfl, fun s => by rw [List.nil_append]⟩
    | cons b0 tl =>
      rw [List.length_cons, DecodeHeaderLoop_rep, Res.bind_eq_ok] at h
      obtain ⟨⟨kvs, d, l, eB⟩, hr, h⟩ := h
      try dsimp only at h
      have hle := (decodeRep_ok _ _ _ _ _ _ _ _ hr).1
      simp only [List.length_cons] at hlen
      rw [DecodeHeaderLoop_fuel _ _ _ _ _ hle] at h
      obtain ⟨T, hT, hs⟩ := ih eB (by omega) d l _ F S1 h
      obtain ⟨c, hc, hcs⟩ := decodeRep_append _ _ _ _ _ _ _ _ hr
      refine ⟨T, hT, fun s => ?_⟩
      rw [List.cons_append, List.length_cons, DecodeHeaderLoop_rep, hc, List.append_assoc,
        hcs (eB ++ s), Res.bind_ok]
      try dsimp only
      rw [DecodeHeaderLoop_fuel _ _ _ _ _ (by simp), hs s]

/-- The same for `DecodeHeader`. -/
theorem DecodeHeader_append (pre : List Byte) (S : HpackConn) (F : List KeyValue)
    (S1 : HpackConn) (h : DecodeHeader pre S = .ok (F, S1)) :
    ∃ T, S1 = ⟨cutHeader T S1.TableSizeLimit, S1.TableSizeLimit⟩ ∧
      ∀ s, DecodeHeader (pre ++ s) S = DecodeHeaderLoop s.length s T S1.TableSizeLimit F :=
  DecodeHeaderLoop_append pre.length pre (Nat.le_refl _) _ _ _ F S1 h

/-! ## Size updates and raw literals in the reference encoding -/

/-- `decodeIntValue`'s loop reads back the reference continuation octets. -/
theorem decodeIntLoop_reference (fuel : Nat) :
    ∀ (v tmp m : Nat) (rest : List Byte), v ≤ fuel → tmp + v * 2 ^ m < 2 ^ 64 →
      decodeIntLoop (referenceContinuation fuel v ++ rest) tmp m
        = .ok (tmp + v * 2 ^ m, rest) := by
  have hlast : ∀ (v tmp m : Nat) (rest : List Byte), v < 128 → tmp + v * 2 ^ m < 2 ^ 64 →
      decodeIntLoop ([byte (v &&& 127)] ++ rest) tmp m = .ok (tmp + v * 2 ^ m, rest) := by
    intro v tmp m rest hv hlt
    obtain ⟨h1, h2, -, -⟩ := low7_bits ⟨v, hv⟩
    simp only at h1 h2
    have hvm : v % 128 = v := Nat.mod_eq_of_lt hv
    rw [and_127, hvm, List.singleton_append, decodeIntLoop_cons, if_pos h2, h1,
      Nat.mod_eq_of_lt (by omega : v * 2 ^ m < 2 ^ 64), Nat.mod_eq_of_lt hlt]
  induction fuel with
  | zero =>
    intro v tmp m rest hv hlt
    rw [referenceContinuation]
    exact hlast v tmp m rest (by omega) hlt
  | succ k ih =>
    intro v tmp m rest hv hlt
    rw [referenceContinuation]
    by_cases hge : v ≥ 128
    · rw [if_pos hge]
      obtain ⟨-, -, h3, h4⟩ := low7_bits ⟨v % 128, Nat.mod_lt _ (by norm_num)⟩
      simp only at h3 h4
      have hpos : 0 < 2 ^ m := Nat.pos_of_ne_zero (by positivity)
      have hsplit : v = 128 * (v / 128) + v % 128 := (Nat.div_add_mod v 128).symm
      have hv1 : 2 ^ m ≤ v * 2 ^ m := Nat.le_mul_of_pos_left _ (by omega)
      have hm : m < 64 := by
        by_contra hcon
        have : 2 ^ 64 ≤ 2 ^ m := Nat.pow_le_pow_right (by norm_num) (by omega)
        omega
      have hmul : v * 2 ^ m = (v % 128) * 2 ^ m + (v / 128) * 2 ^ (m + 7) := by
        rw [pow_add]; nlinarith [hsplit]
      have hA : v % 128 * 2 ^ m < 2 ^ 64 := by omega
      have hB : tmp + v % 128 * 2 ^ m < 2 ^ 64 := by omega
      have hdiv : v >>> 7 = v / 128 := by rw [Nat.shiftRight_eq_div_pow]
      rw [and_127, hdiv, List.cons_append, decodeIntLoop_cons, if_neg h4, h3,
        Nat.mod_eq_of_lt hA, Nat.mod_eq_of_lt hB, Nat.mod_eq_of_lt (by omega : m + 7 < 2 ^ 64),
        ih (v / 128) _ (m + 7) rest (by omega) (by omega)]
      congr 2
      omega
    · rw [if_neg hge]
      exact hlast v tmp m rest (by omega) hlt

theorem referenceInt_head (p : Byte) {n : Nat} (v : Nat) (_hn : n ≤ 8) :
    ∃ x tl, x < 2 ^ n ∧ referenceInt p n v = byte (p.val ||| x) :: tl := by
  have hpos : 0 < 2 ^ n := Nat.pos_of_ne_zero (by positivity)
  unfold referenceInt
  by_cases h : v < 2 ^ n - 1
  · exact ⟨v, [], by omega, by rw [if_pos h]⟩
  · exact ⟨2 ^ n - 1, _, by omega, by rw [if_neg h]⟩

/-- `decodeIntValue` reads back the reference encoding of a prefix integer. -/
theorem decodeIntValue_referenceInt (p : Byte) {n v : Nat} (rest : List Byte) (hn : n ≤ 8)
    (hv : v < 2 ^ 64) (hp : p.val % 2 ^ n = 0) :
    decodeIntValue (referenceInt p n v ++ rest) n = .ok (v, rest) := by
  have hpos : 0 < 2 ^ n := Nat.pos_of_ne_zero (by positivity)
  have hpow : 2 ^ n ≤ 2 ^ 8 := Nat.pow_le_pow_right (by norm_num) hn
  unfold decodeIntValue referenceInt
  rw [if_neg (by omega), mask64_eq hn, mask8_eq hn]
  by_cases h : v < 2 ^ n - 1
  · simp only [h, if_true, List.singleton_append, prefix_bits p hn hp (by omega : v < 2 ^ n)]
  · simp only [h, if_false, List.cons_append,
      prefix_bits p hn hp (by omega : 2 ^ n - 1 < 2 ^ n), lt_self_iff_false]
    have := decodeIntLoop_reference (v - (2 ^ n - 1)) (v - (2 ^ n - 1)) (2 ^ n - 1) 0 rest
      (le_refl _) (by omega)
    rw [this]
    congr 2
    omega

/-- A raw string literal in the reference encoding decodes to the string. -/
theorem decodeStrings_rawLiteral (s rest : List Byte) (hl : s.length < 2 ^ 64) :
    decodeStrings (rawLiteral s ++ rest) = .ok (s, rest) := by
  obtain ⟨x, tl, hx, htl⟩ := referenceInt_head (byte 0) s.length (by norm_num : 7 ≤ 8)
  have hdec := decodeIntValue_referenceInt (byte 0) (s ++ rest) (by norm_num : 7 ≤ 8) hl
    (by decide)
  unfold rawLiteral
  rw [List.append_assoc]
  rw [htl] at hdec ⊢
  unfold decodeStrings
  rw [hdec]
  simp only [Res.bind_ok, List.cons_append]
  rw [if_neg (opcode_bits_0 ⟨x, hx⟩), if_neg (by simp), List.take_left, List.drop_left]

theorem opcode_bits_32 : ∀ x : Fin 32,
    (byte ((byte 32).val ||| x.val)).val &&& 128 ≠ 128 ∧
    (byte ((byte 32).val ||| x.val)).val &&& 192 ≠ 64 ∧
    (byte ((byte 32).val ||| x.val)).val &&& 240 ≠ 0 ∧
    (byte ((byte 32).val ||| x.val)).val &&& 240 ≠ 16 ∧
    (byte ((byte 32).val ||| x.val)).val &&& 224 = 32 := by decide

/-- The decoder on a size update of `M` at the end of a block, with the table
`T` and the fields `F` so far: the limit becomes `M` and `T` is evicted to it. -/
theorem DecodeHeaderLoop_sizeUpdate (M : Nat) (hM : M < 2 ^ 32) (T : List KeyValue) (L : Nat)
    (F : List KeyValue) (fuel : Nat) :
    DecodeHeaderLoop (fuel + 1) (sizeUpdate M) T L F = .ok (F, ⟨cutHeader T M, M⟩) := by
  obtain ⟨x, tl, hx, htl⟩ := referenceInt_head (byte 32) M (by norm_num : 5 ≤ 8)
  have hdec := decodeIntValue_referenceInt (byte 32) [] (by norm_num : 5 ≤ 8)
    (by omega : M < 2 ^ 64) (by decide)
  obtain ⟨b1, b2, b3, b4, b5⟩ := opcode_bits_32 ⟨x, hx⟩
  unfold sizeUpdate
  rw [List.append_nil] at hdec
  rw [htl] at hdec ⊢
  rw [DecodeHeaderLoop_succ, if_neg b1, if_neg b2, if_neg (by tauto), if_pos b5, hdec]
  simp only [Res.bind_ok, DecodeHeaderLoop_nil, Nat.mod_eq_of_lt hM]

theorem sizeUpdate_length_pos (M : Nat) : 0 < (sizeUpdate M).length := by
  obtain ⟨x, tl, -, htl⟩ := referenceInt_head (byte 32) M (by norm_num : 5 ≤ 8)
  unfold sizeUpdate
  rw [htl]
  simp

/-- Claim C23. Single size update: for every state `S` and every `M` below
`2^32`, `DecodeHeader` on the block that is one Dynamic Table Size Update of `M`
(leading bits `001`, `M` as a 5-bit-prefix integer) returns no fields and no
error, with `TableSizeLimit = M` and with the longest leading part of the table
of `S` whose size is at most `M`; for `M = 0` the returned table is empty. -/
theorem single_size_update (S : HpackConn) (M : Nat) (hM : M < 2 ^ 32) :
    ∃ T, DecodeHeader (sizeUpdate M) S = .ok ([], ⟨T, M⟩) ∧
      T <+: S.DynamicTable ∧ tableSize T ≤ M ∧
      (∀ p : List KeyValue, p <+: S.DynamicTable → tableSize p ≤ M → p <+: T) ∧
      (M = 0 → T = []) := by
  refine ⟨cutHeader S.DynamicTable M, ?_, cutHeaderLoop_keeps_head _ _ _, cutHeader_size_le _ _,
    ?_, ?_⟩
  · unfold DecodeHeader
    obtain ⟨k, hk⟩ := Nat.exists_eq_succ_of_ne_zero (Nat.pos_iff_ne_zero.1 (sizeUpdate_length_pos M))
    rw [hk]
    exact DecodeHeaderLoop_sizeUpdate M hM _ _ _ k
  · intro p hp hsize
    exact cutHeaderLoop_maximal _ _ 0 p hp (by omega)
  · intro h0
    subst h0
    cases hS : S.DynamicTable with
    | nil => rfl
    | cons e t =>
      have := entrySize_pos e
      unfold cutHeader
      rw [cutHeaderLoop_cons, if_pos (by simp; omega)]

theorem single_size_update_witness :
    ∃ T, DecodeHeader (sizeUpdate 63)
        ⟨[kv "location" "https://www.example.com", kv ":status" "302"], 4096⟩
        = .ok ([], ⟨T, 63⟩) ∧
      T <+: [kv "location" "https://www.example.com", kv ":status" "302"] ∧
      tableSize T ≤ 63 ∧
      (∀ p : List KeyValue, p <+: [kv "location" "https://www.example.com", kv ":status" "302"] →
        tableSize p ≤ 63 → p <+: T) ∧
      ((63 : Nat) = 0 → T = []) :=
  single_size_update ⟨[kv "location" "https://www.example.com", kv ":status" "302"], 4096⟩ 63
    (by decide)

/-- Claim C24. Decoder, literal with incremental indexing: for every state `S`,
name `n` and value `v` such that the table of `S` with `(n, v)` in front is
within the limit, `DecodeHeader` on the block `0x40`, raw string literal of `n`,
raw string literal of `v` returns the single field `(n, v)` and the table of `S`
with `(n, v)` pushed at the front; the limit is unchanged. -/
theorem decode_literal_incremental (S : HpackConn) (n v : List Byte)
    (hn : n.length < 2 ^ 63) (hv : v.length < 2 ^ 63)
    (hcap : tableSize (⟨n, v⟩ :: S.DynamicTable) ≤ S.TableSizeLimit) :
    DecodeHeader (byte 0x40 :: (rawLiteral n ++ rawLiteral v)) S
      = .ok ([⟨n, v⟩], ⟨⟨n, v⟩ :: S.DynamicTable, S.TableSizeLimit⟩) := by
  unfold DecodeHeader
  rw [List.length_cons, DecodeHeaderLoop_succ, if_neg (by decide), if_pos (by decide),
    if_pos (by decide), decodeStrings_rawLiteral n _ (by omega)]
  have h2 := decodeStrings_rawLiteral v [] (by omega)
  rw [List.append_nil] at h2
  simp only [Res.bind_ok, h2, pushFront_eq, DecodeHeaderLoop_nil, List.nil_append,
    cutHeader_of_fits _ _ hcap]

theorem decode_literal_incremental_witness :
    DecodeHeader [byte 0x40, byte 0x0a, byte 0x63, byte 0x75, byte 0x73, byte 0x74, byte 0x6f,
        byte 0x6d, byte 0x2d, byte 0x6b, byte 0x65, byte 0x79, byte 0x0d, byte 0x63, byte 0x75,
        byte 0x73, byte 0x74, byte 0x6f, byte 0x6d, byte 0x2d, byte 0x68, byte 0x65, byte 0x61,
        byte 0x64, byte 0x65, byte 0x72] ⟨[], 4096⟩
      = .ok ([kv "custom-key" "custom-header"], ⟨[kv "custom-key" "custom-header"], 4096⟩) ∧
    tableSize [kv "custom-key" "custom-header"] = 55 :=
  ⟨decode_literal_incremental ⟨[], 4096⟩ (str "custom-key") (str "custom-header")
      (by decide) (by decide) (by decide),
    by decide⟩

/-! ## Blocks without insertion, never-indexed literals, size updates after fields -/

theorem opcodesAll_cons (p : Byte → Bool) (fuel : Nat) (b0 : Byte) (tl : List Byte)
    (dyn : List KeyValue) (limit : Nat) (kvs d : List KeyValue) (l : Nat) (eB : List Byte)
    (hr : decodeRep b0 tl dyn limit = .ok (kvs, d, l, eB))
    (h : opcodesAll p (fuel + 1) (b0 :: tl) dyn limit = true) :
    p b0 = true ∧ opcodesAll p fuel eB d l = true := by
  rw [opcodesAll, hr] at h
  simpa using h

/-- A block in which the decoder meets only Indexed, without-indexing and
never-indexed representations leaves the table and the limit alone, up to the
final eviction. -/
theorem DecodeHeaderLoop_plain (fuel : Nat) :
    ∀ (enc : List Byte) (dyn : List KeyValue) (limit : Nat) (hb F : List KeyValue)
      (S1 : HpackConn), opcodesAll isPlainOpcode fuel enc dyn limit = true →
      DecodeHeaderLoop fuel enc dyn limit hb = .ok (F, S1) →
      S1 = ⟨cutHeader dyn limit, limit⟩ := by
  induction fuel with
  | zero =>
    intro enc dyn limit hb F S1 _ h
    cases enc with
    | nil =>
      rw [DecodeHeaderLoop_nil] at h
      simp only [Res.ok.injEq, Prod.mk.injEq] at h
      exact h.2.symm
    | cons b0 tl => rw [DecodeHeaderLoop] at h; simp at h
  | succ n ih =>
    intro enc dyn limit hb F S1 hcls h
    cases enc with
    | nil =>
      rw [DecodeHeaderLoop_nil] at h
      simp only [Res.ok.injEq, Prod.mk.injEq] at h
      exact h.2.symm
    | cons b0 tl =>
      rw [DecodeHeaderLoop_rep, Res.bind_eq_ok] at h
      obtain ⟨⟨kvs, d, l, eB⟩, hr, h⟩ := h
      obtain ⟨hp, hrest⟩ := opcodesAll_cons _ _ _ _ _ _ _ _ _ _ hr hcls
      obtain ⟨hd, hl⟩ := (decodeRep_ok _ _ _ _ _ _ _ _ hr).2.2.1 hp
      subst hd hl
      exact ih _ _ _ _ _ _ hrest h

/-- Claim C25. No insertion without indexing: for every state `S` and every
block in which the decoder meets only Indexed, Literal-without-Indexing and
Literal-Never-Indexed representations and which decodes without error,
`DecodeHeader` returns the limit unchanged and the table of `S` evicted to the
limit, which is the table of `S` itself when its size is within the limit. -/
theorem no_insertion_without_indexing (S : HpackConn) (enc : List Byte) (F : List KeyValue)
    (S1 : HpackConn)
    (hcls : opcodesAll isPlainOpcode enc.length enc S.DynamicTable S.TableSizeLimit = true)
    (h : DecodeHeader enc S = .ok (F, S1)) :
    S1.TableSizeLimit = S.TableSizeLimit ∧
    S1.DynamicTable = cutHeader S.DynamicTable S.TableSizeLimit ∧
    (tableSize S.DynamicTable ≤ S.TableSizeLimit → S1.DynamicTable = S.DynamicTable) := by
  have := DecodeHeaderLoop_plain _ _ _ _ _ _ _ hcls h
  subst this
  exact ⟨rfl, rfl, fun hfit => cutHeader_of_fits _ _ hfit⟩

theorem no_insertion_without_indexing_witness :
    DecodeHeader [byte 0x04, byte 0x0c, byte 0x2f, byte 0x73, byte 0x61, byte 0x6d, byte 0x70,
        byte 0x6c, byte 0x65, byte 0x2f, byte 0x70, byte 0x61, byte 0x74, byte 0x68]
        ⟨[kv "custom-key" "custom-header"], 4096⟩
      = .ok ([kv ":path" "/sample/path"], ⟨[kv "custom-key" "custom-header"], 4096⟩) ∧
    (⟨[kv "custom-key" "custom-header"], 4096⟩ : HpackConn).DynamicTable.length = 1 ∧
    (⟨[kv "custom-key" "custom-header"], 4096⟩ : HpackConn).DynamicTable
      = cutHeader [kv "custom-key" "custom-header"] (4096 : Nat) :=
  ⟨by decide, by decide,
    (no_insertion_without_indexing ⟨[kv "custom-key" "custom-header"], 4096⟩
      [byte 0x04, byte 0x0c, byte 0x2f, byte 0x73, byte 0x61, byte 0x6d, byte 0x70,
        byte 0x6c, byte 0x65, byte 0x2f, byte 0x70, byte 0x61, byte 0x74, byte 0x68]
      [kv ":path" "/sample/path"] ⟨[kv "custom-key" "custom-header"], 4096⟩
      (by decide) (by decide)).2.1⟩

theorem never_bits : ∀ o : Byte, o.val &&& 240 = 16 →
    o.val &&& 128 ≠ 128 ∧ o.val &&& 192 ≠ 64 ∧
    (byte (o.val &&& 15)).val &&& 128 ≠ 128 ∧ (byte (o.val &&& 15)).val &&& 192 ≠ 64 ∧
    (byte (o.val &&& 15)).val &&& 240 = 0 ∧
    (byte (o.val &&& 15)).val &&& 15 = o.val &&& 15 := by
  decide!

/-- Standing at an opcode octet `0001xxxx`, the decoder does what it does at
`0000xxxx`. -/
theorem DecodeHeaderLoop_never (fuel : Nat) (o : Byte) (tl : List Byte) (dyn : List KeyValue)
    (limit : Nat) (hb : List KeyValue) (ho : o.val &&& 240 = 16) :
    DecodeHeaderLoop fuel (o :: tl) dyn limit hb
      = DecodeHeaderLoop fuel (byte (o.val &&& 15) :: tl) dyn limit hb := by
  obtain ⟨h1, h2, h3, h4, h5, h6⟩ := never_bits o ho
  cases fuel with
  | zero => rw [DecodeHeaderLoop, DecodeHeaderLoop]
  | succ n =>
    have hint : decodeIntValue (o :: tl) 4 = decodeIntValue (byte (o.val &&& 15) :: tl) 4 := by
      unfold decodeIntValue
      have hm : mask8 4 = 15 := rfl
      simp only [hm, h6]
    rw [DecodeHeaderLoop_succ, DecodeHeaderLoop_succ, if_neg h1, if_neg h2, if_neg h3,
      if_neg h4, if_pos (Or.inr ho), if_pos (Or.inl h5), h6, hint]

/-- Claim C26. Never-Indexed is decoded like Without-Indexing: in a block whose
leading part `pre` decodes without error, so that the octet `o` after it is an
opcode octet, replacing the leading nibble `0001` of `o` by `0000`, keeping its
low four bits and every other octet, does not change the result of
`DecodeHeader`: fields, table, limit or error. -/
theorem never_indexed_like_without (S : HpackConn) (pre : List Byte) (o : Byte)
    (tl : List Byte) (hpre : ∃ r, DecodeHeader pre S = .ok r) (ho : o.val &&& 240 = 16) :
    DecodeHeader (pre ++ o :: tl) S = DecodeHeader (pre ++ byte (o.val &&& 15) :: tl) S := by
  obtain ⟨⟨F, S1⟩, h⟩ := hpre
  obtain ⟨T, -, hs⟩ := DecodeHeader_append pre S F S1 h
  rw [hs (o :: tl), hs (byte (o.val &&& 15) :: tl), List.length_cons, List.length_cons]
  exact DecodeHeaderLoop_never _ o tl _ _ _ ho

theorem never_indexed_like_without_witness :
    DecodeHeader ([byte 0x82] ++ byte 0x10 :: [byte 0x01, byte 0x61, byte 0x01, byte 0x62])
        ⟨[], 4096⟩
      = DecodeHeader ([byte 0x82] ++ byte ((byte 0x10).val &&& 15)
          :: [byte 0x01, byte 0x61, byte 0x01, byte 0x62]) ⟨[], 4096⟩ ∧
    DecodeHeader ([byte 0x82] ++ byte 0x10 :: [byte 0x01, byte 0x61, byte 0x01, byte 0x62])
        ⟨[], 4096⟩
      = .ok ([kv ":method" "GET", kv "a" "b"], ⟨[], 4096⟩) :=
  ⟨never_indexed_like_without ⟨[], 4096⟩ [byte 0x82] (byte 0x10)
      [byte 0x01, byte 0x61, byte 0x01, byte 0x62]
      ⟨([kv ":method" "GET"], ⟨[], 4096⟩), by decide⟩ (by decide),
    by decide⟩

/-- Claim C21, counterexample: in the block `82 20` a size update of 0 follows
the Indexed representation of `:method: GET`, and `DecodeHeader` returns the
field and no error, with the limit set to 0. -/
theorem size_update_position_counterexample :
    DecodeHeader [byte 0x82, byte 0x20] ⟨[], 4096⟩
      = .ok ([kv ":method" "GET"], ⟨[], 0⟩) ∧
    DecodeHeader [byte 0x40, byte 0x01, byte 0x61, byte 0x01, byte 0x62, byte 0x3f, byte 0xe1,
        byte 0x1f] ⟨[], 100⟩
      = .ok ([kv "a" "b"], ⟨[kv "a" "b"], 4096⟩) := by
  constructor <;> decide

/-- Claim C21, amended. The position of a size update is not checked: for every
state `S`, every block `pre` that `DecodeHeader` decodes without error to the
fields `F`, and every `M` below `2^32`, `DecodeHeader` on `pre` followed by a
Dynamic Table Size Update of `M` returns `F` without error, with
`TableSizeLimit = M`, and with the table that `pre` built evicted to `M`, where
`DecodeHeader` on `pre` alone returns that table evicted to the limit of
`pre`. -/
theorem size_update_any_position (S : HpackConn) (pre : List Byte) (F : List KeyValue)
    (S1 : HpackConn) (M : Nat) (hM : M < 2 ^ 32) (h : DecodeHeader pre S = .ok (F, S1)) :
    ∃ T, S1.DynamicTable = cutHeader T S1.TableSizeLimit ∧
      DecodeHeader (pre ++ sizeUpdate M) S = .ok (F, ⟨cutHeader T M, M⟩) := by
  obtain ⟨T, hT, hs⟩ := DecodeHeader_append pre S F S1 h
  refine ⟨T, ?_, ?_⟩
  · conv_lhs => rw [hT]
  · obtain ⟨k, hk⟩ := Nat.exists_eq_succ_of_ne_zero
      (Nat.pos_iff_ne_zero.1 (sizeUpdate_length_pos M))
    rw [hs (sizeUpdate M), hk]
    exact DecodeHeaderLoop_sizeUpdate M hM _ _ _ k

theorem size_update_any_position_witness :
    ∃ T, (⟨[kv "a" "b"], 100⟩ : HpackConn).DynamicTable = cutHeader T (100 : Nat) ∧
      DecodeHeader ([byte 0x40, byte 0x01, byte 0x61, byte 0x01, byte 0x62] ++ sizeUpdate 0)
        ⟨[], 100⟩ = .ok ([kv "a" "b"], ⟨cutHeader T (0 : Nat), 0⟩) :=
  size_update_any_position ⟨[], 100⟩ [byte 0x40, byte 0x01, byte 0x61, byte 0x01, byte 0x62]
    [kv "a" "b"] ⟨[kv "a" "b"], 100⟩ 0 (by decide) (by decide)

/-! ## Eviction: once per block in the code, per representation in the reference -/

theorem cutHeaderLoop_dropLast (limit : Int) (t : List KeyValue) :
    ∀ i, i + tableSize t > limit →
      cutHeaderLoop limit i t.dropLast = cutHeaderLoop limit i t := by
  induction t with
  | nil => intro i _; rfl
  | cons x r ih =>
    intro i h
    cases r with
    | nil =>
      rw [tableSize_cons, tableSize_nil] at h
      rw [List.dropLast_single, cutHeaderLoop_cons, if_pos (by omega)]
      rfl
    | cons y r =>
      rw [List.dropLast_cons₂, cutHeaderLoop_cons, cutHeaderLoop_cons]
      by_cases hx : i + entrySize x > limit
      · rw [if_pos hx, if_pos hx]
      · rw [if_neg hx, if_neg hx, ih (i + entrySize x) (by rw [tableSize_cons] at h; omega)]

/-- Removing oldest entries until the table fits is what `cutHeader` returns. -/
theorem evictLoop_eq_cutHeader (limit : Int) (fuel : Nat) :
    ∀ t : List KeyValue, t.length ≤ fuel → evictLoop limit fuel t = cutHeader t limit := by
  induction fuel with
  | zero =>
    intro t ht
    have : t = [] := List.length_eq_zero.1 (by omega)
    subst this
    rfl
  | succ n ih =>
    intro t ht
    rw [evictLoop]
    by_cases h : tableSize t > limit
    · rw [if_pos h, ih _ (by rw [List.length_dropLast]; omega)]
      unfold cutHeader
      exact cutHeaderLoop_dropLast limit t 0 (by omega)
    · rw [if_neg h, cutHeader_of_fits t limit (by omega)]

theorem evictOldest_eq_cutHeader (t : List KeyValue) (limit : Int) :
    evictOldest t limit = cutHeader t limit :=
  evictLoop_eq_cutHeader limit t.length t (Nat.le_refl _)

theorem cutHeaderLoop_idem (limit : Int) (t : List KeyValue) :
    ∀ i j, j ≤ i → cutHeaderLoop limit i (cutHeaderLoop limit j t) = cutHeaderLoop limit i t := by
  induction t with
  | nil => intro i j _; rfl
  | cons x r ih =>
    intro i j hij
    rw [cutHeaderLoop_cons limit j]
    by_cases hj : j + entrySize x > limit
    · rw [if_pos hj, cutHeaderLoop_cons, if_pos (by omega)]
      rfl
    · rw [if_neg hj, cutHeaderLoop_cons, cutHeaderLoop_cons, ih _ _ (by omega)]

/-- Evicting, pushing an entry and evicting again gives what pushing and
evicting once gives. -/
theorem cutHeader_cons_cutHeader (kv : KeyValue) (t : List KeyValue) (limit : Int) :
    cutHeader (kv :: cutHeader t limit) limit = cutHeader (kv :: t) limit := by
  have hpos := entrySize_pos kv
  unfold cutHeader
  rw [cutHeaderLoop_cons, cutHeaderLoop_cons, cutHeaderLoop_idem limit t _ _ (by omega)]

theorem cutHeader_cutHeader (t : List KeyValue) (limit : Int) :
    cutHeader (cutHeader t limit) limit = cutHeader t limit := by
  unfold cutHeader
  exact cutHeaderLoop_idem limit t 0 0 (le_refl _)

/-- An index that resolves in a leading part of the table resolves to the same
entry in the table, as long as the 16-bit bound does not wrap. -/
theorem decodeHeaderTable_of_prefix (i : Nat) (rdyn dyn : List KeyValue) (v : KeyValue)
    (hp : rdyn <+: dyn) (hlen : 61 + dyn.length < 65536)
    (h : decodeHeaderTable i rdyn = .ok v) : decodeHeaderTable i dyn = .ok v := by
  obtain ⟨ext, rfl⟩ := hp
  rw [List.length_append] at hlen
  unfold decodeHeaderTable at h ⊢
  rw [Nat.mod_eq_of_lt (by omega)] at h
  rw [Nat.mod_eq_of_lt (by rw [List.length_append]; omega)]
  by_cases hb : i ≤ 0 ∨ i > 61 + rdyn.length
  · rw [if_pos hb] at h; simp at h
  · rw [if_neg hb] at h
    rw [if_neg (by rw [List.length_append]; omega)]
    by_cases hs : i < 62
    · rw [if_pos hs] at h ⊢
      exact h
    · rw [if_neg hs] at h ⊢
      rw [List.getElem?_append_left (by omega)]
      exact h

/-- One representation read against a leading part of the table: against the
whole table it gives the same fields, limit and remaining octets, and the same
change of the table. -/
theorem decodeRep_of_prefix (b0 : Byte) (tl : List Byte) (rdyn dyn : List KeyValue)
    (limit : Nat) (kvs rd : List KeyValue) (l : Nat) (eB : List Byte)
    (hp : rdyn <+: dyn) (hlen : 61 + dyn.length < 65536)
    (h : decodeRep b0 tl rdyn limit = .ok (kvs, rd, l, eB)) :
    ∃ d, decodeRep b0 tl dyn limit = .ok (kvs, d, l, eB) ∧
      ((rd = rdyn ∧ d = dyn) ∨ ∃ kv, rd = kv :: rdyn ∧ d = kv :: dyn) := by
  unfold decodeRep at h ⊢
  split_ifs at h with h1 h2 h3 h4 h5 h6
  · simp only [Res.bind_eq_ok] at h
    obtain ⟨⟨i, r⟩, hi, kv, hkv, h⟩ := h
    simp only [Res.ok.injEq, Prod.mk.injEq] at h
    obtain ⟨rfl, rfl, rfl, rfl⟩ := h
    try dsimp only at hi hkv
    refine ⟨dyn, ?_, Or.inl ⟨rfl, rfl⟩⟩
    simp only [h1, if_true, hi, Res.bind_ok, decodeHeaderTable_of_prefix _ _ _ _ hp hlen hkv]
  · simp only [Res.bind_eq_ok] at h
    obtain ⟨⟨key, r1⟩, hk, ⟨value, r2⟩, hv, h⟩ := h
    simp only [Res.ok.injEq, Prod.mk.injEq] at h
    obtain ⟨rfl, rfl, rfl, rfl⟩ := h
    try dsimp only at hk hv
    refine ⟨⟨key, value⟩ :: dyn, ?_, Or.inr ⟨_, pushFront_eq _ _, rfl⟩⟩
    simp only [h1, h2, h3, if_true, if_false, hk, hv, Res.bind_ok, pushFront_eq]
  · simp only [Res.bind_eq_ok] at h
    obtain ⟨⟨i, r⟩, hi, kv, hkv, ⟨value, r2⟩, hv, h⟩ := h
    simp only [Res.ok.injEq, Prod.mk.injEq] at h
    obtain ⟨rfl, rfl, rfl, rfl⟩ := h
    try dsimp only at hi hkv hv
    refine ⟨⟨kv.Key, value⟩ :: dyn, ?_, Or.inr ⟨_, pushFront_eq _ _, rfl⟩⟩
    simp only [h1, h2, h3, if_true, if_false, hi, hv, Res.bind_ok, pushFront_eq,
      decodeHeaderTable_of_prefix _ _ _ _ hp hlen hkv]
  · simp only [Res.bind_eq_ok] at h
    obtain ⟨⟨key, r1⟩, hk, ⟨value, r2⟩, hv, h⟩ := h
    simp only [Res.ok.injEq, Prod.mk.injEq] at h
    obtain ⟨rfl, rfl, rfl, rfl⟩ := h
    try dsimp only at hk hv
    refine ⟨dyn, ?_, Or.inl ⟨rfl, rfl⟩⟩
    simp only [h1, h2, h4, h5, if_true, if_false, hk, hv, Res.bind_ok]
  · simp only [Res.bind_eq_ok] at h
    obtain ⟨⟨i, r⟩, hi, kv, hkv, ⟨value, r2⟩, hv, h⟩ := h
    simp only [Res.ok.injEq, Prod.mk.injEq] at h
    obtain ⟨rfl, rfl, rfl, rfl⟩ := h
    try dsimp only at hi hkv hv
    refine ⟨dyn, ?_, Or.inl ⟨rfl, rfl⟩⟩
    simp only [h1, h2, h4, h5, if_true, if_false, hi, hv, Res.bind_ok,
      decodeHeaderTable_of_prefix _ _ _ _ hp hlen hkv]
  · simp only [Res.bind_eq_ok] at h
    obtain ⟨⟨i, r⟩, hi, h⟩ := h
    simp only [Res.ok.injEq, Prod.mk.injEq] at h
    obtain ⟨rfl, rfl, rfl, rfl⟩ := h
    try dsimp only at hi
    refine ⟨dyn, ?_, Or.inl ⟨rfl, rfl⟩⟩
    simp only [h1, h2, h4, h6, if_true, if_false, hi, Res.bind_ok]

theorem refDecodeLoop_nil (fuel : Nat) (dyn : List KeyValue) (limit : Nat) (hb : List KeyValue) :
    refDecodeLoop fuel [] dyn limit hb = .ok (hb, ⟨dyn, limit⟩) := by
  cases fuel <;> rw [refDecodeLoop]

theorem refDecodeLoop_succ (fuel : Nat) (b0 : Byte) (tl : List Byte) (dyn : List KeyValue)
    (limit : Nat) (hb : List KeyValue) :
    refDecodeLoop (fuel + 1) (b0 :: tl) dyn limit hb =
      (decodeRep b0 tl dyn limit).bind fun r =>
        refDecodeLoop fuel r.2.2.2 (cutHeader r.2.1 r.2.2.1) r.2.2.1 (hb ++ r.1) := by
  rw [refDecodeLoop]
  simp only [evictOldest_eq_cutHeader]

/-- The code against the reference: with `rdyn`, the reference's table, a
leading part of `dyn`, the code's table, and within the limit, a run of the
reference that ends without error is matched by the code's run: same fields,
same limit, and a table that starts with the reference's table and equals it
when `rdyn` is `dyn` evicted and the block holds no size update. -/
theorem refDecodeLoop_refines (fuel : Nat) :
    ∀ (enc : List Byte) (rdyn dyn : List KeyValue) (limit : Nat) (hb F T : List KeyValue)
      (L : Nat), rdyn <+: dyn → tableSize rdyn ≤ limit →
      61 + dyn.length + enc.length < 65536 →
      refDecodeLoop fuel enc rdyn limit hb = .ok (F, ⟨T, L⟩) →
      ∃ T1, DecodeHeaderLoop fuel enc dyn limit hb = .ok (F, ⟨T1, L⟩) ∧ T <+: T1 ∧
        (rdyn = cutHeader dyn limit →
          opcodesAll notSizeUpdate fuel enc dyn limit = true → T1 = T) := by
  have hnil : ∀ (fuel : Nat) (rdyn dyn : List KeyValue) (limit : Nat) (hb F T : List KeyValue)
      (L : Nat), rdyn <+: dyn → tableSize rdyn ≤ limit →
      refDecodeLoop fuel [] rdyn limit hb = .ok (F, ⟨T, L⟩) →
      ∃ T1, DecodeHeaderLoop fuel [] dyn limit hb = .ok (F, ⟨T1, L⟩) ∧ T <+: T1 ∧
        (rdyn = cutHeader dyn limit →
          opcodesAll notSizeUpdate fuel [] dyn limit = true → T1 = T) := by
    intro fuel rdyn dyn limit hb F T L hp hsize h
    rw [refDecodeLoop_nil] at h
    simp only [Res.ok.injEq, Prod.mk.injEq, HpackConn.mk.injEq] at h
    obtain ⟨rfl, rfl, rfl⟩ := h
    refine ⟨cutHeader dyn limit, by rw [DecodeHeaderLoop_nil], ?_, fun he _ => he.symm⟩
    exact cutHeaderLoop_maximal _ _ 0 rdyn hp (by omega)
  induction fuel with
  | zero =>
    intro enc rdyn dyn limit hb F T L hp hsize hlen h
    cases enc with
    | nil => exact hnil 0 rdyn dyn limit hb F T L hp hsize h
    | cons b0 tl => rw [refDecodeLoop] at h; simp at h
  | succ n ih =>
    intro enc rdyn dyn limit hb F T L hp hsize hlen h
    cases enc with
    | nil => exact hnil (n + 1) rdyn dyn limit hb F T L hp hsize h
    | cons b0 tl =>
      rw [refDecodeLoop_succ, Res.bind_eq_ok] at h
      obtain ⟨⟨kvs, rd, l, eB⟩, hr, h⟩ := h
      try dsimp only at h
      simp only [List.length_cons] at hlen
      obtain ⟨d, hd, hcase⟩ := decodeRep_of_prefix _ _ _ _ _ _ _ _ _ hp (by omega) hr
      obtain ⟨hle, hlim, -, -⟩ := decodeRep_ok _ _ _ _ _ _ _ _ hd
      have hpre : cutHeader rd l <+: d := by
        have h1 : cutHeader rd l <+: rd := cutHeaderLoop_keeps_head _ _ _
        rcases hcase with ⟨rfl, rfl⟩ | ⟨kv, rfl, rfl⟩
        · exact h1.trans hp
        · exact h1.trans ((List.prefix_cons_inj kv).2 hp)
      have hdlen : d.length ≤ dyn.length + 1 := by
        rcases hcase with ⟨-, rfl⟩ | ⟨kv, -, rfl⟩
        · omega
        · simp
      obtain ⟨T1, hT1, hpT, heq⟩ := ih eB (cutHeader rd l) d l (hb ++ kvs) F T L hpre
        (cutHeader_size_le _ _) (by omega) h
      refine ⟨T1, ?_, hpT, ?_⟩
      · rw [DecodeHeaderLoop_rep, hd, Res.bind_ok]
        exact hT1
      · intro he hcls
        obtain ⟨hp0, hrest⟩ := opcodesAll_cons _ _ _ _ _ _ _ _ _ _ hd hcls
        have hl : l = limit := hlim hp0
        subst hl
        apply heq _ hrest
        rcases hcase with ⟨rfl, rfl⟩ | ⟨kv, rfl, rfl⟩
        · rw [he, cutHeader_cutHeader]
        · rw [he, cutHeader_cons_cutHeader]

/-- The table `encodeField` returns is the table it got, or that table with
the field in front. -/
theorem encodeField_table {lower : List Byte → List Byte}
    (f : KeyValue) (dyn : List KeyValue) (b : List Byte)
    (d : List KeyValue) (h : encodeField lower f dyn = .ok (b, d)) : d = dyn ∨ d = f :: dyn := by
  by_cases hck : lower f.Key = str "cookie"
  · rw [encodeField_cookie f dyn hck] at h
    simp only [Res.ok.injEq, Prod.mk.injEq] at h
    exact Or.inl h.2.symm
  by_cases hsck : lower f.Key = str "set-cookie"
  · rw [encodeField_set_cookie f dyn hsck] at h
    simp only [Res.ok.injEq, Prod.mk.injEq] at h
    exact Or.inl h.2.symm
  rcases hsr : searchHeaderTable dyn f with ⟨nh, ko, i⟩
  cases nh
  · cases ko
    · rw [encodeField_of_full f dyn i hck hsck hsr] at h
      simp only [Res.ok.injEq, Prod.mk.injEq] at h
      exact Or.inl h.2.symm
    · rw [encodeField_of_name f dyn i hck hsck hsr] at h
      simp only [Res.ok.injEq, Prod.mk.injEq] at h
      exact Or.inr h.2.symm
  · rw [encodeField_of_none f dyn ko i hck hsck hsr] at h
    simp only [Res.ok.injEq, Prod.mk.injEq] at h
    exact Or.inr h.2.symm

/-- When the table and all the fields of the list fit under the limit, nothing
is ever evicted, and the loop of `EncodeHeader` is the reference loop. -/
theorem refEncodeLoop_eq {lower : List Byte → List Byte} (limit : Nat) :
    ∀ (plain : List KeyValue) (dyn : List KeyValue) (acc : List Byte), plain ≠ [] →
      tableSize dyn + tableSize plain ≤ limit →
      refEncodeLoop lower limit plain dyn acc = EncodeHeaderLoop lower plain dyn acc ∧
      ∀ b d, EncodeHeaderLoop lower plain dyn acc = .ok (b, d) → tableSize d ≤ limit := by
  intro plain
  induction plain with
  | nil => intro dyn acc h; exact absurd rfl h
  | cons f rest ih =>
    intro dyn acc _ hfit
    rw [tableSize_cons] at hfit
    have hrest := tableSize_nonneg rest
    have step : ∀ b d, encodeField lower f dyn = .ok (b, d) →
        tableSize d + tableSize rest ≤ limit ∧ evictOldest d limit = d := by
      intro b d he
      have hd : tableSize d + tableSize rest ≤ limit := by
        rcases encodeField_table f dyn b d he with rfl | rfl
        · have := entrySize_pos f; omega
        · rw [tableSize_cons]; omega
      exact ⟨hd, by rw [evictOldest_eq_cutHeader, cutHeader_of_fits _ _ (by omega)]⟩
    cases he : encodeField lower f dyn with
    | error m => cases rest <;> simp [refEncodeLoop, EncodeHeaderLoop, he]
    | crash => cases rest <;> simp [refEncodeLoop, EncodeHeaderLoop, he]
    | stuck => cases rest <;> simp [refEncodeLoop, EncodeHeaderLoop, he]
    | ok p =>
      obtain ⟨b, d⟩ := p
      obtain ⟨hd, hev⟩ := step b d he
      cases rest with
      | nil =>
        rw [refEncodeLoop, EncodeHeaderLoop_single f dyn acc b d he, he, Res.bind_ok]
        simp only [refEncodeLoop, hev]
        refine ⟨trivial, ?_⟩
        intro b1 d1 h1
        simp only [Res.ok.injEq, Prod.mk.injEq] at h1
        rw [← h1.2]
        rw [tableSize_nil] at hd
        omega
      | cons g rest =>
        rw [refEncodeLoop, EncodeHeaderLoop_cons f g rest dyn acc b d he, he, Res.bind_ok]
        simp only [hev]
        exact ih d (acc ++ b) (by simp) hd

/-- Claim C22, counterexample. With limit 0, the block `40 01 61 01 62 be`
inserts `(a, b)` and then refers to index 62: the reference has evicted the
entry and reports a wrong index, `DecodeHeader` returns `(a, b)` twice. With
the table `[(a, b)]` and limit 4096, the size updates `20` and `3f e1 1f` (to 0,
then to 4096) empty the table of the reference and leave that of `DecodeHeader`
alone. With limit 0, `EncodeHeader` on `(a, b)` twice writes the index `be`
for the second field, where the reference writes the literal again. -/
theorem eviction_per_representation_counterexample :
    DecodeHeader [byte 0x40, byte 0x01, byte 0x61, byte 0x01, byte 0x62, byte 0xbe] ⟨[], 0⟩
      = .ok ([kv "a" "b", kv "a" "b"], ⟨[], 0⟩) ∧
    refDecodeHeader [byte 0x40, byte 0x01, byte 0x61, byte 0x01, byte 0x62, byte 0xbe] ⟨[], 0⟩
      = .error "decoderHeaderTable: wrong idx" ∧
    DecodeHeader [byte 0x20, byte 0x3f, byte 0xe1, byte 0x1f] ⟨[kv "a" "b"], 4096⟩
      = .ok ([], ⟨[kv "a" "b"], 4096⟩) ∧
    refDecodeHeader [byte 0x20, byte 0x3f, byte 0xe1, byte 0x1f] ⟨[kv "a" "b"], 4096⟩
      = .ok ([], ⟨[], 4096⟩) ∧
    EncodeHeader asciiToLower [kv "a" "b", kv "a" "b"] ⟨[], 0⟩
      = .ok ([byte 0x40, byte 0x81, byte 0x1f, byte 0x81, byte 0x8f, byte 0xbe], ⟨[], 0⟩) ∧
    refEncodeHeader asciiToLower [kv "a" "b", kv "a" "b"] ⟨[], 0⟩
      = .ok ([byte 0x40, byte 0x81, byte 0x1f, byte 0x81, byte 0x8f,
          byte 0x40, byte 0x81, byte 0x1f, byte 0x81, byte 0x8f], ⟨[], 0⟩) := by
  refine ⟨by decide, by decide, by decide, by decide, by decide!, by decide!⟩

/-! ## Restricted round trips, lookup against resolve, the empty header list -/

/-- Claim C31. Restricted codec round trip: for every state `S` with `k` table
entries, whatever its limit, and every non-empty list `L` of fields such that no
name is `cookie` or `set-cookie` ignoring case, every name and every value is
non-empty (and shorter than `2^60` octets), and `61 + k + len(L) < 65536`:
`EncodeHeader(L, S)` returns octets and a state without error, and
`DecodeHeader` on those octets from the same `S` returns exactly `L` without
error, with that same state. Ignoring case is what the encoder itself tests,
`strings.ToLower` of the name against `cookie` and `set-cookie`; the library
function is `lower` and the theorem holds whatever it returns. -/
theorem restricted_codec_roundtrip (lower : List Byte → List Byte)
    (L : List KeyValue) (S : HpackConn) (hL : L ≠ [])
    (hck : ∀ f ∈ L, lower f.Key ≠ str "cookie" ∧ lower f.Key ≠ str "set-cookie")
    (hne : ∀ f ∈ L, f.Key ≠ [] ∧ f.Value ≠ [])
    (hlen : ∀ f ∈ L, f.Key.length < 2 ^ 60 ∧ f.Value.length < 2 ^ 60)
    (htab : 61 + S.DynamicTable.length + L.length < 65536) :
    ∃ bytes Se, EncodeHeader lower L S = .ok (bytes, Se) ∧
      DecodeHeader bytes S = .ok (L, Se) := by
  obtain ⟨bytes, dyn1, henc, hdec⟩ := loops_roundtrip L hL S.DynamicTable [] hne hlen
    (fun f hf => ⟨fun h => absurd h (hck f hf).1, fun h => absurd h (hck f hf).2⟩) htab
  refine ⟨bytes, ⟨cutHeader dyn1 S.TableSizeLimit, S.TableSizeLimit⟩, ?_, ?_⟩
  · unfold EncodeHeader
    rw [henc]
    rfl
  · unfold DecodeHeader
    rw [hdec bytes.length S.TableSizeLimit [] (le_refl _)]
    rfl

theorem restricted_codec_roundtrip_witness :
    ∃ bytes Se, EncodeHeader asciiToLower [kv "x-a" "1", kv "x-a" "1", kv "x-b" "2"]
        ⟨[kv "x-c" "3"], 0⟩ = .ok (bytes, Se) ∧
      DecodeHeader bytes ⟨[kv "x-c" "3"], 0⟩
        = .ok ([kv "x-a" "1", kv "x-a" "1", kv "x-b" "2"], Se) :=
  restricted_codec_roundtrip asciiToLower [kv "x-a" "1", kv "x-a" "1", kv "x-b" "2"]
    ⟨[kv "x-c" "3"], 0⟩ (by simp) (by decide) (by decide) (by decide) (by decide)

/-- Claim C32. Restricted string-literal round trip with framing: for every
string `s` (shorter than `2^60` octets), flag `h` and trailing octets `rest`
such that `h` is false or `s` is non-empty, `encodeStrings([], s, h)` returns
octets without error and `decodeStrings` on them followed by `rest` returns `s`,
no error, and the remainder exactly `rest`. -/
theorem restricted_string_roundtrip (s rest : List Byte) (h : Bool)
    (hs : h = false ∨ s ≠ []) (hl : s.length < 2 ^ 60) :
    ∃ e, encodeStrings [] s h = .ok e ∧ decodeStrings (e ++ rest) = .ok (s, rest) := by
  cases h with
  | false =>
    refine ⟨intBytes (byte 0) 7 s.length ++ s, ?_, decodeStrings_raw s rest (by omega)⟩
    rw [encodeStrings_raw, List.nil_append]
  | true =>
    have hne : s ≠ [] := by
      rcases hs with h0 | h0
      · exact absurd h0 (by decide)
      · exact h0
    refine ⟨intBytes (byte 128) 7 (BinToByte (huffmanBits s)).length ++ BinToByte (huffmanBits s),
      ?_, decodeStrings_huf s rest hne hl⟩
    rw [encodeStrings_huf, List.nil_append]

theorem restricted_string_roundtrip_witness :
    ∃ e, encodeStrings [] (str "no-cache") true = .ok e ∧
      decodeStrings (e ++ [byte 0x82]) = .ok (str "no-cache", [byte 0x82]) :=
  restricted_string_roundtrip (str "no-cache") [byte 0x82] true (Or.inr (by decide)) (by decide)

/-- What the three answers of `searchHeaderTable` exclude: a name-only match
means no entry of either table equals the field in name and value, and no match
means no entry of either table has the name, with the index 0. -/
theorem searchHeaderTable_excludes (d : List KeyValue) (f : KeyValue) :
    (∀ i, searchHeaderTable d f = (false, true, i) →
      (∀ v ∈ d, ¬ (v.Key = f.Key ∧ v.Value = f.Value)) ∧
      (∀ v ∈ staticHeaderTable, ¬ (v.Key = f.Key ∧ v.Value = f.Value))) ∧
    (∀ b i, searchHeaderTable d f = (true, b, i) →
      (∀ v ∈ d, v.Key ≠ f.Key) ∧ (∀ v ∈ staticHeaderTable, v.Key ≠ f.Key) ∧
      b = false ∧ i = 0) := by
  have hfull : ∀ (l : List KeyValue),
      rangeFind (fun v => decide (v.Key = f.Key ∧ v.Value = f.Value)) l 0 = none →
      ∀ v ∈ l, ¬ (v.Key = f.Key ∧ v.Value = f.Value) := by
    intro l h v hv
    simpa using rangeFind_eq_none _ l 0 h v hv
  have hname : ∀ (l : List KeyValue),
      rangeFind (fun v => decide (v.Key = f.Key)) l 0 = none → ∀ v ∈ l, v.Key ≠ f.Key := by
    intro l h v hv
    simpa using rangeFind_eq_none _ l 0 h v hv
  unfold searchHeaderTable
  cases h1 : rangeFind (fun v => decide (v.Key = f.Key ∧ v.Value = f.Value)) d 0 with
  | some c => constructor <;> (intros; simp_all)
  | none =>
    cases h2 : rangeFind (fun v => decide (v.Key = f.Key ∧ v.Value = f.Value))
        staticHeaderTable 0 with
    | some c => constructor <;> (intros; simp_all)
    | none =>
      cases h3 : rangeFind (fun v => decide (v.Key = f.Key)) d 0 with
      | some c =>
        constructor
        · intro i _
          exact ⟨hfull d h1, hfull _ h2⟩
        · intro b i h
          simp at h
      | none =>
        cases h4 : rangeFind (fun v => decide (v.Key = f.Key)) staticHeaderTable 0 with
        | some c =>
          constructor
          · intro i _
            exact ⟨hfull d h1, hfull _ h2⟩
          · intro b i h
            simp at h
        | none =>
          constructor
          · intro i h
            simp at h
          · intro b i h
            simp only [Prod.mk.injEq, true_and] at h
            exact ⟨hname d h3, hname _ h4, h.1.symm, h.2.symm⟩

/-- Claim C33. Lookup and Resolve agree: for every table `d` with
`61 + len(d) < 65536` and every field `f`, a full match at `i` means
`decodeHeaderTable(i, d)` returns `f`; a name-only match at `i` means it returns
an entry with the name of `f`, and no entry of either table equals `f` in name
and value; no match means no entry of either table has the name of `f`, and the
index returned is 0. -/
theorem lookup_resolve_agree (d : List KeyValue) (f : KeyValue)
    (hd : 61 + d.length < 65536) :
    (∀ i, searchHeaderTable d f = (false, false, i) → decodeHeaderTable i d = .ok f) ∧
    (∀ i, searchHeaderTable d f = (false, true, i) →
      (∃ v, decodeHeaderTable i d = .ok v ∧ v.Key = f.Key) ∧
      (∀ v ∈ d, ¬ (v.Key = f.Key ∧ v.Value = f.Value)) ∧
      (∀ v ∈ staticHeaderTable, ¬ (v.Key = f.Key ∧ v.Value = f.Value))) ∧
    (∀ b i, searchHeaderTable d f = (true, b, i) →
      (∀ v ∈ d, v.Key ≠ f.Key) ∧ (∀ v ∈ staticHeaderTable, v.Key ≠ f.Key) ∧ i = 0) := by
  obtain ⟨hx1, hx2⟩ := searchHeaderTable_excludes d f
  refine ⟨fun i h => (search_full_resolves d f i hd h).2.2, ?_, ?_⟩
  · intro i h
    exact ⟨(search_name_resolves d f i hd h).2.2, hx1 i h⟩
  · intro b i h
    obtain ⟨h1, h2, -, h4⟩ := hx2 b i h
    exact ⟨h1, h2, h4⟩

theorem lookup_resolve_agree_witness :
    searchHeaderTable [kv "x" "y"] (kv ":status" "600") = (false, true, 8) ∧
    ∃ v, decodeHeaderTable 8 [kv "x" "y"] = .ok v ∧ v.Key = (kv ":status" "600").Key :=
  ⟨by decide,
    ((lookup_resolve_agree [kv "x" "y"] (kv ":status" "600") (by decide)).2.1 8
      (by decide)).1⟩

/-- Every field is written without error and without a run-time failure. -/
theorem encodeField_ok {lower : List Byte → List Byte} (f : KeyValue) (dyn : List KeyValue) :
    ∃ b d, encodeField lower f dyn = .ok (b, d) := by
  by_cases hck : lower f.Key = str "cookie"
  · exact ⟨_, _, encodeField_cookie f dyn hck⟩
  by_cases hsck : lower f.Key = str "set-cookie"
  · exact ⟨_, _, encodeField_set_cookie f dyn hsck⟩
  rcases hsr : searchHeaderTable dyn f with ⟨nh, ko, i⟩
  cases nh
  · cases ko
    · exact ⟨_, _, encodeField_of_full f dyn i hck hsck hsr⟩
    · exact ⟨_, _, encodeField_of_name f dyn i hck hsck hsr⟩
  · exact ⟨_, _, encodeField_of_none f dyn ko i hck hsck hsr⟩

/-- On a non-empty header list `EncodeHeader` returns octets and a state. -/
theorem EncodeHeader_ok_of_ne_nil {lower : List Byte → List Byte}
    (plain : List KeyValue) (S : HpackConn) (h : plain ≠ []) :
    ∃ b S1, EncodeHeader lower plain S = .ok (b, S1) := by
  have loop : ∀ (plain : List KeyValue), plain ≠ [] → ∀ (dyn : List KeyValue) (acc : List Byte),
      ∃ b d, EncodeHeaderLoop lower plain dyn acc = .ok (b, d) := by
    intro plain
    induction plain with
    | nil => intro h; exact absurd rfl h
    | cons f rest ih =>
      intro _ dyn acc
      obtain ⟨b, d, he⟩ := encodeField_ok f dyn
      cases rest with
      | nil => exact ⟨_, _, EncodeHeaderLoop_single f dyn acc b d he⟩
      | cons g rest =>
        rw [EncodeHeaderLoop_cons f g rest dyn acc b d he]
        exact ih (by simp) d (acc ++ b)
  obtain ⟨b, d, hl⟩ := loop plain h S.DynamicTable []
  unfold EncodeHeader
  rw [hl]
  exact ⟨_, _, rfl⟩

/-- Claim C34 at its failing input: on the empty header list `EncodeHeader`
reads `plainBuffer[0]` before any test of the length and fails at run time; it
does not return the empty octet sequence. -/
theorem EncodeHeader_empty_list_panics (lower : List Byte → List Byte)
    (S : HpackConn) : EncodeHeader lower [] S = .crash := by
  rfl

/-! ## Prefix widths, frame headers, the DATA type test -/

/-- A prefix width above 8 is refused by both integer routines, whatever the
buffer and the value are. -/
theorem intValue_wide_prefix_refused (original : List Byte) (n value : Nat) (hn : n > 8) :
    decodeIntValue original n = .error "bad n" ∧
    encodeIntValue original n value = .error "bad n" := by
  unfold decodeIntValue encodeIntValue
  simp only [if_pos hn, and_self]

/-- With the prefix width 0 `decodeIntValue` never returns an error. -/
theorem decodeIntValue_zero_width_no_error (original : List Byte) (msg : String) :
    decodeIntValue original 0 ≠ .error msg :=
  decodeIntValue_ne_error original (by decide) msg

/-- With the prefix width 0 `encodeIntValue` never returns an error. -/
theorem encodeIntValue_zero_width_no_error (original : List Byte) (value : Nat) (msg : String) :
    encodeIntValue original 0 value ≠ .error msg := by
  unfold encodeIntValue
  rw [if_neg (by decide)]
  cases original.getLast? with
  | none => simp
  | some last =>
    dsimp only
    split_ifs <;> simp

/-- Claim C36 as stated fails: the test of the prefix width is `n > 8` only, so
the width 0 is accepted. `decodeIntValue` on the octets `00 05` with
width 0 returns the value 5 and no error, and `encodeIntValue` of 5 with width 0
on the buffer `00` returns the octets `00 05` and no error. -/
theorem prefix_width_zero_accepted :
    decodeIntValue [byte 0, byte 5] 0 = .ok (5, []) ∧
    encodeIntValue [byte 0] 0 5 = .ok [byte 0, byte 5] := by
  constructor <;> decide

/-- The length and stream identifier `ReadFrame` computes: the shifts are taken
in 8 bits, so only the last octet of each field survives. -/
theorem ReadFrame_fields (b0 b1 b2 b3 b4 b5 b6 b7 b8 : Byte) (rest : List Byte)
    (f : Framer) (payload remain : List Byte)
    (h : ReadFrame (b0 :: b1 :: b2 :: b3 :: b4 :: b5 :: b6 :: b7 :: b8 :: rest)
      = .ok (f, payload, remain)) :
    f.Length = b2.val ∧ f.FType = b3.val ∧ f.Flags = b4.val ∧ f.StreamID = b8.val := by
  have hsh : ∀ (x : Byte) (k : Nat), 8 ≤ k → (x.val <<< k) % 256 = 0 := by
    intro x k hk
    rw [Nat.shiftLeft_eq]
    obtain ⟨j, rfl⟩ := Nat.exists_eq_add_of_le hk
    have hx : x.val * 2 ^ (8 + j) = 256 * (x.val * 2 ^ j) := by
      rw [pow_add]
      ring
    rw [hx, Nat.mul_mod_right]
  have hb8 : b8.val &&& (2 ^ 31 - 1) = b8.val := by
    have h8 : b8.val < 2 ^ 31 := lt_of_lt_of_le b8.isLt (by norm_num)
    have : b8.val &&& (2 ^ 31 - 1) = b8.val % 2 ^ 31 := Nat.and_pow_two_sub_one_eq_mod _ 31
    rw [this, Nat.mod_eq_of_lt h8]
  unfold ReadFrame at h
  rw [if_neg (by simp)] at h
  simp only [hsh b0 16 (by decide), hsh b1 8 (by decide), hsh b5 24 (by decide),
    hsh b6 16 (by decide), hsh b7 8 (by decide), Nat.zero_or, hb8] at h
  split_ifs at h
  simp only [Res.ok.injEq, Prod.mk.injEq] at h
  obtain ⟨hf, -, -⟩ := h
  subst hf
  exact ⟨rfl, rfl, rfl, rfl⟩

/-- Claim C37 at its failing input: the nine octets `00 01 00 00 00 00 00 00 00`
announce the length 256 and carry no payload, yet `ReadFrame` returns a frame of
length 0 with an empty payload instead of NotEnoughByte; and on
`00 00 00 00 00 00 00 01 00` the stream identifier 256 is read as 0. -/
theorem ReadFrame_drops_high_octets :
    frameLength (byte 0) (byte 1) (byte 0) = 256 ∧
    ReadFrame [byte 0, byte 1, byte 0, byte 0, byte 0, byte 0, byte 0, byte 0, byte 0]
      = .ok (⟨0, 0, 0, 0⟩, [], []) ∧
    frameStreamID (byte 0) (byte 0) (byte 1) (byte 0) = 256 ∧
    ReadFrame [byte 0, byte 0, byte 0, byte 0, byte 0, byte 0, byte 0, byte 1, byte 0]
      = .ok (⟨0, 0, 0, 0⟩, [], []) := by
  refine ⟨by decide, by decide, by decide, by decide⟩

/-- The type test of `ParseData` never fires: `FType & FrameData` is `FType & 0`. -/
theorem ParseData_type_test_dead (f : Framer) (b : List Byte) :
    ParseData f b ≠ .error "This is not DATA frame." := by
  unfold ParseData
  have h0 : ¬ (f.FType &&& FrameData ≠ 0) := by
    simp [FrameData]
  rw [if_neg h0]
  dsimp only
  split_ifs
  · cases b with
    | nil => simp
    | cons b0 tl =>
      dsimp only
      split_ifs <;> simp
  · simp

/-- Claim C38 at its failing input: a frame header of type HEADERS (`FType` 1)
with the payload `61` is taken by `ParseData` as a DATA frame; the content `61`
is returned and no error. -/
theorem ParseData_accepts_other_type :
    (⟨1, 1, 0, 1⟩ : Framer).FType ≠ FrameData ∧
    ParseData ⟨1, 1, 0, 1⟩ [byte 0x61] = .ok ⟨false, [byte 0x61]⟩ := by
  constructor <;> decide

/-! ## The opcode dispatch of `DecodeHeader` is exhaustive -/

theorem Res.bind_ne_error {α β : Type} (r : Res α) (f : α → Res β) (m : String)
    (hr : r ≠ .error m) (hf : ∀ a, r = .ok a → f a ≠ .error m) : r.bind f ≠ .error m := by
  cases r with
  | ok a => simpa using hf a rfl
  | error m1 =>
    simp only [Res.bind_error]
    intro h
    simp only [Res.error.injEq] at h
    exact hr (by rw [h])
  | crash => simp
  | stuck => simp

/-- The five tests of the dispatch cover every octet. -/
theorem opcode_cases (b : Byte) :
    b.val &&& 128 = 128 ∨ b.val &&& 192 = 64 ∨ b.val &&& 240 = 0 ∨ b.val &&& 240 = 16 ∨
      b.val &&& 224 = 32 := by
  revert b
  decide!

theorem decodeHuffmanLoop_ne_cant (B : List Bin) (fuel : Nat) :
    ∀ (cur s : Nat) (acc : List Byte),
      decodeHuffmanLoop B fuel cur s acc ≠ .error "DecodeHeader: can't decode" := by
  induction fuel with
  | zero =>
    intro cur s acc
    rw [decodeHuffmanLoop]
    simp
  | succ n ih =>
    intro cur s acc
    rw [decodeHuffmanLoop_succ]
    split
    · split
      · exact ih _ _ _
      · split
        · intro h
          simp only [Res.error.injEq] at h
          exact absurd h (by decide)
        · exact ih _ _ _
    · simp

theorem decodeHuffmanStrings_ne_cant (encoded : List Byte) :
    decodeHuffmanStrings encoded ≠ .error "DecodeHeader: can't decode" := by
  unfold decodeHuffmanStrings
  apply Res.bind_ne_error
  · exact decodeHuffmanLoop_ne_cant _ _ _ _ _
  · rintro ⟨sChar, strByte⟩ _
    simp only
    split_ifs
    · intro h
      simp only [Res.error.injEq] at h
      exact absurd h (by decide)
    · intro h
      simp only [Res.error.injEq] at h
      exact absurd h (by decide)
    · simp

theorem decodeStrings_ne_cant (original : List Byte) :
    decodeStrings original ≠ .error "DecodeHeader: can't decode" := by
  unfold decodeStrings
  have hne : ∀ m, decodeIntValue original 7 ≠ .error m :=
    fun m => decodeIntValue_ne_error original (by decide) m
  cases hd : decodeIntValue original 7 with
  | error m => exact absurd hd (hne m)
  | crash => simp
  | stuck => simp
  | ok a =>
    obtain ⟨l, rb⟩ := a
    simp only [Res.bind_ok]
    cases original with
    | nil => simp
    | cons b0 tl =>
      simp only
      split
      · split
        · simp
        · exact Res.bind_ne_error _ _ _ (decodeHuffmanStrings_ne_cant _) (by intro a _; simp)
      · split <;> simp

theorem decodeHeaderTable_ne_cant (idx : Nat) (d : List KeyValue) :
    decodeHeaderTable idx d ≠ .error "DecodeHeader: can't decode" := by
  unfold decodeHeaderTable
  split
  · intro h
    simp only [Res.error.injEq] at h
    exact absurd h (by decide)
  · split
    · split <;> simp
    · split <;> simp

/-- One pass of the loop of `DecodeHeader` never gives the error of the
dispatch. -/
theorem decodeRep_ne_cant (b0 : Byte) (tl : List Byte) (dyn : List KeyValue) (limit : Nat) :
    decodeRep b0 tl dyn limit ≠ .error "DecodeHeader: can't decode" := by
  have hint : ∀ l n, n ≤ 8 → decodeIntValue l n ≠ .error "DecodeHeader: can't decode" :=
    fun l n hn => decodeIntValue_ne_error l hn _
  unfold decodeRep
  split_ifs with h1 h2 h63 h3 h15 h6
  · refine Res.bind_ne_error _ _ _ (hint _ _ (by decide)) ?_
    rintro ⟨i, eB⟩ _
    exact Res.bind_ne_error _ _ _ (decodeHeaderTable_ne_cant _ _) (by intro a _; simp)
  · refine Res.bind_ne_error _ _ _ (decodeStrings_ne_cant _) ?_
    rintro ⟨key, eB⟩ _
    exact Res.bind_ne_error _ _ _ (decodeStrings_ne_cant _) (by intro a _; simp)
  · refine Res.bind_ne_error _ _ _ (hint _ _ (by decide)) ?_
    rintro ⟨i, eB⟩ _
    refine Res.bind_ne_error _ _ _ (decodeHeaderTable_ne_cant _ _) ?_
    intro kv _
    exact Res.bind_ne_error _ _ _ (decodeStrings_ne_cant _) (by intro a _; simp)
  · refine Res.bind_ne_error _ _ _ (decodeStrings_ne_cant _) ?_
    rintro ⟨key, eB⟩ _
    exact Res.bind_ne_error _ _ _ (decodeStrings_ne_cant _) (by intro a _; simp)
  · refine Res.bind_ne_error _ _ _ (hint _ _ (by decide)) ?_
    rintro ⟨i, eB⟩ _
    refine Res.bind_ne_error _ _ _ (decodeHeaderTable_ne_cant _ _) ?_
    intro kv _
    exact Res.bind_ne_error _ _ _ (decodeStrings_ne_cant _) (by intro a _; simp)
  · exact Res.bind_ne_error _ _ _ (hint _ _ (by decide)) (by intro a _; simp)
  · exfalso
    rcases opcode_cases b0 with h | h | h | h | h
    · exact h1 h
    · exact h2 h
    · exact h3 (Or.inl h)
    · exact h3 (Or.inr h)
    · exact h6 h

theorem DecodeHeaderLoop_ne_cant (fuel : Nat) :
    ∀ (enc : List Byte) (dyn : List KeyValue) (limit : Nat) (hb : List KeyValue),
      DecodeHeaderLoop fuel enc dyn limit hb ≠ .error "DecodeHeader: can't decode" := by
  induction fuel with
  | zero =>
    intro enc dyn limit hb
    cases enc with
    | nil => rw [DecodeHeaderLoop_nil]; simp
    | cons b0 tl => rw [DecodeHeaderLoop]; simp
  | succ k ih =>
    intro enc dyn limit hb
    cases enc with
    | nil => rw [DecodeHeaderLoop_nil]; simp
    | cons b0 tl =>
      rw [DecodeHeaderLoop_rep]
      exact Res.bind_ne_error _ _ _ (decodeRep_ne_cant _ _ _ _) (fun r _ => ih _ _ _ _)

/-- Claim C35. Opcode dispatch is exhaustive: for every octet `b` at least one
of the dispatch conditions of the decoder holds (`b & 128 = 128`,
`b & 192 = 64`, `b & 240 = 0`, `b & 240 = 16`, `b & 224 = 32`), and for no input
and no state does `DecodeHeader` return the error "DecodeHeader: can't decode". -/
theorem dispatch_exhaustive :
    (∀ b : Byte, b.val &&& 128 = 128 ∨ b.val &&& 192 = 64 ∨ b.val &&& 240 = 0 ∨
      b.val &&& 240 = 16 ∨ b.val &&& 224 = 32) ∧
    ∀ (enc : List Byte) (S : HpackConn),
      DecodeHeader enc S ≠ .error "DecodeHeader: can't decode" :=
  ⟨opcode_cases, fun _ _ => DecodeHeaderLoop_ne_cant _ _ _ _ _⟩

/-! ## The two Huffman tables against each other -/

/-- The decode table maps the number of the code of `c` to `c` and the length of
the code. -/
theorem decodeTable_lookup_code (c : Byte) :
    huffmanDecodeTable.lookup (BinToUint32 (huffmanCode c))
      = some ⟨c, (huffmanCode c).length⟩ := by
  obtain ⟨v, hv⟩ := lookup_isSome_of_mem _ _ _ (entry_mem c)
  have hmem := lookup_mem _ _ _ hv
  have hb : v.b = c := by
    rcases codePair _ _ hmem (entry_mem c) with h | h
    · exact Fin.ext h
    · exact absurd rfl h.1
  have hl := (entry_eq _ _ hmem).2
  rw [hv]
  cases v with
  | mk vb vl =>
    simp only at hb hl
    subst hb
    rw [hl]

/-- Claim C39. The two Huffman tables are inverse: for every octet value `b`
the code `huffmanEncodeTable[b]` has length `L` between 5 and 30, and
`huffmanDecodeTable` maps the numeric value `BinToUint32(huffmanEncodeTable[b])`
to exactly `(b, L)`; conversely every one of the 256 entries of
`huffmanDecodeTable` arises this way, and there is no entry for the 30-bit EOS
code `0x3fffffff`. -/
theorem huffman_tables_inverse :
    (∀ b : Byte, (b, huffmanCode b) ∈ huffmanEncodeTable ∧
      5 ≤ (huffmanCode b).length ∧ (huffmanCode b).length ≤ 30 ∧
      huffmanDecodeTable.lookup (BinToUint32 (huffmanCode b))
        = some ⟨b, (huffmanCode b).length⟩) ∧
    huffmanDecodeTable.length = 256 ∧
    (∀ (k : Nat) (v : huffman), (k, v) ∈ huffmanDecodeTable →
      k = BinToUint32 (huffmanCode v.b) ∧ v.codeLen = (huffmanCode v.b).length) ∧
    huffmanDecodeTable.lookup 0x3fffffff = none ∧
    (∀ v : huffman, (0x3fffffff, v) ∉ huffmanDecodeTable) := by
  have hnone : huffmanDecodeTable.lookup 0x3fffffff = none := by decide!
  refine ⟨fun b => ⟨code_mem b, (code_length b).1, (code_length b).2,
    decodeTable_lookup_code b⟩, by decide!, entry_eq, hnone, ?_⟩
  intro v hv
  obtain ⟨w, hw⟩ := lookup_isSome_of_mem _ _ _ hv
  rw [hnone] at hw
  exact absurd hw (by simp)

theorem huffman_tables_inverse_witness :
    (0x1ff8, (⟨byte 0, 13⟩ : huffman)) ∈ huffmanDecodeTable ∧
    0x1ff8 = BinToUint32 (huffmanCode (byte 0)) ∧ 13 = (huffmanCode (byte 0)).length :=
  ⟨by decide!, huffman_tables_inverse.2.2.1 0x1ff8 ⟨byte 0, 13⟩ (by decide!)⟩

/-- Claim C40. The Huffman code is prefix-free and padding-safe: for all
distinct octet values `a` and `b`, `huffmanEncodeTable[a]` is not a prefix of
`huffmanEncodeTable[b]`; no code in the table consists only of one-bits; and a
run of up to 7 padding one-bits, or of up to 30 one-bits (a leading part of the
EOS code, or the EOS code), never passes the test by which the decoder
recognises a symbol. -/
theorem huffman_code_separated :
    (∀ a b : Byte, a ≠ b → ¬ (huffmanCode a <+: huffmanCode b)) ∧
    (∀ (b : Byte) (l : Nat), huffmanCode b ≠ List.replicate l One) ∧
    (∀ l : Nat, l ≤ 7 → huffmanLookup (BinToUint32 (List.replicate l One)) l = none) ∧
    (∀ l : Nat, l ≤ 30 → huffmanLookup (BinToUint32 (List.replicate l One)) l = none) := by
  refine ⟨?_, ?_, fun l hl => huffmanLookup_ones l (by omega), huffmanLookup_ones⟩
  · intro a b hab hp
    have hle : (huffmanCode a).length ≤ (huffmanCode b).length := hp.length_le
    have htake : (huffmanCode b).take (huffmanCode a).length = huffmanCode a :=
      (List.prefix_iff_eq_take.1 hp).symm
    have ha := huffmanLookup_code a
    rcases Nat.lt_or_ge (huffmanCode a).length (huffmanCode b).length with hlt | hge
    · have hn := huffmanLookup_proper b (huffmanCode a).length hlt
      rw [htake, ha] at hn
      exact absurd hn (by simp)
    · have hlen : (huffmanCode a).length = (huffmanCode b).length := le_antisymm hle hge
      have heq : huffmanCode a = huffmanCode b := by
        rw [← htake, hlen, List.take_length]
      have hb := huffmanLookup_code b
      rw [← heq, ha] at hb
      exact hab (Option.some.inj hb)
  · intro b l h
    have hlen : (huffmanCode b).length = l := by
      rw [h, List.length_replicate]
    have hl : l ≤ 30 := by
      have := (code_length b).2
      omega
    have hc := huffmanLookup_code b
    rw [hlen, h, huffmanLookup_ones l hl] at hc
    exact absurd hc (by simp)

theorem huffman_code_separated_witness :
    byte 0x61 ≠ byte 0x62 ∧ ¬ (huffmanCode (byte 0x61) <+: huffmanCode (byte 0x62)) :=
  ⟨by decide, huffman_code_separated.1 (byte 0x61) (byte 0x62) (by decide)⟩

/-! ## The encoder at the inputs of the integer and padding slips; prefix widths -/

/-- Claim C9 at its failing input: with a dynamic table of 193 entries whose last
entry is the field `(c, d)`, the lookup reports a full match at index 254, and
`EncodeHeader` writes `ff ff 00`. The Indexed representation of 254, the index
as a 7-bit-prefix integer behind the high bit, is `ff 7f`: the loop of
`encodeIntValue` leaves on `v < 127`, so the remainder 127 gets a second
octet. -/
theorem encode_full_match_index_254 :
    searchHeaderTable (List.replicate 192 (kv "a" "b") ++ [kv "c" "d"]) (kv "c" "d")
      = (false, false, 254) ∧
    EncodeHeader asciiToLower [kv "c" "d"]
        ⟨List.replicate 192 (kv "a" "b") ++ [kv "c" "d"], 65536⟩
      = .ok ([byte 0xff, byte 0xff, byte 0x00],
          ⟨List.replicate 192 (kv "a" "b") ++ [kv "c" "d"], 65536⟩) ∧
    referenceInt (byte 0x80) 7 254 = [byte 0xff, byte 0x7f] := by
  refine ⟨by decide!, by decide!, by decide⟩

/-- Claim C10 at its failing input: for the field `(:path, "")` the lookup
reports a name match at index 4, and `EncodeHeader` writes `44 81 7f`: after the
index octet comes a literal of one payload octet, `7f`, where the Huffman coding
of the empty value has no octet (`44 80`). The octets are those written for
`(:path, "9")`, and `DecodeHeader` reads them back as `(:path, "9")`. -/
theorem encode_name_match_empty_value :
    searchHeaderTable [] (kv ":path" "") = (false, true, 4) ∧
    EncodeHeader asciiToLower [kv ":path" ""] ⟨[], 4096⟩
      = .ok ([byte 0x44, byte 0x81, byte 0x7f], ⟨[kv ":path" ""], 4096⟩) ∧
    EncodeHeader asciiToLower [kv ":path" "9"] ⟨[], 4096⟩
      = .ok ([byte 0x44, byte 0x81, byte 0x7f], ⟨[kv ":path" "9"], 4096⟩) ∧
    DecodeHeader [byte 0x44, byte 0x81, byte 0x7f] ⟨[], 4096⟩
      = .ok ([kv ":path" "9"], ⟨[kv ":path" "9"], 4096⟩) := by
  refine ⟨by decide, by decide, by decide, by decide⟩

/-- Claim C11 at its failing input: the name `x` occurs in neither table, and for
the field `(x, "")` `EncodeHeader` writes `40 81 f3 81 7f`: the literal of the
value has one payload octet, `7f`, where the Huffman coding of the empty value
has no octet (`40 81 f3 80`). The octets are those written for `(x, "9")`, and
`DecodeHeader` reads them back as `(x, "9")`. -/
theorem encode_no_match_empty_value :
    searchHeaderTable [] (kv "x" "") = (true, false, 0) ∧
    EncodeHeader asciiToLower [kv "x" ""] ⟨[], 4096⟩
      = .ok ([byte 0x40, byte 0x81, byte 0xf3, byte 0x81, byte 0x7f], ⟨[kv "x" ""], 4096⟩) ∧
    EncodeHeader asciiToLower [kv "x" "9"] ⟨[], 4096⟩
      = .ok ([byte 0x40, byte 0x81, byte 0xf3, byte 0x81, byte 0x7f], ⟨[kv "x" "9"], 4096⟩) ∧
    DecodeHeader [byte 0x40, byte 0x81, byte 0xf3, byte 0x81, byte 0x7f] ⟨[], 4096⟩
      = .ok ([kv "x" "9"], ⟨[kv "x" "9"], 4096⟩) := by
  refine ⟨by decide, by decide, by decide, by decide⟩

/-- Claim C12 at its failing input: for the field `(cookie, "")` `EncodeHeader`
writes `0f 11 81 7f`: after the index 32 comes a literal of one payload octet,
`7f`, where the Huffman coding of the empty value has no octet (`0f 11 80`). The
octets are those written for `(cookie, "9")`, and `DecodeHeader` reads them back
as `(cookie, "9")`. -/
theorem encode_cookie_empty_value :
    EncodeHeader asciiToLower [kv "cookie" ""] ⟨[], 4096⟩
      = .ok ([byte 0x0f, byte 0x11, byte 0x81, byte 0x7f], ⟨[], 4096⟩) ∧
    EncodeHeader asciiToLower [kv "cookie" "9"] ⟨[], 4096⟩
      = .ok ([byte 0x0f, byte 0x11, byte 0x81, byte 0x7f], ⟨[], 4096⟩) ∧
    DecodeHeader [byte 0x0f, byte 0x11, byte 0x81, byte 0x7f] ⟨[], 4096⟩
      = .ok ([kv "cookie" "9"], ⟨[], 4096⟩) := by
  refine ⟨by decide, by decide, by decide⟩

/-- With a prefix width of at most 8 `encodeIntValue` never returns an error. -/
theorem encodeIntValue_ne_error (original : List Byte) {n : Nat} (hn : n ≤ 8) (value : Nat)
    (msg : String) : encodeIntValue original n value ≠ .error msg := by
  unfold encodeIntValue
  rw [if_neg (by omega)]
  cases original.getLast? with
  | none => simp
  | some last =>
    dsimp only
    split_ifs <;> simp

/-- Claim C36, amended. Prefix-width validation: `encodeIntValue` and
`decodeIntValue` return the error "bad n" for every prefix width `N > 8`,
whatever the value and the buffer are, and they return no error for any
`N ≤ 8`: the width 0 is not refused. -/
theorem prefix_width_validation (original : List Byte) (n value : Nat) :
    (n > 8 → decodeIntValue original n = .error "bad n" ∧
      encodeIntValue original n value = .error "bad n") ∧
    (n ≤ 8 → ∀ msg : String, decodeIntValue original n ≠ .error msg ∧
      encodeIntValue original n value ≠ .error msg) := by
  constructor
  · intro hn
    unfold decodeIntValue encodeIntValue
    simp only [if_pos hn, and_self]
  · intro hn msg
    exact ⟨decodeIntValue_ne_error original hn msg, encodeIntValue_ne_error original hn value msg⟩

theorem prefix_width_validation_witness :
    (9 > 8 ∧ decodeIntValue [byte 0, byte 5] 9 = .error "bad n" ∧
      encodeIntValue [byte 0, byte 5] 9 5 = .error "bad n") ∧
    ((0 : Nat) ≤ 8 ∧ decodeIntValue [byte 0, byte 5] 0 ≠ .error "bad n" ∧
      encodeIntValue [byte 0, byte 5] 0 5 ≠ .error "bad n") :=
  ⟨⟨by decide, (prefix_width_validation [byte 0, byte 5] 9 5).1 (by decide)⟩,
   ⟨by decide, (prefix_width_validation [byte 0, byte 5] 0 5).2 (by decide) "bad n"⟩⟩

/-! ## The encoder against the reference that evicts after every field -/

theorem rangeFind_append_of_none (p : KeyValue → Bool) (l x : List KeyValue)
    (hx : ∀ v ∈ x, ¬ p v = true) : ∀ c, rangeFind p (l ++ x) c = rangeFind p l c := by
  induction l with
  | nil =>
    intro c
    rw [List.nil_append, rangeFind_none p x c hx]
    rfl
  | cons a l ih =>
    intro c
    simp only [List.cons_append, rangeFind]
    split
    · rfl
    · exact ih _

/-- Entries behind the table that do not bear the name of the field do not
change what the lookup reports. -/
theorem searchHeaderTable_of_stale (R X : List KeyValue) (f : KeyValue)
    (hX : ∀ e ∈ X, e.Key ≠ f.Key) : searchHeaderTable (R ++ X) f = searchHeaderTable R f := by
  unfold searchHeaderTable
  rw [rangeFind_append_of_none _ R X (by intro v hv; simp [hX v hv]) 0,
    rangeFind_append_of_none _ R X (by intro v hv; simp [hX v hv]) 0]

/-- Entries behind the table that do not bear the name of the field do not
change what the encoder writes for the field, and they stay behind the table. -/
theorem encodeField_of_stale {lower : List Byte → List Byte} (f : KeyValue)
    (R X : List KeyValue) (hX : ∀ e ∈ X, e.Key ≠ f.Key) (b : List Byte) (D1 : List KeyValue)
    (h : encodeField lower f (R ++ X) = .ok (b, D1)) :
    ∃ R1, encodeField lower f R = .ok (b, R1) ∧ D1 = R1 ++ X ∧ (R1 = R ∨ R1 = f :: R) := by
  by_cases hck : lower f.Key = str "cookie"
  · rw [encodeField_cookie f (R ++ X) hck] at h
    simp only [Res.ok.injEq, Prod.mk.injEq] at h
    refine ⟨R, ?_, h.2.symm, Or.inl rfl⟩
    rw [encodeField_cookie f R hck, h.1]
  by_cases hsck : lower f.Key = str "set-cookie"
  · rw [encodeField_set_cookie f (R ++ X) hsck] at h
    simp only [Res.ok.injEq, Prod.mk.injEq] at h
    refine ⟨R, ?_, h.2.symm, Or.inl rfl⟩
    rw [encodeField_set_cookie f R hsck, h.1]
  have hsame := searchHeaderTable_of_stale R X f hX
  rcases hsr : searchHeaderTable R f with ⟨nh, ko, i⟩
  rw [hsr] at hsame
  cases nh
  · cases ko
    · rw [encodeField_of_full f (R ++ X) i hck hsck hsame] at h
      simp only [Res.ok.injEq, Prod.mk.injEq] at h
      refine ⟨R, ?_, h.2.symm, Or.inl rfl⟩
      rw [encodeField_of_full f R i hck hsck hsr, h.1]
    · rw [encodeField_of_name f (R ++ X) i hck hsck hsame] at h
      simp only [Res.ok.injEq, Prod.mk.injEq] at h
      refine ⟨f :: R, ?_, ?_, Or.inr rfl⟩
      · rw [encodeField_of_name f R i hck hsck hsr, h.1]
      · rw [← h.2, List.cons_append]
  · rw [encodeField_of_none f (R ++ X) ko i hck hsck hsame] at h
    simp only [Res.ok.injEq, Prod.mk.injEq] at h
    refine ⟨f :: R, ?_, ?_, Or.inr rfl⟩
    · rw [encodeField_of_none f R ko i hck hsck hsr, h.1]
    · rw [← h.2, List.cons_append]

/-- The loop of the reference, run on the evicted table, against the loop of
`EncodeHeader`, run on the table that keeps every entry: as long as no field
bears the name of an entry the reference has evicted, the octets are the same
and the table of the reference is the table of `EncodeHeader` evicted. -/
theorem refEncodeLoop_of_noStale {lower : List Byte → List Byte} (limit : Nat) :
    ∀ (plain : List KeyValue) (D : List KeyValue) (acc : List Byte), plain ≠ [] →
      noStaleName lower limit plain D = true →
      refEncodeLoop lower limit plain (cutHeader D limit) acc =
        (EncodeHeaderLoop lower plain D acc).bind fun r => .ok (r.1, cutHeader r.2 limit) := by
  intro plain
  induction plain with
  | nil => intro D acc h; exact absurd rfl h
  | cons f rest ih =>
    intro D acc _ hns
    rw [noStaleName, Bool.and_eq_true] at hns
    obtain ⟨hstale, hrest⟩ := hns
    cases he : encodeField lower f D with
    | error m => rw [he] at hrest; simp at hrest
    | crash => rw [he] at hrest; simp at hrest
    | stuck => rw [he] at hrest; simp at hrest
    | ok p =>
      obtain ⟨b, D1⟩ := p
      rw [he] at hrest
      simp only at hrest
      have hX : ∀ e ∈ D.drop (cutHeader D limit).length, e.Key ≠ f.Key := by
        intro e hm
        simpa using List.all_eq_true.1 hstale e hm
      have hD : cutHeader D limit ++ D.drop (cutHeader D limit).length = D := by
        have hpre : cutHeader D limit <+: D := cutHeaderLoop_keeps_head limit D 0
        conv_lhs => rw [List.prefix_iff_eq_take.1 hpre]
        rw [List.length_take, Nat.min_eq_left hpre.length_le, List.take_append_drop]
      obtain ⟨R1, heR, hD1, hR1⟩ := encodeField_of_stale f (cutHeader D limit)
        (D.drop (cutHeader D limit).length) hX b D1 (by rw [hD]; exact he)
      have hev : evictOldest R1 limit = cutHeader D1 limit := by
        rw [evictOldest_eq_cutHeader]
        rcases hR1 with h1 | h1
        · rw [hD1, h1, hD]
          exact cutHeader_cutHeader D limit
        · rw [hD1, h1, List.cons_append, hD]
          exact cutHeader_cons_cutHeader f D limit
      cases rest with
      | nil =>
        rw [refEncodeLoop, heR, Res.bind_ok, EncodeHeaderLoop_single f D acc b D1 he,
          Res.bind_ok]
        simp only [refEncodeLoop, hev]
      | cons g rest =>
        rw [refEncodeLoop, heR, Res.bind_ok, EncodeHeaderLoop_cons f g rest D acc b D1 he]
        simp only [hev]
        exact ih D1 (acc ++ b) (by simp) hrest

/-- From a state within its limit, `EncodeHeader` returns what the reference
returns on every non-empty list in which no field bears the name of an entry the
reference has evicted. -/
theorem EncodeHeader_eq_reference {lower : List Byte → List Byte} (S : HpackConn)
    (plain : List KeyValue) (hne : plain ≠ [])
    (hfit : tableSize S.DynamicTable ≤ S.TableSizeLimit)
    (hns : noStaleName lower S.TableSizeLimit plain S.DynamicTable = true) :
    EncodeHeader lower plain S = refEncodeHeader lower plain S := by
  have h := refEncodeLoop_of_noStale S.TableSizeLimit plain S.DynamicTable [] hne hns
  rw [cutHeader_of_fits _ _ hfit] at h
  unfold EncodeHeader refEncodeHeader
  rw [h, Res.bind_assoc]
  apply Res.bind_congr
  rintro ⟨b, d⟩ _
  rfl

/-- When the table and all the fields of the list fit under the limit, the
reference evicts nothing, so no field bears the name of an evicted entry. -/
theorem noStaleName_of_fits {lower : List Byte → List Byte} (limit : Nat) :
    ∀ (plain : List KeyValue) (dyn : List KeyValue),
      tableSize dyn + tableSize plain ≤ limit → noStaleName lower limit plain dyn = true := by
  intro plain
  induction plain with
  | nil => intro dyn _; rfl
  | cons f rest ih =>
    intro dyn hfit
    rw [tableSize_cons] at hfit
    have hrest := tableSize_nonneg rest
    have hpos := entrySize_pos f
    rw [noStaleName, Bool.and_eq_true]
    constructor
    · rw [cutHeader_of_fits dyn limit (by omega), List.drop_length]
      rfl
    · obtain ⟨b, d, he⟩ := @encodeField_ok lower f dyn
      rw [he]
      simp only
      apply ih
      rcases encodeField_table f dyn b d he with rfl | rfl
      · omega
      · rw [tableSize_cons]; omega

/-- Claim C22, amended. Eviction happens once per block, after its last
representation (resp. field). For every block and every initial state with size
within the limit (and `61 + k + len(block) < 65536`), whenever the reference
that evicts after every representation returns fields, a table and a limit
without error, `DecodeHeader` returns the same fields and the same limit, and a
table that starts with the reference's table and equals it when the block holds
no size update. For every non-empty header list and every initial state with
size within the limit such that no field bears the name of an entry the
reference has evicted by the time the field is written, `EncodeHeader` returns
what the reference that evicts after every field returns; this is the case
whenever the table of `S` and all the fields fit under the limit. -/
theorem eviction_once_per_block (lower : List Byte → List Byte) :
    (∀ (S : HpackConn) (enc : List Byte) (F T : List KeyValue) (L : Nat),
      tableSize S.DynamicTable ≤ S.TableSizeLimit →
      61 + S.DynamicTable.length + enc.length < 65536 →
      refDecodeHeader enc S = .ok (F, ⟨T, L⟩) →
      ∃ T1, DecodeHeader enc S = .ok (F, ⟨T1, L⟩) ∧ T <+: T1 ∧
        (opcodesAll notSizeUpdate enc.length enc S.DynamicTable S.TableSizeLimit = true →
          T1 = T)) ∧
    (∀ (S : HpackConn) (plain : List KeyValue), plain ≠ [] →
      tableSize S.DynamicTable ≤ S.TableSizeLimit →
      noStaleName lower S.TableSizeLimit plain S.DynamicTable = true →
      EncodeHeader lower plain S = refEncodeHeader lower plain S) ∧
    (∀ (S : HpackConn) (plain : List KeyValue),
      tableSize S.DynamicTable + tableSize plain ≤ S.TableSizeLimit →
      noStaleName lower S.TableSizeLimit plain S.DynamicTable = true) := by
  refine ⟨?_, ?_, ?_⟩
  · intro S enc F T L hfit hlen h
    obtain ⟨T1, h1, h2, h3⟩ := refDecodeLoop_refines enc.length enc S.DynamicTable
      S.DynamicTable S.TableSizeLimit [] F T L (List.prefix_refl _) hfit hlen h
    exact ⟨T1, h1, h2, h3 (cutHeader_of_fits _ _ hfit).symm⟩
  · intro S plain hne hfit hns
    exact EncodeHeader_eq_reference S plain hne hfit hns
  · intro S plain hfit
    exact noStaleName_of_fits S.TableSizeLimit plain S.DynamicTable hfit

theorem eviction_once_per_block_witness :
    refDecodeHeader [byte 0x40, byte 0x01, byte 0x61, byte 0x01, byte 0x62,
        byte 0x40, byte 0x01, byte 0x63, byte 0x01, byte 0x64] ⟨[kv "x" "y"], 34⟩
      = .ok ([kv "a" "b", kv "c" "d"], ⟨[kv "c" "d"], 34⟩) ∧
    (∃ T1, DecodeHeader [byte 0x40, byte 0x01, byte 0x61, byte 0x01, byte 0x62,
          byte 0x40, byte 0x01, byte 0x63, byte 0x01, byte 0x64] ⟨[kv "x" "y"], 34⟩
        = .ok ([kv "a" "b", kv "c" "d"], ⟨T1, 34⟩) ∧
      [kv "c" "d"] <+: T1 ∧
      (opcodesAll notSizeUpdate 10
          [byte 0x40, byte 0x01, byte 0x61, byte 0x01, byte 0x62,
            byte 0x40, byte 0x01, byte 0x63, byte 0x01, byte 0x64]
          [kv "x" "y"] 34 = true →
        T1 = [kv "c" "d"])) ∧
    refEncodeHeader asciiToLower [kv "a" "b", kv "c" "d"] ⟨[kv "x" "y"], 34⟩
      = .ok ([byte 0x40, byte 0x81, byte 0x1f, byte 0x81, byte 0x8f,
          byte 0x40, byte 0x81, byte 0x27, byte 0x81, byte 0x93], ⟨[kv "c" "d"], 34⟩) ∧
    EncodeHeader asciiToLower [kv "a" "b", kv "c" "d"] ⟨[kv "x" "y"], 34⟩
      = refEncodeHeader asciiToLower [kv "a" "b", kv "c" "d"] ⟨[kv "x" "y"], 34⟩ :=
  ⟨by decide,
   (eviction_once_per_block asciiToLower).1 ⟨[kv "x" "y"], 34⟩
     [byte 0x40, byte 0x01, byte 0x61, byte 0x01, byte 0x62,
       byte 0x40, byte 0x01, byte 0x63, byte 0x01, byte 0x64]
     [kv "a" "b", kv "c" "d"] [kv "c" "d"] 34 (by decide) (by decide) (by decide),
   by decide!,
   (eviction_once_per_block asciiToLower).2.1 ⟨[kv "x" "y"], 34⟩ [kv "a" "b", kv "c" "d"]
     (by simp) (by decide) (by decide!)⟩

end Hpack
